import Mathlib

/-!
Verification development for the bid-document-project repository.

The Python sources are embedded shallowly: text is `List Char`, Python
string primitives (`strip`, `lower`, `split`, substring `in`) are
executable Lean functions, database rows are structures, and every
scoring / parsing routine is a computable Lean function translated
statement-by-statement from the corresponding Python function.  The
theorems at the end of the file settle the claims about
`src/tender_parser.py`, `src/section_matcher.py`, `src/format_parser.py`
and `src/template_filler.py`.
-/

namespace BidDoc

/-- Text is modelled as a list of characters (Python `str`). -/
abbrev Str := List Char

/-- Convert a Lean string literal to the character-list model. -/
def cs (s : String) : Str := s.toList

/-- Python `str.isspace` for the whitespace characters relevant here
(the default charset stripped by `str.strip()`). -/
def pySpace (c : Char) : Bool :=
  c = ' ' || c = '\t' || c = '\n' || c = '\r' || c = '\x0b' || c = '\x0c'

/-- Python `str.strip()`: drop leading and trailing whitespace. -/
def pyStrip (s : Str) : Str :=
  ((s.dropWhile pySpace).reverse.dropWhile pySpace).reverse

/-- Uppercase-to-lowercase table for the ASCII range (the only cased
characters appearing in this code base). -/
def UPPER : List (Char × Char) :=
  [('A', 'a'), ('B', 'b'), ('C', 'c'), ('D', 'd'), ('E', 'e'), ('F', 'f'),
   ('G', 'g'), ('H', 'h'), ('I', 'i'), ('J', 'j'), ('K', 'k'), ('L', 'l'),
   ('M', 'm'), ('N', 'n'), ('O', 'o'), ('P', 'p'), ('Q', 'q'), ('R', 'r'),
   ('S', 's'), ('T', 't'), ('U', 'u'), ('V', 'v'), ('W', 'w'), ('X', 'x'),
   ('Y', 'y'), ('Z', 'z')]

/-- Single-character lowering, Python `str.lower()` restricted to the
ASCII range. -/
def lowChar (c : Char) : Char :=
  ((UPPER.find? (fun p => p.1 = c)).map Prod.snd).getD c

/-- Python `str.lower()`. -/
def lowStr (s : Str) : Str := s.map lowChar

/-- Decidable list-prefix test (used to build the substring test). -/
def isPre (n h : Str) : Bool :=
  match n, h with
  | [], _ => true
  | _ :: _, [] => false
  | a :: n, b :: h => a = b && isPre n h

/-- Python `needle in hay` for strings: substring occurrence. -/
def isSub (n h : Str) : Bool :=
  match h with
  | [] => n.isEmpty
  | _ :: t => isPre n h || isSub n t

/-- Python `s.split(sep)` for a one-character separator.  Matches
CPython semantics: `''.split(c) = ['']`, separators at the ends produce
empty fragments. -/
def pySplit (sep : Char) : Str → List Str
  | [] => [[]]
  | c :: rest =>
    let r := pySplit sep rest
    if c = sep then [] :: r
    else
      match r with
      | h :: t => (c :: h) :: t
      | [] => [[c]]

/-- Python `sep.join(parts)` for a one-character separator. -/
def pyJoin (sep : Char) : List Str → Str
  | [] => []
  | [x] => x
  | x :: rest => x ++ sep :: pyJoin sep rest

/-- Stable insertion (descending by key) used to model Python
`list.sort(key=..., reverse=True)`: an element moves in front of the
first strictly-smaller key, so equal keys keep their original order. -/
def insDesc {α : Type} (key : α → Int) (a : α) : List α → List α
  | [] => [a]
  | b :: t => if key b < key a then a :: b :: t else b :: insDesc key a t

/-- Stable descending sort by an integer key, modelling Python
`list.sort(key=..., reverse=True)` (Timsort is stable; any stable sort
by the same key yields the same list). -/
def pySortDesc {α : Type} (key : α → Int) (l : List α) : List α :=
  l.foldl (fun acc a => insDesc key a acc) []

/-!
## Section-type taxonomy

`SECTION_KEYWORD_MAP`, src/tender_parser.py lines 18-93.  Python dicts
preserve insertion order, so the taxonomy is an ordered association
list.
-/

/-- One entry of `SECTION_KEYWORD_MAP`: canonical section type, its
keywords and the attachment-library category. -/
structure TypeInfo where
  stype : Str
  keywords : List Str
  category : Str
deriving DecidableEq

/-- `SECTION_KEYWORD_MAP` from src/tender_parser.py lines 18-93, in
declaration order. -/
def SECTION_KEYWORD_MAP : List TypeInfo :=
  [ ⟨cs (r"投标函"), [cs (r"投标函"), cs (r"投标书")], cs (r"投标函模板")⟩,
    ⟨cs (r"报价表"),
      [cs (r"报价"), cs (r"分项报价"), cs (r"投标报价"), cs (r"开标一览表"),
       cs (r"投标总价"), cs (r"工程量清单")], cs (r"报价表")⟩,
    ⟨cs (r"法定代表人证明"),
      [cs (r"法定代表人"), cs (r"法人身份"), cs (r"法人证明"), cs (r"法人授权")],
      cs (r"法定代表人证明")⟩,
    ⟨cs (r"授权委托书"),
      [cs (r"授权委托"), cs (r"委托书"), cs (r"总公司授权"), cs (r"授权文件")],
      cs (r"授权委托书")⟩,
    ⟨cs (r"营业执照"),
      [cs (r"营业执照"), cs (r"企业法人"), cs (r"工商注册"), cs (r"统一社会信用")],
      cs (r"营业执照")⟩,
    ⟨cs (r"投标保证金"),
      [cs (r"保证金"), cs (r"投标担保"), cs (r"保函")], cs (r"其他")⟩,
    ⟨cs (r"基本情况表"),
      [cs (r"基本情况"), cs (r"投标人情况"), cs (r"企业概况"), cs (r"公司简介")],
      cs (r"其他")⟩,
    ⟨cs (r"CMA证书"),
      [cs (r"CMA"), cs (r"CNAS"), cs (r"资质认定"), cs (r"检验检测资质"),
       cs (r"认可证书"), cs (r"计量认证")], cs (r"CMA证书")⟩,
    ⟨cs (r"资质证书"),
      [cs (r"资质证书"), cs (r"资质等级"), cs (r"行业资质"), cs (r"专业资质")],
      cs (r"CMA证书")⟩,
    ⟨cs (r"信誉承诺书"),
      [cs (r"信誉"), cs (r"承诺书"), cs (r"无违法"), cs (r"无行贿"),
       cs (r"廉洁"), cs (r"诚信")], cs (r"信誉承诺书")⟩,
    ⟨cs (r"人员资料"),
      [cs (r"人员"), cs (r"项目负责人"), cs (r"技术负责人"), cs (r"职称证"),
       cs (r"社保"), cs (r"资格证书"), cs (r"采样人员"), cs (r"检测人员"),
       cs (r"持证上岗"), cs (r"人员配置")], cs (r"人员资料")⟩,
    ⟨cs (r"技术方案"),
      [cs (r"技术方案"), cs (r"实施方案"), cs (r"服务方案"), cs (r"检测方案"),
       cs (r"技术路线"), cs (r"工作方案"), cs (r"质量保证方案"), cs (r"技术措施")],
      cs (r"技术方案")⟩,
    ⟨cs (r"技术偏差表"),
      [cs (r"技术偏差"), cs (r"偏差表"), cs (r"技术要求偏差"), cs (r"响应偏差")],
      cs (r"技术方案")⟩,
    ⟨cs (r"业绩证明"),
      [cs (r"业绩"), cs (r"类似项目"), cs (r"合同"), cs (r"中标通知"),
       cs (r"验收报告"), cs (r"项目经验"), cs (r"同类项目")], cs (r"业绩证明")⟩,
    ⟨cs (r"售后服务"),
      [cs (r"售后"), cs (r"服务承诺"), cs (r"质量保证"), cs (r"公司优势"),
       cs (r"服务保障"), cs (r"应急预案")], cs (r"其他")⟩,
    ⟨cs (r"财务报表"),
      [cs (r"财务"), cs (r"审计报告"), cs (r"资产负债"), cs (r"财务报表"),
       cs (r"纳税")], cs (r"其他")⟩,
    ⟨cs (r"安全生产"),
      [cs (r"安全生产"), cs (r"安全管理"), cs (r"安全制度"), cs (r"安全许可")],
      cs (r"其他")⟩,
    ⟨cs (r"质量管理"),
      [cs (r"质量管理"), cs (r"ISO"), cs (r"体系认证"), cs (r"管理体系"),
       cs (r"质量体系")], cs (r"其他")⟩ ]

/-!
## classify_section (src/tender_parser.py lines 329-354)
-/

/-- Raw keyword score of one taxonomy entry against the lowered text:
sum of `len(kw)` over keywords with `kw.lower() in text_lower`
(src/tender_parser.py lines 340-344). -/
def kwScore (textLower : Str) (kws : List Str) : Nat :=
  (kws.map (fun kw => if isSub (lowStr kw) textLower then kw.length else 0)).sum

/-- The best-entry fold of `classify_section`: walk the taxonomy in
declaration order, replacing the accumulator whenever the raw score is
strictly greater (src/tender_parser.py lines 339-349). -/
def classifyFold (textLower : Str) (acc : Str × Str × Nat) :
    List TypeInfo → Str × Str × Nat
  | [] => acc
  | e :: rest =>
    classifyFold textLower
      (if kwScore textLower e.keywords > acc.2.2
       then (e.stype, e.category, kwScore textLower e.keywords)
       else acc) rest

/-- `classify_section(text)` from src/tender_parser.py lines 329-354:
returns `(section_type, category, normalized_score)`. -/
def classify_section (text : Str) : Str × Str × Nat :=
  let textLower := lowStr text
  let best := classifyFold textLower (cs (r"其他"), cs (r"其他"), 0) SECTION_KEYWORD_MAP
  (best.1, best.2.1, if best.2.2 > 0 then min 100 (best.2.2 * 15) else 0)

/-- Maximum raw keyword score over a taxonomy segment (0 when empty). -/
def maxKw (tl : Str) (l : List TypeInfo) : Nat :=
  (l.map (fun e => kwScore tl e.keywords)).foldr max 0

/-- Specification-side raw score of a taxonomy entry: the sum of the
character-lengths of the entry's keywords that occur case-insensitively
as substrings of the text, stated with the mathematical infix
relation. -/
def specRawScore (text : Str) (e : TypeInfo) : Nat :=
  (e.keywords.map
    (fun kw => if lowStr kw <:+: lowStr text then kw.length else 0)).sum

/-- Specification-side maximum raw score over the whole taxonomy. -/
def specMaxScore (text : Str) : Nat :=
  (SECTION_KEYWORD_MAP.map (specRawScore text)).foldr max 0


/-!
## Library records (src/models.py) and the matching engine
(src/section_matcher.py)

Dates are day numbers (integers); `today` is passed explicitly where the
Python code calls `date.today()`.  Nullable text columns are modelled as
`Str` with the empty string standing for NULL (Python truthiness tests
`if col:` treat both alike); nullable dates and amounts are `Option`.
Contract amounts are rationals (Python floats denote rationals).
-/

/-- A `CompanyAttachment` row (src/models.py lines 102-120). -/
structure CompanyAttachment where
  id : Nat
  name : Str
  category : Str
  file_path : Str
  expiry_date : Option Int
  tags : Str
deriving DecidableEq

/-- One recommendation produced by `match_attachment`
(src/section_matcher.py lines 50-56 and 76-82). -/
structure AttMatch where
  id : Nat
  name : Str
  category : Str
  score : Int
  expired : Bool
deriving DecidableEq

/-- A `Performance` row (src/models.py lines 60-83); `files` is the
number of attached proof files (`len(perf.files)`). -/
structure Performance where
  id : Nat
  project_name : Str
  client_name : Str
  contract_amount : Option Rat
  service_start : Option Int
  service_end : Option Int
  service_types : Str
  testing_params : Str
  files : Nat
deriving DecidableEq

/-- One recommendation produced by `match_performance`
(src/section_matcher.py lines 225-234). -/
structure PerfMatch where
  id : Nat
  project_name : Str
  client_name : Str
  contract_amount : Option Rat
  service_start : Option Int
  service_end : Option Int
  service_types : Str
  score : Int
deriving DecidableEq

/-- The tag set of a comma-separated tag string:
`{t.strip().lower() for t in s.split(',') if t.strip()}`
(src/section_matcher.py lines 16-17), as a duplicate-free list. -/
def tagSet (s : Str) : List Str :=
  (((pySplit ',' s).filter (fun t => pyStrip t ≠ [])).map
    (fun t => lowStr (pyStrip t))).dedup

/-- `_tag_overlap(a, b)` from src/section_matcher.py lines 12-18: the
number of tags common to both comma-separated strings. -/
def tagOverlap (a b : Str) : Nat :=
  if a = [] ∨ b = [] then 0
  else ((tagSet a).filter (fun t => t ∈ tagSet b)).length

/-- Pass-1 entry of `match_attachment` for an exact-category record
(src/section_matcher.py lines 40-56). -/
def attExactEntry (today : Int) (att : CompanyAttachment) : AttMatch :=
  let score : Int := 80
  let score := match att.expiry_date with
    | some d => if d ≥ today then score + 10 else score - 30
    | none => score
  let score := if att.file_path ≠ [] then score + 10 else score
  ⟨att.id, att.name, att.category, min 100 (max 0 score),
   match att.expiry_date with
   | some d => decide (d < today)
   | none => false⟩

/-- Pass-2 (fuzzy) entry of `match_attachment` for a record of another
category (src/section_matcher.py lines 63-82); `none` when the fuzzy
score is 0. -/
def attFuzzyEntry (today : Int) (stype : Str) (att : CompanyAttachment) :
    Option AttMatch :=
  let score : Int := 0
  let score := if stype ≠ [] ∧ isSub stype att.name then score + 40 else score
  let score := if stype ≠ [] ∧ att.tags ≠ [] ∧ isSub stype att.tags
    then score + 30 else score
  if score > 0 then
    let score := if att.file_path ≠ [] then score + 10 else score
    let score := match att.expiry_date with
      | some d => if d < today then score - 30 else score
      | none => score
    some ⟨att.id, att.name,
      (if att.category = [] then cs (r"未分类") else att.category),
      min 100 (max 0 score),
      match att.expiry_date with
      | some d => decide (d < today)
      | none => false⟩
  else none

/-- The pass-1 result list of `match_attachment`: all records whose
category equals the query, scored (src/section_matcher.py lines 39-56). -/
def attExactPass (today : Int) (lib : List CompanyAttachment)
    (category : Str) : List AttMatch :=
  (lib.filter (fun a => a.category = category)).map (attExactEntry today)

/-- `match_attachment(section_type, category)` from
src/section_matcher.py lines 29-86: exact pass, fuzzy pass when fewer
than 3 exact hits, stable sort by score descending, top 5. -/
def match_attachment (today : Int) (lib : List CompanyAttachment)
    (stype category : Str) : List AttMatch :=
  let exact := attExactPass today lib category
  let results :=
    if exact.length < 3 then
      exact ++ ((lib.filter (fun a => ¬ a.category = category)).filterMap
        (attFuzzyEntry today stype))
    else exact
  (pySortDesc (fun m => m.score) results).take 5

/-- Recency increment of `match_performance`
(src/section_matcher.py lines 196-200): +30 when the service start is
on or after `cutoff = today - years*365`, +15 when on or after
`cutoff - 365`. -/
def perfTimeBonus (today years : Int) (ss : Option Int) : Int :=
  match ss with
  | some s =>
    if s ≥ today - years * 365 then 30
    else if s ≥ today - years * 365 - 365 then 15
    else 0
  | none => 0

/-- Tag-overlap increment of `match_performance`
(src/section_matcher.py lines 202-210): `overlap * mult` guarded by
both tag strings being non-empty. -/
def perfTagBonus (projectTagsSet : List Str) (field : Str) (mult : Int) : Int :=
  if projectTagsSet ≠ [] ∧ field ≠ []
  then (tagOverlap (pyJoin ',' projectTagsSet) field : Int) * mult
  else 0

/-- Contract-amount increment of `match_performance`
(src/section_matcher.py lines 212-219). -/
def perfTierBonus (amount : Option Rat) : Int :=
  match amount with
  | some amt =>
    if amt > 0 then
      (if amt ≥ 100 then 15
       else if amt ≥ 50 then 10
       else 5)
    else 0
  | none => 0

/-- Proof-file increment of `match_performance`
(src/section_matcher.py lines 221-223). -/
def perfFileBonus (files : Nat) : Int :=
  if files > 0 then min ((files : Int) * 5) 15 else 0

/-- Scored entry of `match_performance` for one performance record
(src/section_matcher.py lines 193-234): the sequential `score += ...`
increments written as their sum.  `projectTagsSet` is the
already-computed project tag set. -/
def perfEntry (today : Int) (projectTagsSet : List Str) (years : Int)
    (perf : Performance) : PerfMatch :=
  let score : Int :=
    perfTimeBonus today years perf.service_start
    + perfTagBonus projectTagsSet perf.service_types 20
    + perfTagBonus projectTagsSet perf.testing_params 10
    + perfTierBonus perf.contract_amount
    + perfFileBonus perf.files
  ⟨perf.id, perf.project_name, perf.client_name, perf.contract_amount,
   perf.service_start, perf.service_end, perf.service_types,
   min 100 (max 0 score)⟩

/-- `match_performance(project_tags, years)` from
src/section_matcher.py lines 174-237: score every record, stable sort
by score descending, top 10. -/
def match_performance (today : Int) (lib : List Performance)
    (projectTags : Str) (years : Int) : List PerfMatch :=
  let tags := tagSet projectTags
  (pySortDesc (fun m => m.score) (lib.map (perfEntry today tags years))).take 10

/-- Number of common elements of two duplicate-free tag lists (the
specification's notion of tag overlap). -/
def overlapCount (a b : List Str) : Nat :=
  (a.filter (fun t => t ∈ b)).length

/-- Claimed (`spec.md`) exact-category attachment score: base 80, plus
10 if the record is unexpired or has no expiry date, minus 30 if
expired, plus 10 if a file is present, clipped to [0, 100].  Stated
from the claim's words, to be compared with `attExactEntry`. -/
def specC1Score (today : Int) (att : CompanyAttachment) : Int :=
  min 100 (max 0 (80
    + (if (match att.expiry_date with
           | some d => decide (today ≤ d)
           | none => true) then 10 else 0)
    - (if (match att.expiry_date with
           | some d => decide (d < today)
           | none => false) then 30 else 0)
    + (if att.file_path ≠ [] then 10 else 0)))

/-- Claimed (`spec.md`) performance score: 30 points when the service
start lies within N years (N x 365 days) of today, 15 when within 2N
years but not within N years, plus the tag-overlap, contract-tier and
file bonuses of the code.  Stated from the claim's words, to be
compared with `perfEntry`. -/
def specC2Score (today : Int) (projectTags : Str) (years : Int)
    (perf : Performance) : Int :=
  let timeB : Int := match perf.service_start with
    | some s =>
      if today - s ≤ years * 365 then 30
      else if today - s ≤ 2 * years * 365 then 15
      else 0
    | none => 0
  let tagB : Int := 20 * overlapCount (tagSet projectTags) (tagSet perf.service_types)
    + 10 * overlapCount (tagSet projectTags) (tagSet perf.testing_params)
  let tierB : Int := match perf.contract_amount with
    | some amt =>
      if amt ≥ 100 then 15
      else if amt ≥ 50 then 10
      else if amt > 0 then 5
      else 0
    | none => 0
  let fileB : Int := min ((perf.files : Int) * 5) 15
  min 100 (max 0 (timeB + tagB + tierB + fileB))


/-!
## format_parser (src/format_parser.py)

The .docx body is a list of block elements (paragraphs and tables, as
python-docx exposes them).  `parse_format_template` is modelled from the
point after the file has been opened; the unopenable-file branch
(lines 98-107) returns `success = False` before any parsing and is not
part of the claims about section structure.
-/

/-- A paragraph of the format template: its text and style name. -/
structure FPara where
  text : Str
  style : Str
deriving DecidableEq

/-- A body-level element of a .docx document: paragraph or table. -/
inductive FBody where
  | p (par : FPara)
  | tbl
deriving DecidableEq

/-- Heading level after the `sub_num -> sub`, `major_num -> major`
mapping (src/format_parser.py lines 227-231). -/
inductive HeadLevel where
  | major
  | sub
deriving DecidableEq

/-- `doc.paragraphs`: the paragraphs of the body in order. -/
def fparas (body : List FBody) : List FPara :=
  body.filterMap (fun e =>
    match e with
    | .p par => some par
    | .tbl => none)

/-- Number of tables in the body (`len(doc.tables)`). -/
def ftables (body : List FBody) : Nat :=
  (body.filter (fun e =>
    match e with
    | .p _ => false
    | .tbl => true)).length

/-- Characters of the Chinese-numeral class
`[一二三四五六七八九十百]` of `HEADING_PATTERNS`. -/
def isCnNum (c : Char) : Bool := (cs (r"一二三四五六七八九十百")).contains c

/-- Heading delimiter class `[、.．]`. -/
def isDelim (c : Char) : Bool := (cs (r"、.．")).contains c

/-- Opening parenthesis class `[（(]`. -/
def isOpenPa (c : Char) : Bool := c = '（' || c = '('

/-- Closing parenthesis class `[）)]`. -/
def isClosePa (c : Char) : Bool := c = '）' || c = ')'

/-- The `(.+)` tail of a heading pattern: the rest of the line. -/
def takeLine (s : Str) : Str := s.takeWhile (fun c => c ≠ '\n')

/-- Heading pattern 1, `^\s*([一二三四五六七八九十百]+)\s*[、.．]\s*(.+)`
(src/format_parser.py line 17): returns the numeral group and the raw
name group. -/
def pat1 (t : Str) : Option (Str × Str) :=
  let s := t.dropWhile pySpace
  let num := s.takeWhile isCnNum
  if num = [] then none
  else
    match (s.dropWhile isCnNum).dropWhile pySpace with
    | c :: s3 =>
      if isDelim c then
        let name := takeLine (s3.dropWhile pySpace)
        if name = [] then none else some (num, name)
      else none
    | [] => none

/-- Heading pattern 2,
`^\s*[（(]\s*([一二三四五六七八九十百]+)\s*[）)]\s*(.+)`
(src/format_parser.py line 19). -/
def pat2 (t : Str) : Option (Str × Str) :=
  match t.dropWhile pySpace with
  | c :: s1 =>
    if isOpenPa c then
      let s2 := s1.dropWhile pySpace
      let num := s2.takeWhile isCnNum
      if num = [] then none
      else
        match (s2.dropWhile isCnNum).dropWhile pySpace with
        | d :: s4 =>
          if isClosePa d then
            let name := takeLine (s4.dropWhile pySpace)
            if name = [] then none else some (num, name)
          else none
        | [] => none
    else none
  | [] => none

/-- Heading pattern 3, `^\s*第\s*([一二三四五六七八九十百\d]+)\s*部分\s*(.+)`
(src/format_parser.py line 21). -/
def pat3 (t : Str) : Option (Str × Str) :=
  match t.dropWhile pySpace with
  | c :: s1 =>
    if c = '第' then
      let s2 := s1.dropWhile pySpace
      let num := s2.takeWhile (fun d => isCnNum d || d.isDigit)
      if num = [] then none
      else
        let s3 := (s2.dropWhile (fun d => isCnNum d || d.isDigit)).dropWhile pySpace
        if isPre (cs (r"部分")) s3 then
          let name := takeLine ((s3.drop 2).dropWhile pySpace)
          if name = [] then none else some (num, name)
        else none
    else none
  | [] => none

/-- Heading pattern 4, `^\s*(\d+)\s*[、.．]\s*(.+)`
(src/format_parser.py line 23). -/
def pat4 (t : Str) : Option (Str × Str) :=
  let s := t.dropWhile pySpace
  let num := s.takeWhile Char.isDigit
  if num = [] then none
  else
    match (s.dropWhile Char.isDigit).dropWhile pySpace with
    | c :: s3 =>
      if isDelim c then
        let name := takeLine (s3.dropWhile pySpace)
        if name = [] then none else some (num, name)
      else none
    | [] => none

/-- Heading pattern 5, `^\s*[（(]\s*(\d+)\s*[）)]\s*(.+)`
(src/format_parser.py line 25). -/
def pat5 (t : Str) : Option (Str × Str) :=
  match t.dropWhile pySpace with
  | c :: s1 =>
    if isOpenPa c then
      let s2 := s1.dropWhile pySpace
      let num := s2.takeWhile Char.isDigit
      if num = [] then none
      else
        match (s2.dropWhile Char.isDigit).dropWhile pySpace with
        | d :: s4 =>
          if isClosePa d then
            let name := takeLine (s4.dropWhile pySpace)
            if name = [] then none else some (num, name)
          else none
        | [] => none
    else none
  | [] => none

/-- `CN_NUM_MAP` from src/format_parser.py lines 29-34. -/
def CN_NUM_MAP : List (Str × Nat) :=
  [(cs (r"一"), 1), (cs (r"二"), 2), (cs (r"三"), 3), (cs (r"四"), 4),
   (cs (r"五"), 5), (cs (r"六"), 6), (cs (r"七"), 7), (cs (r"八"), 8),
   (cs (r"九"), 9), (cs (r"十"), 10),
   (cs (r"十一"), 11), (cs (r"十二"), 12), (cs (r"十三"), 13),
   (cs (r"十四"), 14), (cs (r"十五"), 15), (cs (r"十六"), 16),
   (cs (r"十七"), 17), (cs (r"十八"), 18), (cs (r"十九"), 19),
   (cs (r"二十"), 20)]

/-- Decimal value of a digit string. -/
def digitsVal (s : Str) : Nat :=
  s.foldl (fun acc c => acc * 10 + (c.toNat - 48)) 0

/-- `_cn_to_int` from src/format_parser.py lines 37-44: table lookup,
falling back to `int(cn)` (0 when that raises). -/
def cnToInt (s : Str) : Nat :=
  match CN_NUM_MAP.find? (fun q => q.1 = s) with
  | some q => q.2
  | none => if s ≠ [] ∧ s.all Char.isDigit then digitsVal s else 0

/-- Trailing-colon cleanup `re.sub(r'[：:]+$', '', name)`
(src/format_parser.py line 215). -/
def stripColons (s : Str) : Str :=
  (s.reverse.dropWhile (fun c => c = '：' || c = ':')).reverse

/-- Name cleanup and length gate shared by all heading patterns
(src/format_parser.py lines 211-233): strip, drop trailing colons,
strip again, then require 2-60 characters. -/
def finishHead (lvl : HeadLevel) (ordnum : Nat) (name : Str) :
    Option (HeadLevel × Str × Nat) :=
  let n2 := pyStrip (stripColons (pyStrip name))
  if 2 ≤ n2.length ∧ n2.length ≤ 60 then some (lvl, n2, ordnum) else none

/-- `_is_heading_style` (src/format_parser.py lines 47-50). -/
def isHeadingStyle (style : Str) : Bool :=
  isSub (cs (r"heading")) (lowStr style) || isSub (cs (r"title")) (lowStr style)
    || isSub (cs (r"标题")) (lowStr style)

/-- `_match_heading(text, paragraph)` from src/format_parser.py
lines 190-241: length and prefix gates, then the five patterns in
priority order (a pattern whose cleaned name fails the length gate
falls through to the next), then the Word-heading-style fallback. -/
def matchHeading (t : Str) (styleHeading : Bool) :
    Option (HeadLevel × Str × Nat) :=
  if t.length > 100 then none
  else if isPre (cs (r"注：")) t || isPre (cs (r"备注")) t || isPre (cs (r"说明")) t then none
  else
    let r1 := match pat1 t with
      | some (num, name) => finishHead .major (cnToInt num) name
      | none => none
    let r2 := match pat2 t with
      | some (num, name) => finishHead .sub (cnToInt num) name
      | none => none
    let r3 := match pat3 t with
      | some (num, name) => finishHead .major (cnToInt num) name
      | none => none
    let r4 := match pat4 t with
      | some (num, name) => finishHead .major (digitsVal num) name
      | none => none
    let r5 := match pat5 t with
      | some (num, name) => finishHead .sub (digitsVal num) name
      | none => none
    match r1 <|> r2 <|> r3 <|> r4 <|> r5 with
    | some h => some h
    | none =>
      if styleHeading ∧ 2 ≤ t.length ∧ t.length ≤ 60
      then some (.major, t, 0)
      else none

/-- One recognised heading of the first scan pass
(src/format_parser.py lines 123-138). -/
structure RawHeading where
  para_index : Nat
  heading_text : Str
  section_name : Str
  heading_level : HeadLevel
  order_num : Nat
deriving DecidableEq

/-- First scan pass of `parse_format_template`
(src/format_parser.py lines 123-138): enumerate paragraphs, skip blank
ones, record every heading with its paragraph index. -/
def scanHeadings (i : Nat) : List FPara → List RawHeading
  | [] => []
  | par :: rest =>
    let t := pyStrip par.text
    (if t ≠ [] then
      match matchHeading t (isHeadingStyle par.style) with
      | some (lvl, name, num) => [⟨i, t, name, lvl, num⟩]
      | none => []
     else []) ++ scanHeadings (i + 1) rest

/-- `_build_table_index` (src/format_parser.py lines 244-266): the
number of paragraphs preceding each table in body order. -/
def tableIndexAux (cnt : Nat) : List FBody → List Nat
  | [] => []
  | .p _ :: rest => tableIndexAux (cnt + 1) rest
  | .tbl :: rest => cnt :: tableIndexAux cnt rest

/-- Table position index of a body. -/
def tableIndex (body : List FBody) : List Nat := tableIndexAux 0 body

/-- `_range_has_table` (src/format_parser.py lines 269-274). -/
def rangeHasTable (positions : List Nat) (a b : Nat) : Bool :=
  positions.any (fun t => a ≤ t && t ≤ b)

/-- One section of the parse result (src/format_parser.py
lines 167-179). -/
structure FSection where
  order : Nat
  section_name : Str
  heading_text : Str
  para_index : Nat
  heading_level : HeadLevel
  section_type : Str
  category : Str
  match_score : Nat
  content_start : Nat
  content_end : Nat
  has_table : Bool
deriving DecidableEq

/-- Second pass of `parse_format_template`
(src/format_parser.py lines 152-179): content range of each heading,
table lookup and classification. -/
def buildSections (totalParas : Nat) (tbls : List Nat) (ord : Nat) :
    List RawHeading → List FSection
  | [] => []
  | h :: rest =>
    let cstart := h.para_index + 1
    let cend := match rest with
      | next :: _ => next.para_index
      | [] => totalParas
    let cls := classify_section h.section_name
    ⟨ord + 1, h.section_name, h.heading_text, h.para_index, h.heading_level,
      cls.1, cls.2.1, cls.2.2, cstart, cend, rangeHasTable tbls cstart cend⟩
      :: buildSections totalParas tbls (ord + 1) rest

/-- Result of `parse_format_template` (the `message` string is
omitted). -/
structure FParseResult where
  success : Bool
  sections : List FSection
  total_paragraphs : Nat
  total_tables : Nat
deriving DecidableEq

/-- `parse_format_template` from src/format_parser.py lines 68-187,
modelled on an already-opened document body. -/
def parse_format_template (body : List FBody) : FParseResult :=
  let paragraphs := fparas body
  let totalParas := paragraphs.length
  let totalTables := ftables body
  if totalParas = 0 then ⟨false, [], 0, totalTables⟩
  else
    let raw := scanHeadings 0 paragraphs
    if raw = [] then ⟨false, [], totalParas, totalTables⟩
    else ⟨true, buildSections totalParas (tableIndex body) 0 raw,
      totalParas, totalTables⟩


/-- Concrete four-paragraph format template used to settle C3: two
recognised headings at paragraphs 0 and 2. -/
def ceBodyC3 : List FBody :=
  [.p ⟨cs (r"一、投标函"), []⟩, .p ⟨cs (r"内容甲"), []⟩,
   .p ⟨cs (r"二、报价表"), []⟩, .p ⟨cs (r"内容乙"), []⟩]


/-!
## template_filler placeholders (src/template_filler.py)
-/

/-- The data fields of `_get_project_data`
(src/template_filler.py lines 70-83). -/
inductive PField where
  | company_name
  | project_name
  | project_code
  | bidder_name
  | agent_name
  | total_price
  | max_price
  | current_date
  | legal_rep
  | project_leader
  | tech_leader
  | service_period
deriving DecidableEq

/-- The project-data dictionary built by `_get_project_data`; every
field is always present. -/
structure ProjectData where
  company_name : Str
  project_name : Str
  project_code : Str
  bidder_name : Str
  agent_name : Str
  total_price : Str
  max_price : Str
  current_date : Str
  legal_rep : Str
  project_leader : Str
  tech_leader : Str
  service_period : Str
deriving DecidableEq

/-- `project_data[field]`. -/
def getField (pd : ProjectData) : PField → Str
  | .company_name => pd.company_name
  | .project_name => pd.project_name
  | .project_code => pd.project_code
  | .bidder_name => pd.bidder_name
  | .agent_name => pd.agent_name
  | .total_price => pd.total_price
  | .max_price => pd.max_price
  | .current_date => pd.current_date
  | .legal_rep => pd.legal_rep
  | .project_leader => pd.project_leader
  | .tech_leader => pd.tech_leader
  | .service_period => pd.service_period

/-- `PLACEHOLDER_FIELD_MAP` from src/template_filler.py lines 29-63, in
declaration order. -/
def PLACEHOLDER_FIELD_MAP : List (Str × PField) :=
  [(cs (r"公司名称"), .company_name),
   (cs (r"投标人名称"), .company_name),
   (cs (r"投标人"), .company_name),
   (cs (r"供应商名称"), .company_name),
   (cs (r"单位名称"), .company_name),
   (cs (r"项目名称"), .project_name),
   (cs (r"项目编号"), .project_code),
   (cs (r"招标编号"), .project_code),
   (cs (r"招标人"), .bidder_name),
   (cs (r"采购人"), .bidder_name),
   (cs (r"委托单位"), .bidder_name),
   (cs (r"代理机构"), .agent_name),
   (cs (r"招标代理"), .agent_name),
   (cs (r"投标总价"), .total_price),
   (cs (r"投标报价"), .total_price),
   (cs (r"报价"), .total_price),
   (cs (r"最高限价"), .max_price),
   (cs (r"日期"), .current_date),
   (cs (r"年月日"), .current_date),
   (cs (r"法定代表人"), .legal_rep),
   (cs (r"项目负责人"), .project_leader),
   (cs (r"技术负责人"), .tech_leader),
   (cs (r"服务期"), .service_period),
   (cs (r"服务期限"), .service_period),
   (cs (r"工期"), .service_period)]

/-- `_resolve_placeholder(key, project_data)` from
src/template_filler.py lines 245-260: strip, exact lookup, then
substring/superstring fuzzy lookup in declaration order, else the key
rewritten back in brackets. -/
def resolvePlaceholder (key : Str) (pd : ProjectData) : Str :=
  let k := pyStrip key
  match PLACEHOLDER_FIELD_MAP.find? (fun p => p.1 = k) with
  | some p => getField pd p.2
  | none =>
    match PLACEHOLDER_FIELD_MAP.find? (fun p => isSub p.1 k || isSub k p.1) with
    | some p => getField pd p.2
    | none => '[' :: (k ++ [']'])

/-- Opening-bracket class `[\[【]` of `BRACKET_PLACEHOLDER`
(src/template_filler.py line 23). -/
def bracketOpen (c : Char) : Bool := c = '[' || c = '【'

/-- Closing-bracket class `[】\]]`. -/
def bracketClose (c : Char) : Bool := c = ']' || c = '】'

/-- Attempt to match the tail of `BRACKET_PLACEHOLDER` right after an
opening bracket: the match succeeds exactly when the first closing
bracket is preceded by at least one non-closing character (the lazy
group); returns the raw group segment and the text after the closing
bracket. -/
def bracketMatchAt (rest : Str) : Option (Str × Str) :=
  let seg := rest.takeWhile (fun c => ! bracketClose c)
  match rest.dropWhile (fun c => ! bracketClose c) with
  | _ :: after => if seg = [] then none else some (seg, after)
  | [] => none

/-- Whether `BRACKET_PLACEHOLDER.search` finds a match anywhere. -/
def hasBracketMatch : Str → Bool
  | [] => false
  | c :: rest => (bracketOpen c && (bracketMatchAt rest).isSome) || hasBracketMatch rest

/-- `UNDERLINE_PLACEHOLDER.search` (`_{3,}`, src/template_filler.py
line 26): at least three consecutive underscores. -/
def hasUnderlineMatch (s : Str) : Bool := isSub (cs (r"___")) s

/-- `BRACKET_PLACEHOLDER.sub(lambda m: _resolve_placeholder(m.group(1),
project_data), text)`: scan left to right, replacing each
non-overlapping bracket placeholder through `resolvePlaceholder`
(src/template_filler.py lines 195-197 and 231-233).  The fuel argument
only bounds the recursion; every step consumes at least one character,
so `s.length` fuel always suffices. -/
def bracketSubGo (pd : ProjectData) : Nat → Str → Str
  | 0, s => s
  | _ + 1, [] => []
  | fuel + 1, c :: rest =>
    if bracketOpen c then
      match bracketMatchAt rest with
      | some (seg, after) => resolvePlaceholder seg pd ++ bracketSubGo pd fuel after
      | none => c :: bracketSubGo pd fuel rest
    else c :: bracketSubGo pd fuel rest

/-- The bracket-placeholder substitution on a text. -/
def bracketSub (pd : ProjectData) (s : Str) : Str :=
  bracketSubGo pd s.length s

/-- `_replace_paragraph_placeholders` from src/template_filler.py
lines 168-205, on a paragraph given as its list of run texts: early
return when the text is empty or has neither bracket nor underline
placeholder; per-run substitution; then, if a (cross-run) bracket
pattern remains in the merged text, `_replace_cross_run_placeholders`
(lines 208-242) substitutes on the merged text, writing the result into
the first run when it differs. -/
def replaceParagraphPlaceholders (pd : ProjectData) (runs : List Str) : List Str :=
  let full := runs.flatten
  if full = [] then runs
  else if ¬ hasBracketMatch full ∧ ¬ hasUnderlineMatch full then runs
  else
    let runs1 := runs.map (fun r => bracketSub pd r)
    let full1 := runs1.flatten
    if hasBracketMatch full1 then
      let merged := bracketSub pd full1
      if merged = full1 then runs1
      else
        match runs1 with
        | [] => runs1
        | _ :: restr => merged :: restr.map (fun _ => ([] : Str))
    else runs1


/-- Concrete project data used to instantiate C7. -/
def pdC7 : ProjectData :=
  ⟨cs (r"甲公司"), cs (r"某项目"), cs (r"BJ-01"), cs (r"招标方"), cs (r"代理"),
   cs (r"100万"), cs (r"120万"), cs (r"2026年10月12日"), cs (r"张三"),
   cs (r"李四"), cs (r"王五"), cs (r"一年")⟩


/-!
## template_filler document fusion (src/template_filler.py)

A .docx document is a list of body elements; a paragraph is its list of
run texts; a table is rows of cells, a cell a list of paragraphs.  The
flattening of the `bid` object into the personnel / performance row
data (src/template_filler.py lines 301-310 and 381-392, plain field
copies) is taken as input.
-/

/-- A table cell: its paragraphs, each a list of runs. -/
abbrev DCell := List (List Str)

/-- A table: rows of cells. -/
abbrev DTable := List (List DCell)

/-- A body element of the document. -/
inductive DocElem where
  | p (runs : List Str)
  | tbl (t : DTable)
deriving DecidableEq

/-- A document body. -/
abbrev Doc := List DocElem

/-- One entry of the personnel list built by `_fill_personnel_section`
(src/template_filler.py lines 301-310). -/
structure PersonRec where
  name : Str
  role : Str
  title : Str
  position : Str
  phone : Str
  skills : Str
deriving DecidableEq

/-- One entry of the performance list built by
`_fill_performance_section` (src/template_filler.py lines 381-392);
`amount` and `period` are the preformatted strings. -/
structure PerfRec where
  project_name : Str
  client_name : Str
  amount : Str
  period : Str
  service_types : Str
deriving DecidableEq

/-- One entry of `sections_info` (src/template_filler.py
lines 112-115). -/
structure SecInfo where
  section_type : Str
  para_index : Nat
  content_start : Nat
  content_end : Nat
  custom_content : Str
deriving DecidableEq

/-- Decimal string of a natural number (`str(idx + 1)`). -/
def natStr (n : Nat) : Str := (toString n).toList

/-- `cell.text` in python-docx: the cell's paragraph texts joined by
newlines. -/
def cellText (c : DCell) : Str := pyJoin '\n' (c.map (fun p => p.flatten))

/-- `_set_cell_text_preserve_format(cell, text)` from
src/template_filler.py lines 544-560: overwrite the first run of the
first paragraph and blank its other runs; add a run when the paragraph
has none; set the cell text when the cell has no paragraph. -/
def setCellText (c : DCell) (text : Str) : DCell :=
  match c with
  | para :: rest =>
    (match para with
     | _ :: runsrest => text :: runsrest.map (fun _ => ([] : Str))
     | [] => [text]) :: rest
  | [] => [[text]]

/-- Write the fill values into the first `min(col_count, len(vals))`
cells of a row (src/template_filler.py lines 362-372 and 438-448). -/
def fillRowCells : List DCell → List Str → List DCell
  | [], _ => []
  | row, [] => row
  | cell :: rest, v :: vs => setCellText cell v :: fillRowCells rest vs

/-- Header-row test of `_fill_personnel_table`
(src/template_filler.py lines 341-345). -/
def isPersonnelHeader (row : List DCell) : Bool :=
  [cs (r"姓名"), cs (r"序号"), cs (r"人员")].any
    (fun k => isSub k (row.map (fun c => pyStrip (cellText c))).flatten)

/-- Header-row test of `_fill_performance_table`
(src/template_filler.py lines 419-423). -/
def isPerformanceHeader (row : List DCell) : Bool :=
  [cs (r"项目名称"), cs (r"序号"), cs (r"业绩")].any
    (fun k => isSub k (row.map (fun c => pyStrip (cellText c))).flatten)

/-- Data-row filling loop of `_fill_personnel_table`
(src/template_filler.py lines 354-372): fill existing rows in place,
or append a copy of the (current) template row. -/
def fillPersonnelRows (dataStart : Nat) : Nat → List PersonRec → DTable → DTable
  | _, [], rows => rows
  | idx, person :: ps, rows =>
    let vals := [natStr (idx + 1), person.name, person.role, person.title, person.phone]
    let rowIdx := dataStart + idx
    let rows2 :=
      if h : rowIdx < rows.length then
        rows.set rowIdx (fillRowCells (rows.get ⟨rowIdx, h⟩) vals)
      else
        rows ++ [fillRowCells (rows.getD dataStart []) vals]
    fillPersonnelRows dataStart (idx + 1) ps rows2

/-- `_fill_personnel_table(table, personnel_list, project_data)` from
src/template_filler.py lines 331-372. -/
def fillPersonnelTable (rows : DTable) (ps : List PersonRec) : DTable :=
  if rows.length < 2 then rows
  else
    let header := (rows.findIdx? isPersonnelHeader).getD 0
    if header + 1 < rows.length then fillPersonnelRows (header + 1) 0 ps rows
    else rows

/-- Data-row filling loop of `_fill_performance_table`
(src/template_filler.py lines 431-448). -/
def fillPerformanceRows (dataStart : Nat) : Nat → List PerfRec → DTable → DTable
  | _, [], rows => rows
  | idx, perf :: ps, rows =>
    let vals := [natStr (idx + 1), perf.project_name, perf.client_name,
      perf.amount, perf.period]
    let rowIdx := dataStart + idx
    let rows2 :=
      if h : rowIdx < rows.length then
        rows.set rowIdx (fillRowCells (rows.get ⟨rowIdx, h⟩) vals)
      else
        rows ++ [fillRowCells (rows.getD dataStart []) vals]
    fillPerformanceRows dataStart (idx + 1) ps rows2

/-- `_fill_performance_table` from src/template_filler.py
lines 413-448. -/
def fillPerformanceTable (rows : DTable) (ps : List PerfRec) : DTable :=
  if rows.length < 2 then rows
  else
    let header := (rows.findIdx? isPerformanceHeader).getD 0
    if header + 1 < rows.length then fillPerformanceRows (header + 1) 0 ps rows
    else rows

/-- Transform the first table whose position (number of preceding
paragraphs) lies in `[a, b]`, leaving everything else unchanged and
stopping there (the `return` in src/template_filler.py lines 319-328
and 401-410). -/
def fillFirstTableInRange (f : DTable → DTable) (a b : Nat) :
    Nat → Doc → Doc
  | _, [] => []
  | cnt, .p par :: rest => .p par :: fillFirstTableInRange f a b (cnt + 1) rest
  | cnt, .tbl t :: rest =>
    if a ≤ cnt ∧ cnt ≤ b then .tbl (f t) :: rest
    else .tbl t :: fillFirstTableInRange f a b cnt rest

/-- Table positions of a document body (as in `_fill_section_tables`:
the count of paragraphs preceding each table). -/
def docTablePositions : Nat → Doc → List Nat
  | _, [] => []
  | cnt, .p _ :: rest => docTablePositions (cnt + 1) rest
  | cnt, .tbl _ :: rest => cnt :: docTablePositions cnt rest

/-- `_fill_personnel_section` from src/template_filler.py
lines 295-328, with the personnel list already flattened. -/
def fillPersonnelSection (ps : List PersonRec) (a b : Nat) (doc : Doc) : Doc :=
  if ps = [] then doc
  else fillFirstTableInRange (fun t => fillPersonnelTable t ps) a b 0 doc

/-- `_fill_performance_section` from src/template_filler.py
lines 375-410. -/
def fillPerformanceSection (ps : List PerfRec) (a b : Nat) (doc : Doc) : Doc :=
  if ps = [] then doc
  else fillFirstTableInRange (fun t => fillPerformanceTable t ps) a b 0 doc

/-- Placeholder replacement over every cell paragraph of a table
(src/template_filler.py lines 286-292). -/
def replaceTablePlaceholders (pd : ProjectData) (t : DTable) : DTable :=
  t.map (fun row => row.map (fun cell =>
    cell.map (fun para => replaceParagraphPlaceholders pd para)))

/-- `_fill_section_tables` from src/template_filler.py lines 273-292:
placeholder replacement in every table of the paragraph range. -/
def fillSectionTables (pd : ProjectData) (a b : Nat) :
    Nat → Doc → Doc
  | _, [] => []
  | cnt, .p par :: rest => .p par :: fillSectionTables pd a b (cnt + 1) rest
  | cnt, .tbl t :: rest =>
    (if a ≤ cnt ∧ cnt ≤ b then .tbl (replaceTablePlaceholders pd t)
     else .tbl t) :: fillSectionTables pd a b cnt rest

/-- The paragraphs of a document body (`doc.paragraphs`). -/
def docParas (doc : Doc) : List (List Str) :=
  doc.filterMap (fun e =>
    match e with
    | .p runs => some runs
    | .tbl _ => none)

/-- Insert the given new paragraphs right after the paragraph with the
given paragraph index (src/template_filler.py lines 488-501). -/
def insertAfterPara (idx : Nat) (newPs : List (List Str)) :
    Nat → Doc → Doc
  | _, [] => []
  | cnt, .p par :: rest =>
    if cnt = idx then .p par :: (newPs.map DocElem.p ++ rest)
    else .p par :: insertAfterPara idx newPs (cnt + 1) rest
  | cnt, .tbl t :: rest => .tbl t :: insertAfterPara idx newPs cnt rest

/-- `_insert_text_at_position(doc, text, after_para_index,
project_data)` from src/template_filler.py lines 472-501: no-op when
the index is out of range; otherwise clone-and-insert one paragraph per
non-blank line, with placeholders substituted. -/
def insertTextAtPosition (pd : ProjectData) (text : Str) (afterIdx : Nat)
    (doc : Doc) : Doc :=
  if afterIdx ≥ (docParas doc).length then doc
  else
    let newPs := (((pySplit '\n' (pyStrip text)).map pyStrip).filter
      (fun l => l ≠ [])).map (fun l => [bracketSub pd l])
    insertAfterPara afterIdx newPs 0 doc

/-- `_replace_global_placeholders` from src/template_filler.py
lines 151-165. -/
def replaceGlobalPlaceholders (pd : ProjectData) (doc : Doc) : Doc :=
  doc.map (fun e =>
    match e with
    | .p runs => .p (replaceParagraphPlaceholders pd runs)
    | .tbl t => .tbl (replaceTablePlaceholders pd t))

/-- Per-section dispatch of `fill_template`
(src/template_filler.py lines 131-146). -/
def fillSection (pd : ProjectData) (persons : List PersonRec)
    (perfs : List PerfRec) (doc : Doc) (sec : SecInfo) : Doc :=
  if sec.section_type = cs (r"人员资料") then
    fillPersonnelSection persons sec.content_start sec.content_end doc
  else if sec.section_type = cs (r"业绩证明") then
    fillPerformanceSection perfs sec.content_start sec.content_end doc
  else if sec.section_type = cs (r"投标函") ∨ sec.section_type = cs (r"报价表")
      ∨ sec.section_type = cs (r"法定代表人证明") ∨ sec.section_type = cs (r"授权委托书") then
    fillSectionTables pd sec.content_start sec.content_end 0 doc
  else if sec.section_type = cs (r"技术方案") then
    (if sec.custom_content = [] then doc
     else insertTextAtPosition pd sec.custom_content sec.content_start doc)
  else if sec.custom_content ≠ [] then
    (if sec.custom_content = [] then doc
     else insertTextAtPosition pd sec.custom_content sec.content_start doc)
  else doc

/-- `fill_template(format_file_path, sections_info, bid, app_config)`
from src/template_filler.py lines 106-148: `none` stands for a source
template that cannot be opened (the `Document(format_file_path)` call
raising); everything after a successful open is total.  Sections are
processed by descending `content_start` (stable). -/
def fill_template (pd : ProjectData) (persons : List PersonRec)
    (perfs : List PerfRec) (src : Option Doc) (sections : List SecInfo) :
    Except Str Doc :=
  match src with
  | none => Except.error (cs (r"无法打开格式模板文件"))
  | some doc =>
    let doc1 := replaceGlobalPlaceholders pd doc
    let sorted := pySortDesc (fun s => (s.content_start : Int)) sections
    Except.ok (sorted.foldl (fun d sec => fillSection pd persons perfs d sec) doc1)


/-!
## Requirements matching (src/tender_parser.py lines 498-530
and 689-880)

`parse_requirements_file` is modelled from the point after text
extraction: its input is the list of extracted paragraph lines.
-/

/-- CJK unified ideograph test, the `[一-鿿]` class. -/
def isCJK (c : Char) : Bool := 0x4e00 ≤ c.toNat && c.toNat ≤ 0x9fff

/-- Split a string into its maximal CJK runs: the first component is
the run at the head, the second the completed runs after it. -/
def cjkSplit : Str → (Str × List Str)
  | [] => ([], [])
  | c :: rest =>
    if isCJK c then (c :: (cjkSplit rest).1, (cjkSplit rest).2)
    else ([], if (cjkSplit rest).1 = [] then (cjkSplit rest).2
          else (cjkSplit rest).1 :: (cjkSplit rest).2)

/-- `re.findall(r'[一-鿿]{2,}', s)`: the maximal CJK runs of
length at least 2, in order (src/tender_parser.py line 508). -/
def nameKeywords (s : Str) : List Str :=
  (if (cjkSplit s).1 = [] then (cjkSplit s).2 else (cjkSplit s).1 :: (cjkSplit s).2).filter
    (fun r => 2 ≤ r.length)

/-- Keywords contributed by `SECTION_KEYWORD_MAP[section_type]` when
the type is non-empty and present (src/tender_parser.py
lines 512-513). -/
def typeKeywords (sectionType : Str) : List Str :=
  if sectionType = [] then []
  else
    match SECTION_KEYWORD_MAP.find? (fun e => e.stype = sectionType) with
    | some e => e.keywords
    | none => []

/-- The keyword set of `_match_requirements_to_section`
(src/tender_parser.py lines 506-513). -/
def secKeywords (sectionName sectionType : Str) : List Str :=
  nameKeywords sectionName ++ typeKeywords sectionType

/-- `_match_requirements_to_section(requirements_text, section_name,
section_type)` from src/tender_parser.py lines 498-530: keep the
non-blank stripped lines containing a keyword, at most 10, rejoined. -/
def matchReqToSection (requirementsText sectionName sectionType : Str) : Str :=
  if requirementsText = [] then []
  else
    let keywords := secKeywords sectionName sectionType
    if keywords = [] then []
    else
      let matched := ((pySplit '\n' requirementsText).map pyStrip).filter
        (fun l => l ≠ [] ∧ keywords.any (fun kw => isSub kw l))
      pyJoin '\n' (matched.take 10)

/-- Chinese numerals `[一二三四五六七八九十]` of the chapter
patterns. -/
def isCnTen (c : Char) : Bool := (cs (r"一二三四五六七八九十")).contains c

/-- Chapter-title pattern 1 of `_split_into_requirement_blocks`,
`^\s*第[一二三四五六七八九十\d]+[章节条]\s*(.+)`
(src/tender_parser.py line 757). -/
def chapA (t : Str) : Bool :=
  match t.dropWhile pySpace with
  | c :: s1 =>
    if c = '第' then
      let num := s1.takeWhile (fun d => isCnTen d || d.isDigit)
      if num = [] then false
      else
        match s1.dropWhile (fun d => isCnTen d || d.isDigit) with
        | d :: s3 =>
          (d = '章' || d = '节' || d = '条')
            && takeLine (s3.dropWhile pySpace) ≠ []
        | [] => false
    else false
  | [] => false

/-- Chapter-title pattern 2, `^\s*[一二三四五六七八九十]+\s*[、.．]\s*(.+)`
(src/tender_parser.py line 758). -/
def chapB (t : Str) : Bool :=
  let s := t.dropWhile pySpace
  let num := s.takeWhile isCnTen
  if num = [] then false
  else
    match (s.dropWhile isCnTen).dropWhile pySpace with
    | c :: s3 => isDelim c && takeLine (s3.dropWhile pySpace) ≠ []
    | [] => false

/-- Chapter-title pattern 3,
`^\s*[（(]\s*[一二三四五六七八九十]+\s*[）)]\s*(.+)`
(src/tender_parser.py line 759). -/
def chapC (t : Str) : Bool :=
  match t.dropWhile pySpace with
  | c :: s1 =>
    if isOpenPa c then
      let s2 := s1.dropWhile pySpace
      let num := s2.takeWhile isCnTen
      if num = [] then false
      else
        match (s2.dropWhile isCnTen).dropWhile pySpace with
        | d :: s4 => isClosePa d && takeLine (s4.dropWhile pySpace) ≠ []
        | [] => false
    else false
  | [] => false

/-- Chapter-title pattern 4, `^\s*\d+\s*[、.．]\s*(.+)`
(src/tender_parser.py line 760). -/
def chapD (t : Str) : Bool :=
  let s := t.dropWhile pySpace
  let num := s.takeWhile Char.isDigit
  if num = [] then false
  else
    match (s.dropWhile Char.isDigit).dropWhile pySpace with
    | c :: s3 => isDelim c && takeLine (s3.dropWhile pySpace) ≠ []
    | [] => false

/-- Chapter-title pattern 5, `^\s*\d+\.\d+\s+(.+)`
(src/tender_parser.py line 761). -/
def chapE (t : Str) : Bool :=
  let s := t.dropWhile pySpace
  let num := s.takeWhile Char.isDigit
  if num = [] then false
  else
    match s.dropWhile Char.isDigit with
    | c :: s2 =>
      if c = '.' then
        let num2 := s2.takeWhile Char.isDigit
        if num2 = [] then false
        else
          match s2.dropWhile Char.isDigit with
          | d :: s4 => pySpace d && takeLine (s4.dropWhile pySpace) ≠ []
          | [] => false
      else false
    | [] => false

/-- Whether a stripped line matches one of the five chapter-title
patterns (src/tender_parser.py lines 756-762). -/
def chapterPat (t : Str) : Bool :=
  chapA t || chapB t || chapC t || chapD t || chapE t

/-- One requirement block (src/tender_parser.py lines 791-808).  The
`keywords` entry of `_make_requirement_block` is a Python set in
unspecified iteration order and is read by no caller, so it is not
modelled. -/
structure ReqBlock where
  title : Str
  content_lines : List Str
deriving DecidableEq

/-- The accumulator loop of `_split_into_requirement_blocks`
(src/tender_parser.py lines 746-788). -/
def splitBlocksAux (title : Str) (lines : List Str) : List Str → List ReqBlock
  | [] => if title ≠ [] ∨ lines ≠ [] then [⟨title, lines⟩] else []
  | p :: rest =>
    if pyStrip p = [] then splitBlocksAux title lines rest
    else if chapterPat (pyStrip p) then
      (if title ≠ [] ∨ lines ≠ [] then [⟨title, lines⟩] else [])
        ++ splitBlocksAux (pyStrip p) [] rest
    else splitBlocksAux title (lines ++ [pyStrip p]) rest

/-- `_split_into_requirement_blocks(paragraphs)`. -/
def splitIntoRequirementBlocks (paragraphs : List Str) : List ReqBlock :=
  splitBlocksAux [] [] paragraphs

/-- Result of `parse_requirements_file` (the `message` string is
omitted). -/
structure ReqParseResult where
  success : Bool
  full_text : Str
  blocks : List ReqBlock
deriving DecidableEq

/-- `parse_requirements_file` from src/tender_parser.py lines 689-743,
modelled on the extracted paragraph lines. -/
def parse_requirements_file (paragraphs : List Str) : ReqParseResult :=
  if paragraphs = [] then ⟨false, [], []⟩
  else ⟨true, pyJoin '\n' paragraphs, splitIntoRequirementBlocks paragraphs⟩

/-- `block['title'] + ' ' + block['content']` as scored by
`_score_block_match` (src/tender_parser.py line 867). -/
def blockText (b : ReqBlock) : Str :=
  b.title ++ ' ' :: pyJoin '\n' b.content_lines

/-- `_score_block_match(block, section_name, section_type)` from
src/tender_parser.py lines 864-880. -/
def scoreBlockMatch (b : ReqBlock) (sectionName sectionType : Str) : Nat :=
  ((nameKeywords sectionName).map
    (fun kw => if isSub kw (blockText b) then kw.length else 0)).sum
  + ((typeKeywords sectionType).map
    (fun kw => if isSub kw (blockText b) then kw.length else 0)).sum

/-- The best-block fold of `match_requirements_to_sections`
(src/tender_parser.py lines 838-843): keep `(best_block_score,
best_block_text)`, replacing on strictly greater score. -/
def bestBlockFold (sectionName sectionType : Str) (acc : Nat × Str) :
    List ReqBlock → Nat × Str
  | [] => acc
  | blk :: rest =>
    bestBlockFold sectionName sectionType
      (if scoreBlockMatch blk sectionName sectionType > acc.1
       then (scoreBlockMatch blk sectionName sectionType,
         blk.title ++ '\n' :: pyJoin '\n' blk.content_lines)
       else acc) rest

/-- The line-append loop of `match_requirements_to_sections`
(src/tender_parser.py lines 848-852): append each block line whose
stripped form is non-blank and not already present (stripped) in the
accumulated lines. -/
def combineLines (base blockLines : List Str) : List Str :=
  blockLines.foldl
    (fun acc line =>
      if pyStrip line ≠ [] ∧ pyStrip line ∉ acc.map pyStrip
      then acc ++ [line] else acc) base

/-- The per-section matched text of `match_requirements_to_sections`
(src/tender_parser.py lines 829-856): line-scan result, merged with the
best block when its score exceeds 2, capped at 20 lines. -/
def perSectionReqText (rr : ReqParseResult) (sectionName sectionType : Str) : Str :=
  let req := matchReqToSection rr.full_text sectionName sectionType
  let best := bestBlockFold sectionName sectionType (0, []) rr.blocks
  if best.2 ≠ [] ∧ best.1 > 2 then
    if req ≠ [] then
      pyJoin '\n' ((combineLines (pySplit '\n' req) (pySplit '\n' best.2)).take 20)
    else best.2
  else req

/-- A section record as consumed by `match_requirements_to_sections`
(only the name and type are read, src/tender_parser.py
lines 829-831). -/
structure SecLite where
  section_name : Str
  section_type : Str
deriving DecidableEq

/-- `match_requirements_to_sections(requirements_result, sections)`
from src/tender_parser.py lines 811-861, as the association list of
dict assignments in order (later entries overwrite earlier ones). -/
def match_requirements_to_sections (rr : ReqParseResult)
    (sections : List SecLite) : List (Str × Str) :=
  if ¬ rr.success then []
  else
    sections.foldl
      (fun acc sec =>
        let req := perSectionReqText rr sec.section_name sec.section_type
        (acc ++ [(sec.section_name, req)])
          ++ (if sec.section_type ≠ [] then [(sec.section_type, req)] else []))
      []

/-!
## Personnel matching and the auto-match pipeline
(src/section_matcher.py lines 89-171 and 291-441)

Database state is passed explicitly: the attachment / personnel /
performance libraries are lists of records, and a bid project's mutable
state is a `ProjState`.  The duplicate checks read
`bid_project.bid_personnel` / `bid_project.bid_performances`
(src/section_matcher.py lines 411 and 426), lazy SQLAlchemy
relationships that are loaded once and then cached for the session;
rows added with `db.session.add` during the same pass never appear in
the cached collection.  Accordingly every section's
`existing_personnel_ids` / `existing_perf_ids` set starts from the
pre-pass snapshot of the links (and grows only by that section's own
additions), while `db.session.add` appends to the session's link list;
the `db.session.commit()` at the end of the pass expires the cache, so
the next call reads the updated links.
-/

/-- A `Personnel` row (src/models.py); `certificates` is the number of
certificate records (`len(p.certificates)`). -/
structure Personnel where
  id : Nat
  name : Str
  title : Str
  position : Str
  skills : Str
  certificates : Nat
deriving DecidableEq

/-- One scored entry of `match_personnel`
(src/section_matcher.py lines 139-147). -/
structure PersonMatch where
  id : Nat
  name : Str
  title : Str
  position : Str
  skills : Str
  role_hint : Str
  score : Int
deriving DecidableEq

/-- The role hint of `match_personnel`
(src/section_matcher.py lines 113-120). -/
def personRoleHint (p : Personnel) : Str :=
  if isSub (cs (r"项目负责")) (lowStr p.position)
      || isSub (cs (r"项目经理")) (lowStr p.position) then cs (r"项目负责人")
  else if isSub (cs (r"技术负责")) (lowStr p.position)
      || isSub (cs (r"技术总监")) (lowStr p.position) then cs (r"技术负责人")
  else []

/-- Scored entry of `match_personnel` for one personnel record
(src/section_matcher.py lines 109-147): role bonus, title bonus, skill
overlap times 15, certificate bonus, capped at 100. -/
def personEntry (projectTagsSet : List Str) (p : Personnel) : PersonMatch :=
  let score : Int := if personRoleHint p ≠ [] then 30 else 0
  let score := if isSub (cs (r"高级")) (lowStr p.title)
      || isSub (cs (r"教授")) (lowStr p.title)
      || isSub (cs (r"正高")) (lowStr p.title) then score + 20
    else if isSub (cs (r"中级")) (lowStr p.title)
      || isSub (cs (r"工程师")) (lowStr p.title) then score + 10
    else score
  let score := score + perfTagBonus projectTagsSet p.skills 15
  let score := if p.certificates > 0
    then score + min ((p.certificates : Int) * 5) 20 else score
  ⟨p.id, p.name, p.title, p.position, p.skills, personRoleHint p, min 100 score⟩

/-- `match_personnel(project_tags)` from src/section_matcher.py
lines 89-171: score all records, stable sort by score descending, then
split by role hint into (project leaders, technical leaders, members),
capped at 3 / 3 / 10. -/
def match_personnel (lib : List Personnel) (projectTags : Str) :
    List PersonMatch × List PersonMatch × List PersonMatch :=
  let scored := pySortDesc (fun m => m.score)
    (lib.map (personEntry (tagSet projectTags)))
  ((scored.filter (fun m => m.role_hint = cs (r"项目负责人"))).take 3,
   (scored.filter (fun m => m.role_hint = cs (r"技术负责人"))).take 3,
   (scored.filter (fun m => m.role_hint ≠ cs (r"项目负责人")
     ∧ m.role_hint ≠ cs (r"技术负责人"))).take 10)

/-- `_keyword_in_text(keywords, text)` from src/section_matcher.py
lines 21-26: how many keywords occur (case-lowered) in the text. -/
def keywordInText (keywords : List Str) (text : Str) : Nat :=
  if text = [] then 0
  else (keywords.filter (fun kw => isSub (lowStr kw) (lowStr text))).length

/-- Scanner for `re.findall` with a fixed-alternative pattern: at each
position the first matching alternative (in pattern order) is taken and
consumed; otherwise the scan advances one character.  The fuel is the
string length, enough since every step advances. -/
def scanAltsGo (alts : List Str) : Nat → Str → List Str
  | 0, _ => []
  | _, [] => []
  | fuel + 1, c :: rest =>
    match alts.find? (fun a => isPre a (c :: rest)) with
    | some a => a :: scanAltsGo alts fuel ((c :: rest).drop a.length)
    | none => scanAltsGo alts fuel rest

/-- `re.findall` over a fixed alternative class. -/
def scanAlts (alts : List Str) (s : Str) : List Str := scanAltsGo alts s.length s

/-- Scanner for `(CMA|CNAS|ISO\d*)` (src/section_matcher.py
line 304). -/
def scanIsoGo : Nat → Str → List Str
  | 0, _ => []
  | _, [] => []
  | fuel + 1, c :: rest =>
    if isPre (cs (r"CMA")) (c :: rest) then
      cs (r"CMA") :: scanIsoGo fuel ((c :: rest).drop 3)
    else if isPre (cs (r"CNAS")) (c :: rest) then
      cs (r"CNAS") :: scanIsoGo fuel ((c :: rest).drop 4)
    else if isPre (cs (r"ISO")) (c :: rest) then
      (cs (r"ISO") ++ ((c :: rest).drop 3).takeWhile Char.isDigit) ::
        scanIsoGo fuel ((c :: rest).drop (3 + (((c :: rest).drop 3).takeWhile Char.isDigit).length))
    else scanIsoGo fuel rest

/-- Scanner for the two-group pattern `(高级|中级|初级)(职称|工程师)`
(src/section_matcher.py line 306); `re.findall` joins the two groups.
The first-group alternatives start with distinct characters, so at most
one can match at a position and greedy scanning is faithful. -/
def scanPairGo (g1 g2 : List Str) : Nat → Str → List Str
  | 0, _ => []
  | _, [] => []
  | fuel + 1, c :: rest =>
    match g1.find? (fun a => isPre a (c :: rest)) with
    | some a1 =>
      match g2.find? (fun a => isPre a ((c :: rest).drop a1.length)) with
      | some a2 => (a1 ++ a2) ::
          scanPairGo g1 g2 fuel ((c :: rest).drop (a1.length + a2.length))
      | none => scanPairGo g1 g2 fuel rest
    | none => scanPairGo g1 g2 fuel rest

/-- Scanner for `需[提供具备有]([一-鿿]+)` (src/section_matcher.py
line 319): the group is the maximal CJK run after the two-character
lead-in. -/
def scanNeedGo : Nat → Str → List Str
  | 0, _ => []
  | _, [] => []
  | fuel + 1, c :: rest =>
    if c = '需' then
      match rest with
      | d :: rest2 =>
        if (cs (r"提供具备有")).contains d then
          match rest2.takeWhile isCJK with
          | [] => scanNeedGo fuel rest
          | run => run :: scanNeedGo fuel (rest2.drop run.length)
        else scanNeedGo fuel rest
      | [] => []
    else scanNeedGo fuel rest

/-- `_parse_requirement_keywords(requirement_text)` from
src/section_matcher.py lines 291-322: certificate-pattern hits followed
by the `需…` phrases, in pattern order. -/
def parseRequirementKeywords (t : Str) : List Str :=
  if t = [] then []
  else
    scanIsoGo t.length t
    ++ scanAlts [cs (r"资质认定"), cs (r"计量认证"), cs (r"检验检测")] t
    ++ scanPairGo [cs (r"高级"), cs (r"中级"), cs (r"初级")]
        [cs (r"职称"), cs (r"工程师")] t.length t
    ++ scanAlts [cs (r"营业执照"), cs (r"社保"), cs (r"纳税")] t
    ++ scanAlts [cs (r"合同"), cs (r"中标通知"), cs (r"验收报告")] t
    ++ scanNeedGo t.length t

/-- The result triple of `auto_match_section`
(src/section_matcher.py lines 340-344). -/
structure SectionMatch where
  attachment : Option AttMatch
  personnel : Option (List PersonMatch × List PersonMatch × List PersonMatch)
  performances : Option (List PerfMatch)
deriving DecidableEq

/-- The category lookup of `auto_match_section`
(src/section_matcher.py lines 346-356): first map entry whose type
equals the section type, falling back to the section type itself. -/
def sectionCategory (secType : Str) : Str :=
  match SECTION_KEYWORD_MAP.find? (fun e => e.stype = secType) with
  | some e => if e.category = [] then secType else e.category
  | none => secType

/-- `auto_match_section(section, project_tags)` from
src/section_matcher.py lines 325-382.  When requirement keywords are
present the attachment candidates are re-scored with +5 per keyword hit
in the name (capped at 100) and re-sorted; the best candidate is kept.
Personnel and performance recommendations are produced exactly for the
`人员资料` / `业绩证明` section types (`match_performance` with its
default `years=3`). -/
def auto_match_section (today : Int) (attLib : List CompanyAttachment)
    (perLib : List Personnel) (perfLib : List Performance)
    (secType reqText projectTags : Str) : SectionMatch :=
  let reqKeywords := if reqText ≠ [] then parseRequirementKeywords reqText else []
  let att0 := match_attachment today attLib secType (sectionCategory secType)
  let att :=
    if att0 ≠ [] ∧ reqKeywords ≠ [] then
      pySortDesc (fun m => m.score) (att0.map (fun m =>
        { m with
          score := min 100 (m.score + (keywordInText reqKeywords m.name : Int) * 5) }))
    else att0
  ⟨att.head?,
   if secType = cs (r"人员资料") then some (match_personnel perLib projectTags)
   else none,
   if secType = cs (r"业绩证明") then
     some (match_performance today perfLib projectTags 3)
   else none⟩

/-- The fields of a `BidSection` row read or written by
`auto_match_all_sections` (src/models.py; `attachment_id` is NULL when
unset, `match_score` is set together with it). -/
structure BidSec where
  section_type : Str
  requirement_text : Str
  attachment_id : Option Nat
  match_score : Option Int
deriving DecidableEq

/-- The mutable project state touched by `auto_match_all_sections`:
its sections, the personnel links `(personnel_id, role)` and the
performance links (performance ids). -/
structure ProjState where
  sections : List BidSec
  personnel_links : List (Nat × Str)
  performance_links : List Nat
deriving DecidableEq

/-- The library environment of one auto-match run. -/
structure MatchEnv where
  today : Int
  attLib : List CompanyAttachment
  perLib : List Personnel
  perfLib : List Performance
  projectTags : Str
deriving DecidableEq

/-- `auto_match_section` applied to one section of the project. -/
def secMatch (env : MatchEnv) (sec : BidSec) : SectionMatch :=
  auto_match_section env.today env.attLib env.perLib env.perfLib
    sec.section_type sec.requirement_text env.projectTags

/-- The attachment-binding step (src/section_matcher.py
lines 403-407): bind and count 1 exactly when a best attachment exists
and the section's `attachment_id` is unset. -/
def bindAttachment (sec : BidSec) (m : SectionMatch) : BidSec × Nat :=
  match m.attachment with
  | some am =>
    if sec.attachment_id = none then
      ({ sec with attachment_id := some am.id, match_score := some am.score }, 1)
    else (sec, 0)
  | none => (sec, 0)

/-- The inner link loop for one role within one section
(src/section_matcher.py lines 414-422): the state is the pair of the
session's link list and the section's local `existing_personnel_ids`
set; a candidate whose id is not in the local set is appended to the
links and added to the set. -/
def roleFold (cands : List PersonMatch) (role : Str)
    (st : List (Nat × Str) × List Nat) : List (Nat × Str) × List Nat :=
  cands.foldl
    (fun acc pm => if pm.id ∈ acc.2 then acc
      else (acc.1 ++ [(pm.id, role)], pm.id :: acc.2))
    st

/-- The personnel-linking step of one section
(src/section_matcher.py lines 410-422): for a personnel section, the
first project-leader candidate and the first technical-leader candidate
are linked unless already in the section's id set, which starts from
`snapIds`, the session-cached pre-pass snapshot of the linked personnel
ids (see the section comment above); links added by earlier sections of
the same pass are not in it. -/
def addPersonnel (links : List (Nat × Str)) (snapIds : List Nat)
    (m : SectionMatch) : List (Nat × Str) :=
  match m.personnel with
  | some rp =>
    (roleFold (rp.2.1.take 1) (cs (r"技术负责人"))
      (roleFold (rp.1.take 1) (cs (r"项目负责人")) (links, snapIds))).1
  | none => links

/-- The inner performance link loop of one section
(src/section_matcher.py lines 427-434): the state is the pair of the
session's link list and the section's local `existing_perf_ids` set. -/
def perfFold (cands : List PerfMatch) (st : List Nat × List Nat) :
    List Nat × List Nat :=
  cands.foldl
    (fun acc pm => if pm.id ∈ acc.2 then acc
      else (acc.1 ++ [pm.id], pm.id :: acc.2))
    st

/-- The performance-linking step of one section
(src/section_matcher.py lines 425-434): the first three recommended
performances are linked unless already in the section's id set, which
starts from `snapIds`, the session-cached pre-pass snapshot of the
linked performance ids. -/
def addPerf (links : List Nat) (snapIds : List Nat) (m : SectionMatch) :
    List Nat :=
  match m.performances with
  | some perfs => (perfFold (perfs.take 3) (links, snapIds)).1
  | none => links

/-- Result of one pass of `auto_match_all_sections`. -/
structure PassOut where
  sections : List BidSec
  plinks : List (Nat × Str)
  flinks : List Nat
  count : Nat

/-- The section loop of `auto_match_all_sections`
(src/section_matcher.py lines 400-434); `pls0` and `fls0` are the
pre-pass snapshots of the personnel-link ids and performance-link ids
that every section's duplicate check reads. -/
def autoMatchGo (env : MatchEnv) (pls0 fls0 : List Nat) :
    List BidSec → List (Nat × Str) → List Nat → PassOut
  | [], pls, fls => ⟨[], pls, fls, 0⟩
  | sec :: rest, pls, fls =>
    let out := autoMatchGo env pls0 fls0 rest
      (addPersonnel pls pls0 (secMatch env sec))
      (addPerf fls fls0 (secMatch env sec))
    ⟨(bindAttachment sec (secMatch env sec)).1 :: out.sections, out.plinks,
      out.flinks, (bindAttachment sec (secMatch env sec)).2 + out.count⟩

/-- `auto_match_all_sections(bid_project)` from src/section_matcher.py
lines 385-441: run the section loop over the project state, the
duplicate checks reading the pre-pass link snapshots, and return the
new state with `(matched_sections, total_sections)`. -/
def auto_match_all_sections (env : MatchEnv) (st : ProjState) :
    ProjState × Nat × Nat :=
  let out := autoMatchGo env (st.personnel_links.map Prod.fst)
    st.performance_links st.sections st.personnel_links st.performance_links
  (⟨out.sections, out.plinks, out.flinks⟩, out.count, st.sections.length)

/-- The constant first-candidate lists of one run: top project leader,
top technical leader, top-3 performances. -/
def plTop (env : MatchEnv) : List PersonMatch :=
  (match_personnel env.perLib env.projectTags).1.take 1

/-- Top technical-leader candidate list (at most one element). -/
def tlTop (env : MatchEnv) : List PersonMatch :=
  (match_personnel env.perLib env.projectTags).2.1.take 1

/-- Top-3 performance candidate list. -/
def pfTop (env : MatchEnv) : List PerfMatch :=
  (match_performance env.today env.perfLib env.projectTags 3).take 3

end BidDoc

/-!
## Theorems
-/

namespace BidDoc

theorem isPre_iff (n : Str) : ∀ h : Str, isPre n h = true ↔ n <+: h := by
  induction n with
  | nil =>
    intro h
    exact iff_of_true rfl ⟨h, rfl⟩
  | cons a n ih =>
    intro h
    cases h with
    | nil =>
      apply iff_of_false (by simp [isPre])
      rintro ⟨t, ht⟩
      simp at ht
    | cons b h2 =>
      simp only [isPre, Bool.and_eq_true, decide_eq_true_eq, ih]
      exact (List.cons_prefix_cons).symm

theorem isSub_iff (n : Str) : ∀ h : Str, isSub n h = true ↔ n <:+: h := by
  intro h
  induction h with
  | nil =>
    cases n with
    | nil => exact iff_of_true rfl ⟨[], [], rfl⟩
    | cons a t =>
      apply iff_of_false (by simp [isSub, List.isEmpty])
      rintro ⟨s, u, hsu⟩
      simp at hsu
  | cons a t ih =>
    simp only [isSub, Bool.or_eq_true, isPre_iff, ih]
    constructor
    · rintro (⟨u, hu⟩ | ⟨s, u, hsu⟩)
      · exact ⟨[], u, by simpa using hu⟩
      · exact ⟨a :: s, u, by simp [hsu]⟩
    · rintro ⟨s, u, hsu⟩
      cases s with
      | nil => exact Or.inl ⟨u, by simpa using hsu⟩
      | cons b s2 =>
        simp only [List.cons_append, List.cons.injEq] at hsu
        exact Or.inr ⟨s2, u, hsu.2⟩

theorem isSub_append (n h s : Str) (hn : isSub n h = true) :
    isSub n (h ++ s) = true := by
  rw [isSub_iff] at hn ⊢
  obtain ⟨a, b, rfl⟩ := hn
  exact ⟨a, b ++ s, by simp⟩

theorem classifyFold_score (tl : Str) (l : List TypeInfo) :
    ∀ acc : Str × Str × Nat,
      (classifyFold tl acc l).2.2 = max acc.2.2 (maxKw tl l) := by
  induction l with
  | nil => intro acc; simp [classifyFold, maxKw]
  | cons e rest ih =>
    intro acc
    by_cases h : kwScore tl e.keywords > acc.2.2 <;>
      simp only [classifyFold, h, if_true, if_false, reduceIte, ih, maxKw,
        List.map_cons, List.foldr_cons] <;>
      simp only [maxKw] at * <;> omega

theorem classifyFold_spec (tl : Str) (l : List TypeInfo) :
    ∀ acc : Str × Str × Nat,
      (classifyFold tl acc l = acc ∧ maxKw tl l ≤ acc.2.2) ∨
      (∃ (i : Nat) (e : TypeInfo), l[i]? = some e ∧
        classifyFold tl acc l = (e.stype, e.category, kwScore tl e.keywords) ∧
        acc.2.2 < kwScore tl e.keywords ∧
        kwScore tl e.keywords = max acc.2.2 (maxKw tl l) ∧
        ∀ k f, k < i → l[k]? = some f →
          kwScore tl f.keywords < kwScore tl e.keywords) := by
  induction l with
  | nil =>
    intro acc
    exact Or.inl ⟨rfl, by simp [maxKw]⟩
  | cons e rest ih =>
    intro acc
    have hmax : maxKw tl (e :: rest) = max (kwScore tl e.keywords) (maxKw tl rest) := by
      simp [maxKw]
    by_cases h : kwScore tl e.keywords > acc.2.2
    · have hstep : classifyFold tl acc (e :: rest)
          = classifyFold tl (e.stype, e.category, kwScore tl e.keywords) rest := by
        simp [classifyFold, h]
      rcases ih (e.stype, e.category, kwScore tl e.keywords) with ⟨hfold, hle⟩ | ⟨i, f, hget, hfold, hacc, hmx, hprev⟩
      · refine Or.inr ⟨0, e, by simp, ?_, h, ?_, ?_⟩
        · rw [hstep, hfold]
        · simp only [hmax]
          simp only at hle
          omega
        · intro k g hk _
          omega
      · refine Or.inr ⟨i + 1, f, ?_, by rw [hstep, hfold], ?_, ?_, ?_⟩
        · simp only [List.getElem?_cons_succ]
          exact hget
        · simp only at hacc
          omega
        · simp only at hacc hmx
          rw [hmax]
          omega
        · intro k g hk hkg
          cases k with
          | zero =>
            simp only [List.getElem?_cons_zero, Option.some.injEq] at hkg
            subst hkg
            simp only at hacc
            omega
          | succ k2 =>
            simp only [List.getElem?_cons_succ] at hkg
            exact hprev k2 g (by omega) hkg
    · have hstep : classifyFold tl acc (e :: rest) = classifyFold tl acc rest := by
        simp [classifyFold, h]
      rcases ih acc with ⟨hfold, hle⟩ | ⟨i, f, hget, hfold, hacc, hmx, hprev⟩
      · refine Or.inl ⟨by rw [hstep, hfold], ?_⟩
        rw [hmax]
        omega
      · refine Or.inr ⟨i + 1, f, ?_, by rw [hstep, hfold], hacc, ?_, ?_⟩
        · simp only [List.getElem?_cons_succ]
          exact hget
        · rw [hmax]
          omega
        · intro k g hk hkg
          cases k with
          | zero =>
            simp only [List.getElem?_cons_zero, Option.some.injEq] at hkg
            subst hkg
            omega
          | succ k2 =>
            simp only [List.getElem?_cons_succ] at hkg
            exact hprev k2 g (by omega) hkg

theorem specRawScore_eq (text : Str) (e : TypeInfo) :
    specRawScore text e = kwScore (lowStr text) e.keywords := by
  unfold specRawScore kwScore
  congr 1
  apply List.map_congr_left
  intro kw _
  by_cases hk : isSub (lowStr kw) (lowStr text) = true
  · rw [if_pos ((isSub_iff _ _).mp hk), if_pos hk]
  · rw [if_neg (fun hc => hk ((isSub_iff _ _).mpr hc)), if_neg hk]

theorem specMaxScore_eq (text : Str) :
    specMaxScore text = maxKw (lowStr text) SECTION_KEYWORD_MAP := by
  unfold specMaxScore maxKw
  congr 1
  apply List.map_congr_left
  intro e _
  exact specRawScore_eq text e

theorem classify_section_expand (text : Str) :
    classify_section text =
      ((classifyFold (lowStr text) (cs (r"其他"), cs (r"其他"), 0) SECTION_KEYWORD_MAP).1,
       (classifyFold (lowStr text) (cs (r"其他"), cs (r"其他"), 0) SECTION_KEYWORD_MAP).2.1,
       if (classifyFold (lowStr text) (cs (r"其他"), cs (r"其他"), 0) SECTION_KEYWORD_MAP).2.2 > 0
       then min 100 ((classifyFold (lowStr text) (cs (r"其他"), cs (r"其他"), 0) SECTION_KEYWORD_MAP).2.2 * 15)
       else 0) := rfl

theorem classify_score_val (text : Str) :
    (classify_section text).2.2 =
      if maxKw (lowStr text) SECTION_KEYWORD_MAP > 0
      then min 100 (maxKw (lowStr text) SECTION_KEYWORD_MAP * 15) else 0 := by
  rw [classify_section_expand]
  simp only [classifyFold_score]
  norm_num

theorem kwScore_mono (tl s : Str) (kws : List Str) :
    kwScore tl kws ≤ kwScore (tl ++ s) kws := by
  unfold kwScore
  induction kws with
  | nil => simp
  | cons kw rest ih =>
    simp only [List.map_cons, List.sum_cons]
    have hterm : (if isSub (lowStr kw) tl then kw.length else 0)
        ≤ (if isSub (lowStr kw) (tl ++ s) then kw.length else 0) := by
      by_cases hk : isSub (lowStr kw) tl = true
      · rw [if_pos hk, if_pos (isSub_append _ _ _ hk)]
      · rw [if_neg hk]
        omega
    omega

theorem maxKw_mono (tl s : Str) (l : List TypeInfo) :
    maxKw tl l ≤ maxKw (tl ++ s) l := by
  unfold maxKw
  induction l with
  | nil => simp
  | cons e rest ih =>
    simp only [List.map_cons, List.foldr_cons]
    have := kwScore_mono tl s e.keywords
    omega

theorem classify_score_mono (text s : Str) :
    (classify_section text).2.2 ≤ (classify_section (text ++ s)).2.2 := by
  rw [classify_score_val, classify_score_val]
  have hlow : lowStr (text ++ s) = lowStr text ++ lowStr s := by
    simp [lowStr]
  rw [hlow]
  have := maxKw_mono (lowStr text) (lowStr s) SECTION_KEYWORD_MAP
  by_cases h1 : maxKw (lowStr text) SECTION_KEYWORD_MAP > 0
  · rw [if_pos h1, if_pos (by omega)]
    omega
  · rw [if_neg h1]
    omega

/-- C4: `classify_section` computes each taxonomy type's raw score as
the sum of the character-lengths of that type's keywords occurring
case-insensitively as substrings of the text; the type with the highest
nonzero raw score wins, ties broken in favour of the first-declared
type; the returned score is `min 100 (raw * 15)`; with no nonzero score
the result is `("其他", "其他", 0)`; and classifying "分项报价表"
yields type "报价表", category "报价表" and a positive score. -/
theorem claim_C4_classify_section :
    (∀ text : Str,
      (specMaxScore text = 0 →
        classify_section text = (cs (r"其他"), cs (r"其他"), 0)) ∧
      (0 < specMaxScore text →
        ∃ (i : Nat) (e : TypeInfo), SECTION_KEYWORD_MAP[i]? = some e ∧
          specRawScore text e = specMaxScore text ∧
          (∀ k f, k < i → SECTION_KEYWORD_MAP[k]? = some f →
            specRawScore text f < specRawScore text e) ∧
          classify_section text =
            (e.stype, e.category, min 100 (specRawScore text e * 15)))) ∧
    classify_section (cs (r"分项报价表")) = (cs (r"报价表"), cs (r"报价表"), 90) ∧
    0 < (classify_section (cs (r"分项报价表"))).2.2 := by
  refine ⟨?_, by decide, by decide⟩
  intro text
  have hspec := classifyFold_spec (lowStr text)
    SECTION_KEYWORD_MAP (cs (r"其他"), cs (r"其他"), 0)
  have hm := specMaxScore_eq text
  constructor
  · intro h0
    rcases hspec with ⟨hfold, _⟩ | ⟨i, e, _, _, hacc, hmx, _⟩
    · rw [classify_section_expand, hfold]
      simp
    · have hacc0 : 0 < kwScore (lowStr text) e.keywords := hacc
      have hmx0 : kwScore (lowStr text) e.keywords
          = max 0 (maxKw (lowStr text) SECTION_KEYWORD_MAP) := hmx
      rw [← hm, h0] at hmx0
      omega
  · intro hpos
    rcases hspec with ⟨_, hle⟩ | ⟨i, e, hget, hfold, hacc, hmx, hprev⟩
    · have hle0 : maxKw (lowStr text) SECTION_KEYWORD_MAP ≤ 0 := hle
      rw [← hm] at hle0
      omega
    · refine ⟨i, e, hget, ?_, ?_, ?_⟩
      · have hmx0 : kwScore (lowStr text) e.keywords
            = max 0 (maxKw (lowStr text) SECTION_KEYWORD_MAP) := hmx
        rw [specRawScore_eq, hm]
        omega
      · intro k f hk hkf
        rw [specRawScore_eq, specRawScore_eq]
        exact hprev k f hk hkf
      · have hacc0 : 0 < kwScore (lowStr text) e.keywords := hacc
        rw [classify_section_expand, hfold]
        simp only
        rw [specRawScore_eq]
        rw [if_pos hacc0]

/-- Witness for C4: a text with no keyword occurrence is classified
as "其他" with score 0. -/
theorem claim_C4_witness :
    classify_section (cs (r"第六章")) = (cs (r"其他"), cs (r"其他"), 0) :=
  (claim_C4_classify_section.1 (cs (r"第六章"))).1 (by decide)

/-- C9: the score returned by `classify_section` never decreases when
an occurrence of a taxonomy keyword is appended to the text. -/
theorem claim_C9_classify_monotone (text kw : Str) (e : TypeInfo)
    (he : e ∈ SECTION_KEYWORD_MAP) (hkw : kw ∈ e.keywords) :
    (classify_section text).2.2 ≤ (classify_section (text ++ kw)).2.2 :=
  classify_score_mono text kw

/-- Witness for C9 at a concrete text and keyword. -/
theorem claim_C9_witness :
    (classify_section (cs (r"方案"))).2.2 ≤
      (classify_section (cs (r"方案") ++ cs (r"投标函"))).2.2 :=
  claim_C9_classify_monotone (cs (r"方案")) (cs (r"投标函"))
    ⟨cs (r"投标函"), [cs (r"投标函"), cs (r"投标书")], cs (r"投标函模板")⟩
    (by decide) (by decide)

/-- C10: the `classify_section` result satisfies: score in [0,100];
score is 0 iff the type is "其他" (and then the category is "其他");
a nonzero score comes with the type/category pair of a taxonomy entry,
and the section types of the taxonomy are pairwise distinct, so the
category is the one declared for the returned type. -/
theorem claim_C10_classify_invariants (text : Str) :
    (classify_section text).2.2 ≤ 100 ∧
    ((classify_section text).2.2 = 0 ↔ (classify_section text).1 = cs (r"其他")) ∧
    ((classify_section text).2.2 = 0 → (classify_section text).2.1 = cs (r"其他")) ∧
    (0 < (classify_section text).2.2 →
      ∃ e ∈ SECTION_KEYWORD_MAP, (classify_section text).1 = e.stype ∧
        (classify_section text).2.1 = e.category) ∧
    (SECTION_KEYWORD_MAP.map TypeInfo.stype).Nodup := by
  have hspec := classifyFold_spec (lowStr text)
    SECTION_KEYWORD_MAP (cs (r"其他"), cs (r"其他"), 0)
  have hother : ∀ e ∈ SECTION_KEYWORD_MAP, e.stype ≠ cs (r"其他") := by decide
  rcases hspec with ⟨hfold, hle⟩ | ⟨i, e, hget, hfold, hacc, hmx, _⟩
  · have hle0 : maxKw (lowStr text) SECTION_KEYWORD_MAP ≤ 0 := hle
    have hz : maxKw (lowStr text) SECTION_KEYWORD_MAP = 0 := by omega
    have hres : classify_section text = (cs (r"其他"), cs (r"其他"), 0) := by
      rw [classify_section_expand, hfold]
      simp
    rw [hres]
    refine ⟨by norm_num, by simp, by simp, by intro h; simp at h, by decide⟩
  · have hepos : 0 < kwScore (lowStr text) e.keywords := hacc
    have hmem : e ∈ SECTION_KEYWORD_MAP := by
      have := List.getElem?_eq_some_iff.mp hget
      obtain ⟨hlt, hgete⟩ := this
      exact hgete ▸ List.getElem_mem hlt
    have hres : classify_section text =
        (e.stype, e.category, min 100 (kwScore (lowStr text) e.keywords * 15)) := by
      rw [classify_section_expand, hfold]
      simp only
      rw [if_pos hepos]
    rw [hres]
    simp only
    refine ⟨by omega, ?_, ?_, ?_, by decide⟩
    · constructor
      · intro h
        omega
      · intro h
        exact absurd h (hother e hmem)
    · intro h
      omega
    · intro _
      exact ⟨e, hmem, rfl, rfl⟩



/-!
### Character and string lemmas for the tag-set machinery
-/

theorem lowChar_cases (c : Char) :
    lowChar c = c ∨ (c, lowChar c) ∈ UPPER := by
  unfold lowChar
  cases hf : UPPER.find? (fun p => p.1 = c) with
  | none => exact Or.inl rfl
  | some p =>
    have hp1 : p.1 = c := by
      have := List.find?_some hf
      simpa using this
    have hpm : p ∈ UPPER := List.mem_of_find?_eq_some hf
    refine Or.inr ?_
    have : (c, p.2) = p := by
      cases p
      simp_all
    simpa [this]

theorem lowChar_space (c : Char) : pySpace (lowChar c) = pySpace c := by
  rcases lowChar_cases c with h | h
  · rw [h]
  · have hall : ∀ p ∈ UPPER, pySpace p.2 = pySpace p.1 := by decide
    simpa using hall _ h

theorem lowChar_idem (c : Char) : lowChar (lowChar c) = lowChar c := by
  rcases lowChar_cases c with h | h
  · rw [h, h]
  · have hall : ∀ p ∈ UPPER, lowChar p.2 = p.2 := by decide
    simpa using hall _ h

theorem lowChar_comma (c : Char) (h : lowChar c = ',') : c = ',' := by
  rcases lowChar_cases c with h2 | h2
  · rw [← h2, h]
  · have hall : ∀ p ∈ UPPER, p.2 ≠ ',' := by decide
    exact absurd h (hall _ h2)

theorem lowStr_idem (s : Str) : lowStr (lowStr s) = lowStr s := by
  unfold lowStr
  rw [List.map_map]
  apply List.map_congr_left
  intro c _
  exact lowChar_idem c

theorem dropWhile_self (p : Char → Bool) (l : Str) :
    List.dropWhile p (List.dropWhile p l) = List.dropWhile p l := by
  induction l with
  | nil => rfl
  | cons c t ih =>
    by_cases h : p c
    · simpa [List.dropWhile_cons, h] using ih
    · simp [List.dropWhile_cons, h]

theorem dropWhile_head (p : Char → Bool) (l t : Str) (c : Char)
    (h : List.dropWhile p l = c :: t) : p c = false := by
  induction l with
  | nil => simp at h
  | cons a u ih =>
    by_cases ha : p a
    · rw [List.dropWhile_cons, if_pos ha] at h
      exact ih h
    · rw [List.dropWhile_cons, if_neg ha] at h
      obtain ⟨rfl, _⟩ := List.cons.injEq .. ▸ h
      · simpa using ha

theorem pyStrip_lowStr (s : Str) : pyStrip (lowStr s) = lowStr (pyStrip s) := by
  unfold pyStrip lowStr
  have hps : (pySpace ∘ lowChar) = pySpace := by
    funext c
    exact lowChar_space c
  rw [List.dropWhile_map, hps, ← List.map_reverse, List.dropWhile_map, hps,
    ← List.map_reverse]

theorem ldrop_rdrop (c : Char) (t : Str) (hc : pySpace c = false) :
    List.dropWhile pySpace ((c :: t).reverse.dropWhile pySpace).reverse
      = ((c :: t).reverse.dropWhile pySpace).reverse := by
  have hrev : (c :: t).reverse = t.reverse ++ [c] := by simp
  rw [hrev, List.dropWhile_append]
  by_cases he : (List.dropWhile pySpace t.reverse).isEmpty = true
  · rw [if_pos he]
    simp [List.dropWhile_cons, hc]
  · rw [if_neg he]
    rw [List.reverse_append]
    simp only [List.reverse_cons, List.reverse_nil, List.nil_append,
      List.singleton_append]
    simp [List.dropWhile_cons, hc]

theorem pyStrip_idem (s : Str) : pyStrip (pyStrip s) = pyStrip s := by
  show ((((((s.dropWhile pySpace).reverse.dropWhile pySpace).reverse).dropWhile
      pySpace).reverse).dropWhile pySpace).reverse
    = ((s.dropWhile pySpace).reverse.dropWhile pySpace).reverse
  cases h : List.dropWhile pySpace s with
  | nil => simp
  | cons c t =>
    have hc : pySpace c = false := dropWhile_head pySpace s t c h
    rw [ldrop_rdrop c t hc, List.reverse_reverse, dropWhile_self]

theorem mem_pyStrip (s : Str) (x : Char) (h : x ∈ pyStrip s) : x ∈ s := by
  unfold pyStrip at h
  rw [List.mem_reverse] at h
  have h2 := (List.dropWhile_sublist pySpace).subset h
  rw [List.mem_reverse] at h2
  exact (List.dropWhile_sublist pySpace).subset h2

/-!
### pySplit / pyJoin lemmas
-/

theorem pySplit_ne_nil (sep : Char) (s : Str) : pySplit sep s ≠ [] := by
  induction s with
  | nil => simp [pySplit]
  | cons c rest ih =>
    simp only [pySplit]
    by_cases h : c = sep
    · simp [h]
    · cases hr : pySplit sep rest with
      | nil => exact absurd hr ih
      | cons a t => simp [h, hr]

theorem pySplit_no_sep (sep : Char) (s : Str) :
    ∀ x ∈ pySplit sep s, sep ∉ x := by
  induction s with
  | nil =>
    intro x hx
    simp only [pySplit, List.mem_singleton] at hx
    simp [hx]
  | cons c rest ih =>
    intro x hx
    simp only [pySplit] at hx
    by_cases h : c = sep
    · rw [if_pos h] at hx
      rcases List.mem_cons.mp hx with rfl | hx2
      · simp
      · exact ih x hx2
    · rw [if_neg h] at hx
      cases hr : pySplit sep rest with
      | nil => exact absurd hr (pySplit_ne_nil sep rest)
      | cons a t =>
        rw [hr] at hx
        rcases List.mem_cons.mp hx with rfl | hx2
        · intro hmem
          rcases List.mem_cons.mp hmem with rfl | hmem2
          · exact h rfl
          · exact ih a (hr ▸ List.mem_cons_self a t) hmem2
        · exact ih x (hr ▸ List.mem_cons_of_mem a hx2)

theorem pySplit_single (sep : Char) (s : Str) (h : sep ∉ s) :
    pySplit sep s = [s] := by
  induction s with
  | nil => rfl
  | cons c rest ih =>
    have hc : ¬ c = sep := fun hc => h (hc ▸ List.mem_cons_self c rest)
    have hrest : sep ∉ rest := fun hm => h (List.mem_cons_of_mem c hm)
    simp only [pySplit, if_neg hc, ih hrest]

theorem pySplit_append (sep : Char) (b : Str) :
    ∀ a : Str, pySplit sep (a ++ sep :: b) = pySplit sep a ++ pySplit sep b := by
  intro a
  induction a with
  | nil => simp [pySplit]
  | cons d a2 ih =>
    simp only [List.cons_append, pySplit, List.append_eq]
    by_cases hd : d = sep
    · simp [hd, ih]
    · rw [ih]
      cases hr : pySplit sep a2 with
      | nil => exact absurd hr (pySplit_ne_nil sep a2)
      | cons h2 t2 => simp [hd]

theorem pyJoin_roundtrip (sep : Char) :
    ∀ ts : List Str, ts ≠ [] → (∀ t ∈ ts, sep ∉ t) →
      pySplit sep (pyJoin sep ts) = ts := by
  intro ts
  induction ts with
  | nil => intro h; exact absurd rfl h
  | cons x rest ih =>
    intro _ hsep
    cases rest with
    | nil =>
      simp only [pyJoin]
      exact pySplit_single sep x (hsep x (List.mem_cons_self x []))
    | cons y rest2 =>
      have hjoin : pyJoin sep (x :: y :: rest2) = x ++ sep :: pyJoin sep (y :: rest2) := rfl
      rw [hjoin, pySplit_append, pySplit_single sep x (hsep x (List.mem_cons_self x _)),
        ih (by simp) (fun t ht => hsep t (List.mem_cons_of_mem x ht))]
      rfl

theorem pyJoin_ne_nil (sep : Char) (ts : List Str) (h : ts ≠ [])
    (hne : ∀ t ∈ ts, t ≠ []) : pyJoin sep ts ≠ [] := by
  cases ts with
  | nil => exact absurd rfl h
  | cons x rest =>
    cases rest with
    | nil => exact hne x (List.mem_cons_self x [])
    | cons y rest2 =>
      simp only [pyJoin]
      intro hc
      have := hne x (List.mem_cons_self x _)
      cases x with
      | nil => simp at hc
      | cons a b => simp at hc

/-!
### tagSet lemmas
-/

theorem tagSet_nodup (s : Str) : (tagSet s).Nodup := List.nodup_dedup _

theorem tagSet_nil : tagSet ([] : Str) = [] := by decide

theorem tagSet_elem (s : Str) (t : Str) (h : t ∈ tagSet s) :
    t ≠ [] ∧ pyStrip t = t ∧ lowStr t = t ∧ ',' ∉ t := by
  unfold tagSet at h
  rw [List.mem_dedup] at h
  obtain ⟨u, hu, rfl⟩ := List.mem_map.mp h
  obtain ⟨husplit, hustrip⟩ := List.mem_filter.mp hu
  have hstrip_ne : pyStrip u ≠ [] := by simpa using hustrip
  refine ⟨by simpa [lowStr] using hstrip_ne, ?_, lowStr_idem _, ?_⟩
  · rw [pyStrip_lowStr, pyStrip_idem]
  · intro hc
    obtain ⟨c, hcmem, hceq⟩ := List.mem_map.mp hc
    have : c = ',' := lowChar_comma c hceq
    subst this
    exact pySplit_no_sep ',' s u husplit (mem_pyStrip u ',' hcmem)

theorem tagSet_join (s : Str) : tagSet (pyJoin ',' (tagSet s)) = tagSet s := by
  by_cases h : tagSet s = []
  · rw [h]
    show tagSet (pyJoin ',' []) = []
    decide
  · have helems := tagSet_elem s
    conv_lhs => rw [tagSet]
    rw [pyJoin_roundtrip ',' (tagSet s) h (fun t ht => (helems t ht).2.2.2)]
    have hfit : (tagSet s).filter (fun t => decide (pyStrip t ≠ [])) = tagSet s := by
      rw [List.filter_eq_self]
      intro t ht
      rw [(helems t ht).2.1]
      simpa using (helems t ht).1
    rw [hfit]
    have hmap : (tagSet s).map (fun t => lowStr (pyStrip t)) = tagSet s := by
      have : ∀ t ∈ tagSet s, lowStr (pyStrip t) = t := by
        intro t ht
        rw [(helems t ht).2.1, (helems t ht).2.2.1]
      calc (tagSet s).map (fun t => lowStr (pyStrip t))
          = (tagSet s).map id := List.map_congr_left this
        _ = tagSet s := List.map_id _
    rw [hmap]
    exact List.dedup_eq_self.mpr (tagSet_nodup s)

theorem overlapCount_nil_left (b : List Str) : overlapCount [] b = 0 := rfl

theorem overlapCount_nil_right (a : List Str) : overlapCount a [] = 0 := by
  unfold overlapCount
  rw [List.length_eq_zero, List.filter_eq_nil_iff]
  intro t _
  simp

theorem tagOverlap_spec (a b : Str) :
    (tagOverlap (pyJoin ',' (tagSet a)) b : Nat) = overlapCount (tagSet a) (tagSet b) := by
  by_cases ha : tagSet a = []
  · rw [ha]
    show tagOverlap (pyJoin ',' []) b = overlapCount [] (tagSet b)
    rw [overlapCount_nil_left]
    rfl
  · by_cases hb : b = []
    · subst hb
      rw [tagSet_nil, overlapCount_nil_right]
      unfold tagOverlap
      rw [if_pos (Or.inr rfl)]
    · have hjoin_ne : pyJoin ',' (tagSet a) ≠ [] :=
        pyJoin_ne_nil ',' (tagSet a) ha (fun t ht => (tagSet_elem a t ht).1)
      unfold tagOverlap
      rw [if_neg (by simp [hjoin_ne, hb]), tagSet_join]
      rfl

/-!
### Stable descending sort lemmas
-/

theorem insDesc_perm {α : Type} (key : α → Int) (a : α) (l : List α) :
    List.Perm (insDesc key a l) (a :: l) := by
  induction l with
  | nil => exact List.Perm.refl _
  | cons b t ih =>
    simp only [insDesc]
    by_cases h : key b < key a
    · rw [if_pos h]
    · rw [if_neg h]
      exact (ih.cons b).trans (List.Perm.swap a b t)

theorem insDesc_pairwise {α : Type} (key : α → Int) (a : α) (l : List α)
    (h : l.Pairwise (fun x y => key y ≤ key x)) :
    (insDesc key a l).Pairwise (fun x y => key y ≤ key x) := by
  induction l with
  | nil => simp [insDesc]
  | cons b t ih =>
    rw [List.pairwise_cons] at h
    obtain ⟨hb, ht⟩ := h
    simp only [insDesc]
    by_cases hk : key b < key a
    · rw [if_pos hk]
      rw [List.pairwise_cons]
      constructor
      · intro x hx
        rcases List.mem_cons.mp hx with rfl | hx2
        · omega
        · have := hb x hx2
          omega
      · exact List.pairwise_cons.mpr ⟨hb, ht⟩
    · rw [if_neg hk]
      rw [List.pairwise_cons]
      constructor
      · intro x hx
        rcases List.mem_cons.mp ((insDesc_perm key a t).mem_iff.mp hx) with rfl | hx2
        · omega
        · exact hb x hx2
      · exact ih ht

theorem pySortDesc_aux_pairwise {α : Type} (key : α → Int) :
    ∀ (l acc : List α), acc.Pairwise (fun x y => key y ≤ key x) →
      (l.foldl (fun acc a => insDesc key a acc) acc).Pairwise
        (fun x y => key y ≤ key x) := by
  intro l
  induction l with
  | nil => intro acc h; exact h
  | cons a t ih =>
    intro acc h
    exact ih (insDesc key a acc) (insDesc_pairwise key a acc h)

theorem pySortDesc_pairwise {α : Type} (key : α → Int) (l : List α) :
    (pySortDesc key l).Pairwise (fun x y => key y ≤ key x) :=
  pySortDesc_aux_pairwise key l [] (by simp)

/-!
### C1: match_attachment exact-category scoring
-/

/-- C1 (amended): a record whose category equals the query appears in
the exact pass with score `clip(80 + 10[expiry present and unexpired]
- 30[expiry present and expired] + 10[file])`; a record with no expiry
date receives neither the +10 bonus nor the -30 penalty.  An unexpired
file-attached exact record scores 100; an expired exact record scores
at most 60. -/
theorem claim_C1_attachment_scoring (today : Int) (lib : List CompanyAttachment)
    (category : Str) (att : CompanyAttachment)
    (hmem : att ∈ lib) (hcat : att.category = category) :
    attExactEntry today att ∈ attExactPass today lib category ∧
    (att.expiry_date = none →
      (attExactEntry today att).score
        = min 100 (max 0 (80 + (if att.file_path ≠ [] then 10 else 0)))) ∧
    (∀ d, att.expiry_date = some d → today ≤ d →
      (attExactEntry today att).score
        = min 100 (max 0 (80 + 10 + (if att.file_path ≠ [] then 10 else 0)))) ∧
    (∀ d, att.expiry_date = some d → d < today →
      (attExactEntry today att).score
        = min 100 (max 0 (80 - 30 + (if att.file_path ≠ [] then 10 else 0)))) ∧
    (∀ d, att.expiry_date = some d → today ≤ d → att.file_path ≠ [] →
      (attExactEntry today att).score = 100) ∧
    (∀ d, att.expiry_date = some d → d < today →
      (attExactEntry today att).score ≤ 60) := by
  refine ⟨?_, ?_, ?_, ?_, ?_, ?_⟩
  · unfold attExactPass
    exact List.mem_map.mpr ⟨att, List.mem_filter.mpr ⟨hmem, by simp [hcat]⟩, rfl⟩
  · intro hnone
    simp only [attExactEntry, hnone]
    split_ifs <;> omega
  · intro d hd hle
    simp only [attExactEntry, hd]
    split_ifs <;> omega
  · intro d hd hlt
    simp only [attExactEntry, hd]
    split_ifs <;> omega
  · intro d hd hle hfile
    simp only [attExactEntry, hd]
    split_ifs <;> omega
  · intro d hd hlt
    simp only [attExactEntry, hd]
    split_ifs <;> omega

/-- Witness for C1 at a concrete library. -/
theorem claim_C1_witness :
    attExactEntry 0 ⟨1, cs (r"证书"), cs (r"CMA证书"), cs (r"f.pdf"), some 5, []⟩
        ∈ attExactPass 0 [⟨1, cs (r"证书"), cs (r"CMA证书"), cs (r"f.pdf"), some 5, []⟩]
            (cs (r"CMA证书")) ∧
    (attExactEntry 0 ⟨1, cs (r"证书"), cs (r"CMA证书"), cs (r"f.pdf"), some 5, []⟩).score = 100 := by
  have h := claim_C1_attachment_scoring 0
    [⟨1, cs (r"证书"), cs (r"CMA证书"), cs (r"f.pdf"), some 5, []⟩]
    (cs (r"CMA证书")) ⟨1, cs (r"证书"), cs (r"CMA证书"), cs (r"f.pdf"), some 5, []⟩
    (by decide) (by decide)
  exact ⟨h.1, h.2.2.2.2.1 5 rfl (by decide) (by decide)⟩


/-- Counterexample to C1 as stated: a no-expiry, file-attached
exact-category record is scored 90 by the code, while the claimed
formula (+10 for unexpired or no expiry) yields 100. -/
theorem claim_C1_counterexample :
    (match_attachment 0 [⟨1, cs (r"资质文件"), cs (r"CMA证书"), cs (r"f.pdf"), none, []⟩]
        (cs (r"资质")) (cs (r"CMA证书"))).map AttMatch.score = [90] ∧
    specC1Score 0 ⟨1, cs (r"资质文件"), cs (r"CMA证书"), cs (r"f.pdf"), none, []⟩ = 100 ∧
    (90 : Int) ≠ 100 := by
  refine ⟨by decide, by decide, by decide⟩

/-!
### C2: match_performance scoring
-/

theorem perfTagBonus_eq (pt field : Str) (mult : Int) :
    perfTagBonus (tagSet pt) field mult
      = mult * (overlapCount (tagSet pt) (tagSet field) : Int) := by
  unfold perfTagBonus
  by_cases hpt : tagSet pt = []
  · rw [if_neg (by simp [hpt]), hpt, overlapCount_nil_left]
    simp
  · by_cases hf : field = []
    · rw [if_neg (by simp [hf]), hf, tagSet_nil, overlapCount_nil_right]
      simp
    · rw [if_pos ⟨hpt, hf⟩, tagOverlap_spec]
      ring

theorem perfTierBonus_eq (amount : Option Rat) :
    perfTierBonus amount
      = (match amount with
         | some amt =>
           if amt ≥ 100 then (15 : Int)
           else if amt ≥ 50 then 10
           else if amt > 0 then 5
           else 0
         | none => 0) := by
  rcases amount with _ | amt
  · rfl
  · simp only [perfTierBonus]
    split_ifs <;> first | rfl | (exfalso; linarith)

theorem perfFileBonus_eq (files : Nat) :
    perfFileBonus files = min ((files : Int) * 5) 15 := by
  unfold perfFileBonus
  by_cases hf : files > 0
  · rw [if_pos hf]
  · rw [if_neg hf]
    have : files = 0 := by omega
    subst this
    simp

theorem perfTimeBonus_eq (today years : Int) (ss : Option Int) :
    perfTimeBonus today years ss
      = (match ss with
         | some s =>
           if today - s ≤ years * 365 then (30 : Int)
           else if today - s ≤ (years + 1) * 365 then 15
           else 0
         | none => 0) := by
  rcases ss with _ | s
  · rfl
  · simp only [perfTimeBonus]
    split_ifs <;> omega


/-- C2 (amended): each performance entry's score is the clipped sum of
a recency bonus (30 within N years, i.e. N x 365 days; 15 within N+1
years but not N years — not 2N years as the specification claims), 20
per common service-type tag, 10 per common testing-parameter tag, the
15/10/5 contract tier, and `min(5*files, 15)`; at most 10 results are
returned, sorted by score descending. -/
theorem claim_C2_performance_scoring (today : Int) (lib : List Performance)
    (projectTags : Str) (years : Int) (perf : Performance) (hmem : perf ∈ lib) :
    (perfEntry today (tagSet projectTags) years perf).score
      = min 100 (max 0 (
          (match perf.service_start with
           | some s =>
             if today - s ≤ years * 365 then (30 : Int)
             else if today - s ≤ (years + 1) * 365 then 15
             else 0
           | none => 0)
          + 20 * overlapCount (tagSet projectTags) (tagSet perf.service_types)
          + 10 * overlapCount (tagSet projectTags) (tagSet perf.testing_params)
          + (match perf.contract_amount with
             | some amt =>
               if amt ≥ 100 then (15 : Int)
               else if amt ≥ 50 then 10
               else if amt > 0 then 5
               else 0
             | none => 0)
          + min ((perf.files : Int) * 5) 15)) ∧
    (match_performance today lib projectTags years).length ≤ 10 ∧
    (match_performance today lib projectTags years).Pairwise
      (fun a b => b.score ≤ a.score) := by
  refine ⟨?_, ?_, ?_⟩
  · simp only [perfEntry]
    rw [perfTagBonus_eq, perfTagBonus_eq, perfTierBonus_eq, perfFileBonus_eq,
      perfTimeBonus_eq]
  · unfold match_performance
    simp only [List.length_take]
    omega
  · unfold match_performance
    exact List.Pairwise.sublist (List.take_sublist _ _) (pySortDesc_pairwise _ _)

/-- Witness for C2 at a concrete library. -/
theorem claim_C2_witness :
    (match_performance 0 [⟨1, cs (r"p"), [], some 120, some (-100), none,
        cs (r"a"), [], 2⟩] (cs (r"a,b")) 3).length ≤ 10 ∧
    (match_performance 0 [⟨1, cs (r"p"), [], some 120, some (-100), none,
        cs (r"a"), [], 2⟩] (cs (r"a,b")) 3).Pairwise (fun a b => b.score ≤ a.score) := by
  have h := claim_C2_performance_scoring 0
    [⟨1, cs (r"p"), [], some 120, some (-100), none, cs (r"a"), [], 2⟩]
    (cs (r"a,b")) 3 ⟨1, cs (r"p"), [], some 120, some (-100), none, cs (r"a"), [], 2⟩
    (by decide)
  exact ⟨h.2.1, h.2.2⟩

/-- Counterexample to C2 as stated: with the default `years = 3`, a
record whose service start is 1825 days old (within 2N = 6 years but
not within N+1 = 4 years) is scored 0 by the code, while the claimed
formula yields 15. -/
theorem claim_C2_counterexample :
    (match_performance 0 [⟨1, cs (r"某项目"), [], none, some (-1825), none, [], [], 0⟩]
        [] 3).map PerfMatch.score = [0] ∧
    specC2Score 0 [] 3 ⟨1, cs (r"某项目"), [], none, some (-1825), none, [], [], 0⟩ = 15 ∧
    (0 : Int) ≠ 15 := by
  refine ⟨by decide, by decide, by decide⟩


/-!
### C3: parse_format_template section structure
-/

theorem scan_bounds (ps : List FPara) :
    ∀ (i : Nat) (h : RawHeading), h ∈ scanHeadings i ps →
      i ≤ h.para_index ∧ h.para_index < i + ps.length := by
  induction ps with
  | nil =>
    intro i h hh
    simp [scanHeadings] at hh
  | cons par rest ih =>
    intro i h hh
    simp only [scanHeadings] at hh
    rw [List.mem_append] at hh
    rcases hh with hh | hh
    · split at hh
      · split at hh
        · rw [List.mem_singleton] at hh
          subst hh
          simp only [List.length_cons]
          omega
        · simp at hh
      · simp at hh
    · have := ih (i + 1) h hh
      simp only [List.length_cons]
      omega

theorem scan_pairwise (ps : List FPara) :
    ∀ i : Nat, (scanHeadings i ps).Pairwise
      (fun a b => a.para_index < b.para_index) := by
  induction ps with
  | nil => intro i; simp [scanHeadings]
  | cons par rest ih =>
    intro i
    simp only [scanHeadings]
    rw [List.pairwise_append]
    refine ⟨?_, ih (i + 1), ?_⟩
    · split
      · split <;> simp
      · simp
    · intro a ha b hb
      have hb2 := (scan_bounds rest (i + 1) b hb).1
      split at ha
      · split at ha
        · rw [List.mem_singleton] at ha
          subst ha
          simpa using by omega
        · simp at ha
      · simp at ha

theorem build_map_para (tot : Nat) (tbls : List Nat) :
    ∀ (raw : List RawHeading) (ord : Nat),
      (buildSections tot tbls ord raw).map FSection.para_index
        = raw.map RawHeading.para_index := by
  intro raw
  induction raw with
  | nil => intro ord; rfl
  | cons h rest ih =>
    intro ord
    simp only [buildSections, List.map_cons]
    rw [ih]

theorem build_map_cstart (tot : Nat) (tbls : List Nat) :
    ∀ (raw : List RawHeading) (ord : Nat),
      (buildSections tot tbls ord raw).map FSection.content_start
        = raw.map (fun h => h.para_index + 1) := by
  intro raw
  induction raw with
  | nil => intro ord; rfl
  | cons h rest ih =>
    intro ord
    simp only [buildSections, List.map_cons]
    rw [ih]

theorem build_drop (tot : Nat) (tbls : List Nat) (ord : Nat) (h : RawHeading)
    (rest : List RawHeading) :
    (buildSections tot tbls ord (h :: rest)).drop 1
      = buildSections tot tbls (ord + 1) rest := rfl

theorem build_origin (tot : Nat) (tbls : List Nat) :
    ∀ (raw : List RawHeading) (ord : Nat) (s : FSection),
      s ∈ buildSections tot tbls ord raw →
      ∃ h ∈ raw, s.para_index = h.para_index
        ∧ s.content_start = h.para_index + 1 := by
  intro raw
  induction raw with
  | nil => intro ord s hs; simp [buildSections] at hs
  | cons h rest ih =>
    intro ord s hs
    rcases List.mem_cons.mp hs with rfl | hs2
    · exact ⟨h, List.mem_cons_self h rest, rfl, rfl⟩
    · obtain ⟨g, hg, he⟩ := ih (ord + 1) s hs2
      exact ⟨g, List.mem_cons_of_mem h hg, he⟩

theorem build_order_lt (tot : Nat) (tbls : List Nat) :
    ∀ (raw : List RawHeading) (ord : Nat) (s : FSection),
      s ∈ buildSections tot tbls ord raw → ord < s.order := by
  intro raw
  induction raw with
  | nil => intro ord s hs; simp [buildSections] at hs
  | cons h rest ih =>
    intro ord s hs
    rcases List.mem_cons.mp hs with rfl | hs2
    · show ord < ord + 1
      omega
    · have := ih (ord + 1) s hs2
      omega

theorem build_order_pairwise (tot : Nat) (tbls : List Nat) :
    ∀ (raw : List RawHeading) (ord : Nat),
      (buildSections tot tbls ord raw).Pairwise
        (fun a b => a.order < b.order) := by
  intro raw
  induction raw with
  | nil => intro ord; simp [buildSections]
  | cons h rest ih =>
    intro ord
    refine List.Pairwise.cons ?_ (ih (ord + 1))
    intro s hs
    have := build_order_lt tot tbls rest (ord + 1) s hs
    show ord + 1 < s.order
    omega

theorem build_content (tot : Nat) (tbls : List Nat) :
    ∀ (raw : List RawHeading) (ord : Nat),
      raw.Pairwise (fun a b => a.para_index < b.para_index) →
      (∀ h ∈ raw, h.para_index < tot) →
      ∀ s ∈ buildSections tot tbls ord raw,
        s.content_start = s.para_index + 1 ∧ s.content_start ≤ s.content_end
          ∧ s.content_end ≤ tot := by
  intro raw
  induction raw with
  | nil => intro ord _ _ s hs; simp [buildSections] at hs
  | cons h rest ih =>
    intro ord hpw hbd s hs
    rw [List.pairwise_cons] at hpw
    rcases List.mem_cons.mp hs with rfl | hs2
    · cases rest with
      | nil =>
        have hb := hbd h (List.mem_cons_self h [])
        refine ⟨rfl, ?_, ?_⟩
        · show h.para_index + 1 ≤ tot
          omega
        · show tot ≤ tot
          omega
      | cons nxt rest2 =>
        have h1 := hpw.1 nxt (List.mem_cons_self nxt rest2)
        have h2 := hbd nxt (List.mem_cons_of_mem h (List.mem_cons_self nxt rest2))
        refine ⟨rfl, ?_, ?_⟩
        · show h.para_index + 1 ≤ nxt.para_index
          omega
        · show nxt.para_index ≤ tot
          omega
    · exact ih (ord + 1) hpw.2 (fun g hg => hbd g (List.mem_cons_of_mem h hg)) s hs2

theorem build_chain (tot : Nat) (tbls : List Nat) :
    ∀ (raw : List RawHeading) (ord : Nat),
      List.Chain' (fun a b => a.content_end + 1 = b.content_start)
        (buildSections tot tbls ord raw) := by
  intro raw
  induction raw with
  | nil => intro ord; simp [buildSections]
  | cons h rest ih =>
    intro ord
    cases rest with
    | nil => simp [buildSections]
    | cons nxt rest2 =>
      exact List.Chain'.cons rfl (ih (ord + 1))

theorem build_last (tot : Nat) (tbls : List Nat) :
    ∀ (raw : List RawHeading) (ord : Nat) (s : FSection),
      (buildSections tot tbls ord raw).getLast? = some s →
      s.content_end = tot := by
  intro raw
  induction raw with
  | nil => intro ord s hs; simp [buildSections] at hs
  | cons h rest ih =>
    intro ord s hs
    cases rest with
    | nil =>
      have hs2 : some (⟨ord + 1, h.section_name, h.heading_text, h.para_index,
          h.heading_level, (classify_section h.section_name).1,
          (classify_section h.section_name).2.1, (classify_section h.section_name).2.2,
          h.para_index + 1, tot, rangeHasTable tbls (h.para_index + 1) tot⟩ : FSection)
          = some s := hs
      rw [Option.some.injEq] at hs2
      rw [← hs2]
    | cons nxt rest2 =>
      have hstep : (buildSections tot tbls ord (h :: nxt :: rest2)).getLast?
          = (buildSections tot tbls (ord + 1) (nxt :: rest2)).getLast? :=
        List.getLast?_cons_cons ..
      rw [hstep] at hs
      exact ih (ord + 1) s hs

theorem build_nonoverlap (tot : Nat) (tbls : List Nat) :
    ∀ (raw : List RawHeading) (ord : Nat),
      raw.Pairwise (fun a b => a.para_index < b.para_index) →
      (buildSections tot tbls ord raw).Pairwise
        (fun a b => a.content_end ≤ b.content_start) := by
  intro raw
  induction raw with
  | nil => intro ord _; simp [buildSections]
  | cons h rest ih =>
    intro ord hpw
    rw [List.pairwise_cons] at hpw
    cases rest with
    | nil => simp [buildSections]
    | cons nxt rest2 =>
      refine List.Pairwise.cons ?_ (ih (ord + 1) hpw.2)
      intro s hs
      obtain ⟨g, hg, hgp, hgc⟩ := build_origin tot tbls (nxt :: rest2) (ord + 1) s hs
      have hnle : nxt.para_index ≤ g.para_index := by
        rcases List.mem_cons.mp hg with rfl | hg2
        · omega
        · have hp2 := hpw.2
          rw [List.pairwise_cons] at hp2
          have := hp2.1 g hg2
          omega
      show nxt.para_index ≤ s.content_start
      rw [hgc]
      omega

theorem build_cover (tot : Nat) (tbls : List Nat) :
    ∀ (rest : List RawHeading) (h0 : RawHeading) (ord : Nat),
      (h0 :: rest).Pairwise (fun a b => a.para_index < b.para_index) →
      (∀ h ∈ h0 :: rest, h.para_index < tot) →
      ∀ k, h0.para_index + 1 ≤ k → k < tot →
        ((∃ s ∈ buildSections tot tbls ord (h0 :: rest),
            s.content_start ≤ k ∧ k < s.content_end) ↔
          k ∉ rest.map RawHeading.para_index) := by
  intro rest
  induction rest with
  | nil =>
    intro h0 ord _ _ k hk1 hk2
    constructor
    · intro _
      simp
    · intro _
      exact ⟨_, List.mem_cons_self _ [], hk1, hk2⟩
  | cons h1 rest2 ih =>
    intro h0 ord hpw hbd k hk1 hk2
    have hpw1 : (h1 :: rest2).Pairwise (fun a b => a.para_index < b.para_index) := by
      rw [List.pairwise_cons] at hpw
      exact hpw.2
    have h01 : h0.para_index < h1.para_index := by
      rw [List.pairwise_cons] at hpw
      exact hpw.1 h1 (List.mem_cons_self h1 rest2)
    have hbd1 : ∀ h ∈ h1 :: rest2, h.para_index < tot :=
      fun h hh => hbd h (List.mem_cons_of_mem h0 hh)
    by_cases hcase : k < h1.para_index
    · constructor
      · intro _
        simp only [List.map_cons, List.mem_cons]
        push_neg
        refine ⟨by omega, ?_⟩
        intro hmem
        obtain ⟨g, hg, hgk⟩ := List.mem_map.mp hmem
        have : h1.para_index < g.para_index := by
          rw [List.pairwise_cons] at hpw1
          exact hpw1.1 g hg
        omega
      · intro _
        exact ⟨_, List.mem_cons_self _ _, hk1, hcase⟩
    · by_cases heq : k = h1.para_index
      · subst heq
        constructor
        · rintro ⟨s, hs, hsk1, hsk2⟩
          exfalso
          rcases List.mem_cons.mp hs with rfl | hs2
          · have hsk2b : h1.para_index < h1.para_index := hsk2
            omega
          · obtain ⟨g, hg, hgp, hgc⟩ := build_origin tot tbls (h1 :: rest2) (ord + 1) s hs2
            have : h1.para_index ≤ g.para_index := by
              rcases List.mem_cons.mp hg with rfl | hg2
              · omega
              · rw [List.pairwise_cons] at hpw1
                have := hpw1.1 g hg2
                omega
            rw [hgc] at hsk1
            omega
        · intro hnot
          exfalso
          apply hnot
          simp
      · have hk1b : h1.para_index + 1 ≤ k := by omega
        have hih := ih h1 (ord + 1) hpw1 hbd1 k hk1b hk2
        constructor
        · rintro ⟨s, hs, hsk1, hsk2⟩
          rcases List.mem_cons.mp hs with rfl | hs2
          · have hsk2b : k < h1.para_index := hsk2
            omega
          · have h3 : k ∉ List.map RawHeading.para_index rest2 :=
              hih.mp ⟨s, hs2, hsk1, hsk2⟩
            simp only [List.map_cons, List.mem_cons]
            push_neg
            exact ⟨heq, fun hc => h3 hc⟩
        · intro hnot
          have hnot2 : k ∉ List.map RawHeading.para_index rest2 := by
            simp only [List.map_cons, List.mem_cons] at hnot
            push_neg at hnot
            exact hnot.2
          obtain ⟨s, hs, hsp⟩ := hih.mpr hnot2
          exact ⟨s, List.mem_cons_of_mem _ hs, hsp⟩

/-- C3 (amended): in a successfully parsed format template the section
orders are strictly increasing, each content range is
`[para_index+1, next heading)` (the last extending to the paragraph
count), the ranges are pairwise non-overlapping, and their union covers
`[first_heading+1, total_paragraphs)` with the sole exception of the
paragraph positions of the subsequent headings themselves (which belong
to no content range). -/
theorem claim_C3_format_invariants (body : List FBody) (secs : List FSection)
    (hsecs : (parse_format_template body).sections = secs) (hne : secs ≠ []) :
    secs.Pairwise (fun a b => a.order < b.order) ∧
    (∀ s ∈ secs, s.content_start = s.para_index + 1 ∧
      s.content_start ≤ s.content_end ∧
      s.content_end ≤ (parse_format_template body).total_paragraphs) ∧
    List.Chain' (fun a b => a.content_end + 1 = b.content_start) secs ∧
    (∀ s, secs.getLast? = some s →
      s.content_end = (parse_format_template body).total_paragraphs) ∧
    secs.Pairwise (fun a b => a.content_end ≤ b.content_start) ∧
    (∀ s0, secs.head? = some s0 → ∀ k, s0.content_start ≤ k →
      k < (parse_format_template body).total_paragraphs →
      ((∃ s ∈ secs, s.content_start ≤ k ∧ k < s.content_end) ↔
        k ∉ (secs.drop 1).map FSection.para_index)) := by
  by_cases h0 : (fparas body).length = 0
  · rw [parse_format_template, if_pos h0] at hsecs
    exact absurd hsecs.symm hne
  · by_cases hraw : scanHeadings 0 (fparas body) = []
    · rw [parse_format_template, if_neg h0] at hsecs
      simp only [hraw, if_pos rfl] at hsecs
      exact absurd hsecs.symm hne
    · have hsecs2 : secs = buildSections (fparas body).length (tableIndex body) 0
          (scanHeadings 0 (fparas body)) := by
        rw [parse_format_template, if_neg h0] at hsecs
        simp only [if_neg hraw] at hsecs
        exact hsecs.symm
      have htot : (parse_format_template body).total_paragraphs = (fparas body).length := by
        rw [parse_format_template, if_neg h0]
        simp only [if_neg hraw]
      have hpw := scan_pairwise (fparas body) 0
      have hbd : ∀ h ∈ scanHeadings 0 (fparas body),
          h.para_index < (fparas body).length := by
        intro h hh
        have := scan_bounds (fparas body) 0 h hh
        omega
      rw [htot, hsecs2]
      refine ⟨build_order_pairwise _ _ _ _, ?_, build_chain _ _ _ _, ?_, ?_, ?_⟩
      · exact build_content _ _ _ 0 hpw hbd
      · intro s hs
        exact build_last _ _ _ 0 s hs
      · exact build_nonoverlap _ _ _ 0 hpw
      · intro s0 hs0 k hk1 hk2
        cases hrawc : scanHeadings 0 (fparas body) with
        | nil => exact absurd hrawc hraw
        | cons hh rest =>
          rw [hrawc] at hs0
          have hs0c : s0.content_start = hh.para_index + 1 := by
            have hmap := congrArg List.head? (build_map_cstart
              (fparas body).length (tableIndex body) (hh :: rest) 0)
            rw [List.head?_map, List.head?_map, hs0] at hmap
            simpa using hmap
          rw [build_drop, build_map_para]
          exact build_cover (fparas body).length (tableIndex body) rest hh 0
            (hrawc ▸ hpw) (hrawc ▸ hbd) k (hs0c ▸ hk1) hk2

/-- Counterexample to C3 as stated: with headings at paragraphs 0 and 2
of a four-paragraph template, paragraph 2 (the second heading) lies in
`[first_heading+1, total_paragraphs)` but in no content range, so the
union of the ranges does not cover that interval. -/
theorem claim_C3_counterexample :
    (parse_format_template ceBodyC3).success = true ∧
    (∃ s0, (parse_format_template ceBodyC3).sections.head? = some s0 ∧
      s0.content_start ≤ 2) ∧
    2 < (parse_format_template ceBodyC3).total_paragraphs ∧
    ¬ (∃ s ∈ (parse_format_template ceBodyC3).sections,
        s.content_start ≤ 2 ∧ 2 < s.content_end) := by
  refine ⟨by decide, by decide, by decide, by decide⟩

/-- Witness for C3: the amended invariants instantiated on the concrete
template. -/
theorem claim_C3_witness :
    ((parse_format_template ceBodyC3).sections).Pairwise
      (fun a b => a.order < b.order) ∧
    List.Chain' (fun a b => a.content_end + 1 = b.content_start)
      (parse_format_template ceBodyC3).sections :=
  ⟨(claim_C3_format_invariants ceBodyC3 (parse_format_template ceBodyC3).sections
      rfl (by decide)).1,
   (claim_C3_format_invariants ceBodyC3 (parse_format_template ceBodyC3).sections
      rfl (by decide)).2.2.1⟩


/-!
### C7: placeholder resolution and substitution
-/

theorem bracketSub_cons (pd : ProjectData) (c : Char) (rest : Str) :
    bracketSub pd (c :: rest)
      = (if bracketOpen c then
          match bracketMatchAt rest with
          | some (seg, after) => resolvePlaceholder seg pd ++ bracketSubGo pd rest.length after
          | none => c :: bracketSubGo pd rest.length rest
         else c :: bracketSubGo pd rest.length rest) := rfl

theorem bracketSub_no_match (pd : ProjectData) :
    ∀ s : Str, hasBracketMatch s = false → bracketSub pd s = s := by
  intro s
  induction s with
  | nil => intro _; rfl
  | cons c rest ih =>
    intro h
    simp only [hasBracketMatch, Bool.or_eq_false_iff, Bool.and_eq_false_iff] at h
    rw [bracketSub_cons]
    have hrest : bracketSubGo pd rest.length rest = rest := ih h.2
    by_cases hc : bracketOpen c = true
    · rw [if_pos hc]
      rcases h.1 with hop | hsome
      · exact absurd hc (by simp [hop])
      · cases hmm : bracketMatchAt rest with
        | some v => rw [hmm] at hsome; simp at hsome
        | none => rw [hrest]
    · rw [if_neg hc, hrest]

theorem hasBracketMatch_append_right (a b : Str)
    (h : hasBracketMatch b = true) : hasBracketMatch (a ++ b) = true := by
  induction a with
  | nil => simpa using h
  | cons c a2 ih =>
    simp only [List.cons_append, hasBracketMatch, Bool.or_eq_true]
    exact Or.inr ih

theorem bracketMatchAt_append (rest b : Str)
    (h : (bracketMatchAt rest).isSome = true) :
    (bracketMatchAt (rest ++ b)).isSome = true := by
  unfold bracketMatchAt at h ⊢
  cases hrem : rest.dropWhile (fun c => ! bracketClose c) with
  | nil =>
    rw [hrem] at h
    simp at h
  | cons d after =>
    rw [hrem] at h
    simp only [] at h
    split at h
    · simp at h
    · have hlen := congrArg List.length
        (List.takeWhile_append_dropWhile (p := fun c => ! bracketClose c) (l := rest))
      rw [hrem] at hlen
      simp only [List.length_append, List.length_cons] at hlen
      have htlt : (rest.takeWhile (fun c => ! bracketClose c)).length ≠ rest.length := by
        omega
      rw [List.dropWhile_append, hrem]
      simp only [List.isEmpty_cons, if_false, Bool.false_eq_true, reduceIte]
      rw [List.takeWhile_append, if_neg htlt]
      split
      · rw [if_neg (by assumption)]
        simp
      · rename_i heq
        simp at heq

theorem hasBracketMatch_append_left (a b : Str)
    (h : hasBracketMatch a = true) : hasBracketMatch (a ++ b) = true := by
  induction a with
  | nil => simp [hasBracketMatch] at h
  | cons c a2 ih =>
    simp only [hasBracketMatch, Bool.or_eq_true, Bool.and_eq_true] at h
    simp only [List.cons_append, hasBracketMatch, Bool.or_eq_true]
    rcases h with ⟨hop, hsome⟩ | h2
    · exact Or.inl (by rw [hop, Bool.true_and]; exact bracketMatchAt_append a2 b hsome)
    · exact Or.inr (ih h2)

theorem hasBracketMatch_factor (runs : List Str) (r : Str) (hr : r ∈ runs)
    (h : hasBracketMatch runs.flatten = false) : hasBracketMatch r = false := by
  by_contra hc
  rw [Bool.not_eq_false] at hc
  obtain ⟨s, t, rfl⟩ := List.append_of_mem hr
  rw [List.flatten_append, List.flatten_cons] at h
  rw [hasBracketMatch_append_right _ _
    (hasBracketMatch_append_left _ _ hc)] at h
  exact Bool.true_eq_false ▸ h

theorem replaceParagraph_no_match (pd : ProjectData) (runs : List Str)
    (h : hasBracketMatch runs.flatten = false) :
    replaceParagraphPlaceholders pd runs = runs := by
  unfold replaceParagraphPlaceholders
  by_cases hful : runs.flatten = []
  · rw [if_pos hful]
  · rw [if_neg hful]
    by_cases hund : hasUnderlineMatch runs.flatten = true
    · rw [if_neg (by simp [h, hund])]
      have hruns1 : runs.map (fun r => bracketSub pd r) = runs := by
        have : ∀ r ∈ runs, bracketSub pd r = r := fun r hr =>
          bracketSub_no_match pd r (hasBracketMatch_factor runs r hr h)
        calc runs.map (fun r => bracketSub pd r) = runs.map id := List.map_congr_left this
          _ = runs := List.map_id runs
      simp only [hruns1, h]
      rw [if_neg (by simp)]
    · rw [if_pos (by simp [h]; simpa using hund)]

theorem find?_first {α : Type} (p : α → Bool) :
    ∀ (l : List α) (a : α), l.find? p = some a →
      ∃ i : Nat, l[i]? = some a ∧ p a = true ∧
        ∀ j, j < i → ∀ q, l[j]? = some q → p q = false := by
  intro l
  induction l with
  | nil => intro a h; simp [List.find?] at h
  | cons x t ih =>
    intro a h
    by_cases hx : p x = true
    · rw [List.find?_cons_of_pos _ hx] at h
      refine ⟨0, by simpa using h, ?_, ?_⟩
      · rw [← Option.some.inj h]
        exact hx
      · intro j hj
        omega
    · rw [List.find?_cons_of_neg _ hx] at h
      obtain ⟨i, hget, hpa, hfirst⟩ := ih a h
      refine ⟨i + 1, by simpa using hget, hpa, ?_⟩
      intro j hj q hq
      cases j with
      | zero =>
        have hqx : q = x := by simpa using hq.symm
        rw [hqx]
        exact Bool.eq_false_iff.mpr hx
      | succ j2 =>
        exact hfirst j2 (by omega) q (by simpa using hq)

/-- C7: a bracket placeholder key resolves by exact lookup first; when
the exact lookup misses and some map key is a substring or superstring
of the stripped key, the first such entry in declaration order supplies
the field; a key matching neither is rewritten back into the text in
brackets (never dropped); and running the bracket substitution on text
with no bracket pattern changes nothing (so re-running the substitution
after all placeholders are gone is the identity, both on raw text and
on a paragraph's runs). -/
theorem claim_C7_placeholder_resolution :
    (∀ (key : Str) (pd : ProjectData) (f : PField),
      PLACEHOLDER_FIELD_MAP.find? (fun p => p.1 = pyStrip key)
          = some (pyStrip key, f) →
      resolvePlaceholder key pd = getField pd f) ∧
    (∀ (key : Str) (pd : ProjectData),
      (∀ p ∈ PLACEHOLDER_FIELD_MAP, p.1 ≠ pyStrip key) →
      (∃ p ∈ PLACEHOLDER_FIELD_MAP, p.1 <:+: pyStrip key ∨ pyStrip key <:+: p.1) →
      ∃ (i : Nat) (p : Str × PField), PLACEHOLDER_FIELD_MAP[i]? = some p ∧
        (p.1 <:+: pyStrip key ∨ pyStrip key <:+: p.1) ∧
        (∀ j, j < i → ∀ q : Str × PField, PLACEHOLDER_FIELD_MAP[j]? = some q →
          ¬ (q.1 <:+: pyStrip key ∨ pyStrip key <:+: q.1)) ∧
        resolvePlaceholder key pd = getField pd p.2) ∧
    (∀ (key : Str) (pd : ProjectData),
      (∀ p ∈ PLACEHOLDER_FIELD_MAP,
        ¬ (p.1 <:+: pyStrip key ∨ pyStrip key <:+: p.1)) →
      resolvePlaceholder key pd = '[' :: (pyStrip key ++ [']'])) ∧
    (∀ (pd : ProjectData) (s : Str), hasBracketMatch s = false →
      bracketSub pd s = s) ∧
    (∀ (pd : ProjectData) (runs : List Str),
      hasBracketMatch runs.flatten = false →
      replaceParagraphPlaceholders pd runs = runs) := by
  refine ⟨?_, ?_, ?_, fun pd s => bracketSub_no_match pd s, replaceParagraph_no_match⟩
  · intro key pd f hfind
    simp only [resolvePlaceholder]
    rw [hfind]
  · intro key pd hexactmiss hfuzzyhit
    have hexact : PLACEHOLDER_FIELD_MAP.find? (fun p => p.1 = pyStrip key) = none := by
      rw [List.find?_eq_none]
      intro p hp
      simp only [decide_eq_true_eq]
      exact hexactmiss p hp
    have hfsome : ∃ a, PLACEHOLDER_FIELD_MAP.find?
        (fun p => isSub p.1 (pyStrip key) || isSub (pyStrip key) p.1) = some a := by
      cases hf : PLACEHOLDER_FIELD_MAP.find?
          (fun p => isSub p.1 (pyStrip key) || isSub (pyStrip key) p.1) with
      | none =>
        exfalso
        rw [List.find?_eq_none] at hf
        obtain ⟨p, hp, hor⟩ := hfuzzyhit
        apply hf p hp
        simp only [Bool.or_eq_true, isSub_iff]
        exact hor
      | some a => exact ⟨a, rfl⟩
    obtain ⟨a, hfind⟩ := hfsome
    obtain ⟨i, hget, hpa, hfirst⟩ := find?_first _ PLACEHOLDER_FIELD_MAP a hfind
    refine ⟨i, a, hget, ?_, ?_, ?_⟩
    · simpa only [Bool.or_eq_true, isSub_iff] using hpa
    · intro j hj q hq
      have h2 := hfirst j hj q hq
      rw [Bool.or_eq_false_iff] at h2
      intro hc
      rcases hc with hc | hc
      · rcases h2 with ⟨h3, _⟩
        exact absurd ((isSub_iff q.1 (pyStrip key)).mpr hc) (by simp [h3])
      · rcases h2 with ⟨_, h4⟩
        exact absurd ((isSub_iff (pyStrip key) q.1).mpr hc) (by simp [h4])
    · simp only [resolvePlaceholder]
      rw [hexact, hfind]
  · intro key pd hnone
    unfold resolvePlaceholder
    have hexact : PLACEHOLDER_FIELD_MAP.find? (fun p => p.1 = pyStrip key) = none := by
      rw [List.find?_eq_none]
      intro p hp
      simp only [decide_eq_true_eq]
      intro hc
      exact hnone p hp (Or.inl (by rw [hc]))
    have hfuzzy : PLACEHOLDER_FIELD_MAP.find?
        (fun p => isSub p.1 (pyStrip key) || isSub (pyStrip key) p.1) = none := by
      rw [List.find?_eq_none]
      intro p hp
      simp only [Bool.or_eq_true, isSub_iff]
      intro hc
      exact hnone p hp hc
    simp only [resolvePlaceholder]
    rw [hexact, hfuzzy]

/-- Witness for C7: a concrete exact resolution, a concrete fuzzy
resolution (exact miss, map key `公司名称` a substring of the key), a
concrete unresolved key kept in brackets, and a concrete
no-placeholder identity. -/
theorem claim_C7_witness :
    resolvePlaceholder (cs (r"公司名称")) pdC7 = getField pdC7 .company_name ∧
    ((∀ p ∈ PLACEHOLDER_FIELD_MAP, p.1 ≠ pyStrip (cs (r"公司名称全称"))) ∧
      ∃ (i : Nat) (p : Str × PField), PLACEHOLDER_FIELD_MAP[i]? = some p ∧
        (p.1 <:+: pyStrip (cs (r"公司名称全称")) ∨
          pyStrip (cs (r"公司名称全称")) <:+: p.1) ∧
        (∀ j, j < i → ∀ q : Str × PField, PLACEHOLDER_FIELD_MAP[j]? = some q →
          ¬ (q.1 <:+: pyStrip (cs (r"公司名称全称")) ∨
            pyStrip (cs (r"公司名称全称")) <:+: q.1)) ∧
        resolvePlaceholder (cs (r"公司名称全称")) pdC7 = getField pdC7 p.2) ∧
    resolvePlaceholder (cs (r"无此字段")) pdC7 = '[' :: (pyStrip (cs (r"无此字段")) ++ [']']) ∧
    bracketSub pdC7 (cs (r"没有占位符的文字")) = cs (r"没有占位符的文字") :=
  ⟨claim_C7_placeholder_resolution.1 (cs (r"公司名称")) pdC7 .company_name (by decide),
   ⟨by decide,
    claim_C7_placeholder_resolution.2.1 (cs (r"公司名称全称")) pdC7
      (by decide) (by decide)⟩,
   claim_C7_placeholder_resolution.2.2.1 (cs (r"无此字段")) pdC7 (by decide),
   claim_C7_placeholder_resolution.2.2.2.1 pdC7 (cs (r"没有占位符的文字")) (by decide)⟩


/-!
### C8: silent degradation of the fusion engine
-/

theorem fillFirst_no_table (f : DTable → DTable) (a b : Nat) :
    ∀ (doc : Doc) (cnt : Nat),
      (∀ t ∈ docTablePositions cnt doc, ¬ (a ≤ t ∧ t ≤ b)) →
      fillFirstTableInRange f a b cnt doc = doc := by
  intro doc
  induction doc with
  | nil => intro cnt _; rfl
  | cons e rest ih =>
    intro cnt hno
    cases e with
    | p par =>
      simp only [fillFirstTableInRange]
      rw [ih (cnt + 1) hno]
    | tbl t =>
      have hcnt : ¬ (a ≤ cnt ∧ cnt ≤ b) :=
        hno cnt (List.mem_cons_self cnt _)
      simp only [fillFirstTableInRange]
      rw [if_neg hcnt, ih cnt (fun u hu => hno u (List.mem_cons_of_mem cnt hu))]

/-- C8: a section whose fill target is missing is left alone without an
error and without touching the rest of the document: an absent
personnel list, no table inside the section's content range, a table
with fewer than two rows, or no data row under the header all leave the
input unchanged; `fill_template` fails exactly when the source template
cannot be opened, and succeeds (with some document) on every opened
source. -/
theorem claim_C8_silent_degradation :
    (∀ (pd : ProjectData) (persons : List PersonRec) (perfs : List PerfRec)
        (sections : List SecInfo),
      fill_template pd persons perfs none sections
        = Except.error (cs (r"无法打开格式模板文件"))) ∧
    (∀ (pd : ProjectData) (persons : List PersonRec) (perfs : List PerfRec)
        (doc : Doc) (sections : List SecInfo),
      ∃ d, fill_template pd persons perfs (some doc) sections = Except.ok d) ∧
    (∀ (rows : DTable) (ps : List PersonRec), rows.length < 2 →
      fillPersonnelTable rows ps = rows) ∧
    (∀ (rows : DTable) (ps : List PersonRec),
      rows.length ≤ (rows.findIdx? isPersonnelHeader).getD 0 + 1 →
      fillPersonnelTable rows ps = rows) ∧
    (∀ (ps : List PersonRec) (a b : Nat) (doc : Doc), ps = [] →
      fillPersonnelSection ps a b doc = doc) ∧
    (∀ (ps : List PersonRec) (a b : Nat) (doc : Doc),
      (∀ t ∈ docTablePositions 0 doc, ¬ (a ≤ t ∧ t ≤ b)) →
      fillPersonnelSection ps a b doc = doc) := by
  refine ⟨fun _ _ _ _ => rfl, fun pd persons perfs doc sections => ⟨_, rfl⟩,
    ?_, ?_, ?_, ?_⟩
  · intro rows ps hlt
    unfold fillPersonnelTable
    rw [if_pos hlt]
  · intro rows ps hle
    unfold fillPersonnelTable
    by_cases h2 : rows.length < 2
    · rw [if_pos h2]
    · rw [if_neg h2, if_neg (by omega)]
  · intro ps a b doc hps
    unfold fillPersonnelSection
    rw [if_pos hps]
  · intro ps a b doc hno
    unfold fillPersonnelSection
    by_cases hps : ps = []
    · rw [if_pos hps]
    · rw [if_neg hps, fillFirst_no_table _ a b doc 0 hno]

/-- Witness for C8 on concrete empty and undersized targets. -/
theorem claim_C8_witness :
    fillPersonnelTable [[[[cs (r"姓名")]]]] [⟨cs (r"张三"), [], [], [], [], []⟩]
        = [[[[cs (r"姓名")]]]] ∧
    fillPersonnelSection [⟨cs (r"张三"), [], [], [], [], []⟩] 0 5
        [DocElem.p [cs (r"正文")]] = [DocElem.p [cs (r"正文")]] :=
  ⟨claim_C8_silent_degradation.2.2.1 [[[[cs (r"姓名")]]]]
      [⟨cs (r"张三"), [], [], [], [], []⟩] (by decide),
   claim_C8_silent_degradation.2.2.2.2.2 [⟨cs (r"张三"), [], [], [], [], []⟩]
      0 5 [DocElem.p [cs (r"正文")]] (by decide)⟩

/-!
### C5: requirements matching
-/

theorem isPre_split (c : Char) :
    ∀ (kw x y : Str), c ∉ kw → isPre kw (x ++ c :: y) = true → isPre kw x = true := by
  intro kw
  induction kw with
  | nil => intro x y _ _; cases x <;> simp [isPre]
  | cons k kt ih =>
    intro x y hc hpre
    cases x with
    | nil =>
      simp only [List.nil_append, isPre, Bool.and_eq_true, decide_eq_true_eq] at hpre
      have : c ∈ k :: kt := by rw [← hpre.1]; exact List.mem_cons_self k kt
      exact absurd this hc
    | cons d x2 =>
      simp only [List.cons_append, isPre, Bool.and_eq_true] at hpre ⊢
      exact ⟨hpre.1, ih x2 y (fun hm => hc (List.mem_cons_of_mem k hm)) hpre.2⟩

theorem isSub_of_isPre (kw : Str) : ∀ x, isPre kw x = true → isSub kw x = true := by
  intro x h
  cases x with
  | nil =>
    cases kw with
    | nil => simp [isSub]
    | cons a t => simp [isPre] at h
  | cons d t => simp [isSub, h]

theorem isSub_split (c : Char) :
    ∀ (x kw y : Str), kw ≠ [] → c ∉ kw → isSub kw (x ++ c :: y) = true →
      isSub kw x = true ∨ isSub kw y = true := by
  intro x
  induction x with
  | nil =>
    intro kw y hkw hc h
    simp only [List.nil_append, isSub, Bool.or_eq_true] at h
    rcases h with h | h
    · cases kw with
      | nil => exact absurd rfl hkw
      | cons k kt =>
        simp only [isPre, Bool.and_eq_true, decide_eq_true_eq] at h
        have : c ∈ k :: kt := by rw [← h.1]; exact List.mem_cons_self k kt
        exact absurd this hc
    · exact Or.inr h
  | cons d x2 ih =>
    intro kw y hkw hc h
    rw [List.cons_append] at h
    simp only [isSub, Bool.or_eq_true] at h
    rcases h with h | h
    · have hp : isPre kw ((d :: x2) ++ c :: y) = true := by
        rw [List.cons_append]; exact h
      have : isPre kw (d :: x2) = true := isPre_split c kw (d :: x2) y hc hp
      exact Or.inl (isSub_of_isPre kw (d :: x2) this)
    · rcases ih kw y hkw hc h with h2 | h2
      · exact Or.inl (by simp [isSub, h2])
      · exact Or.inr h2

theorem isSub_trans (a b c' : Str) (h1 : isSub a b = true) (h2 : isSub b c' = true) :
    isSub a c' = true :=
  (isSub_iff a c').mpr (((isSub_iff a b).mp h1).trans ((isSub_iff b c').mp h2))

theorem isSub_mem (kw h : Str) (hs : isSub kw h = true) : ∀ c ∈ kw, c ∈ h :=
  fun _ hc => ((isSub_iff kw h).mp hs).sublist.subset hc

theorem isSub_nil_ne (kw s : Str) (hkw : kw ≠ []) (hs : isSub kw s = true) : s ≠ [] := by
  intro h0
  rw [h0] at hs
  cases kw with
  | nil => exact hkw rfl
  | cons a t => simp [isSub] at hs

theorem isSub_join_split (sep : Char) (kw : Str) (hkw : kw ≠ []) (hsep : sep ∉ kw) :
    ∀ ls : List Str, isSub kw (pyJoin sep ls) = true → ∃ l ∈ ls, isSub kw l = true := by
  intro ls
  induction ls with
  | nil =>
    intro h
    exact absurd rfl (isSub_nil_ne kw (pyJoin sep []) hkw h)
  | cons x rest ih =>
    intro h
    cases rest with
    | nil => exact ⟨x, List.mem_cons_self x [], by simpa [pyJoin] using h⟩
    | cons y rest2 =>
      rw [show pyJoin sep (x :: y :: rest2) = x ++ sep :: pyJoin sep (y :: rest2) from rfl] at h
      rcases isSub_split sep x kw (pyJoin sep (y :: rest2)) hkw hsep h with h2 | h2
      · exact ⟨x, List.mem_cons_self x _, h2⟩
      · obtain ⟨l, hl, hsub⟩ := ih h2
        exact ⟨l, List.mem_cons_of_mem x hl, hsub⟩

theorem isSub_append_left (kw pre h : Str) (hs : isSub kw h = true) :
    isSub kw (pre ++ h) = true :=
  (isSub_iff kw (pre ++ h)).mpr
    (((isSub_iff kw h).mp hs).trans (List.suffix_append pre h).isInfix)

theorem isSub_join_of_mem (sep : Char) (kw : Str) :
    ∀ (ls : List Str) (l : Str), l ∈ ls → isSub kw l = true →
      isSub kw (pyJoin sep ls) = true := by
  intro ls
  induction ls with
  | nil => intro l hl _; cases hl
  | cons x rest ih =>
    intro l hl hsub
    cases rest with
    | nil =>
      rcases List.mem_cons.mp hl with rfl | h0
      · simpa [pyJoin] using hsub
      · cases h0
    | cons y rest2 =>
      rw [show pyJoin sep (x :: y :: rest2) = x ++ sep :: pyJoin sep (y :: rest2) from rfl]
      rcases List.mem_cons.mp hl with rfl | h0
      · exact isSub_append kw l (sep :: pyJoin sep (y :: rest2)) hsub
      · have h2 : isSub kw (pyJoin sep (y :: rest2)) = true := ih l h0 hsub
        have h3 : isSub kw ((x ++ [sep]) ++ pyJoin sep (y :: rest2)) = true :=
          isSub_append_left kw (x ++ [sep]) _ h2
        simpa [List.append_assoc] using h3

theorem strip_decomp (s : Str) :
    ∃ w1 w2 : Str, s = w1 ++ (pyStrip s ++ w2) ∧ (∀ c ∈ w1, pySpace c = true) ∧
      (∀ c ∈ w2, pySpace c = true) := by
  have h1 : s.takeWhile pySpace ++ s.dropWhile pySpace = s :=
    List.takeWhile_append_dropWhile pySpace s
  have h2 : (s.dropWhile pySpace).reverse.takeWhile pySpace ++
      (s.dropWhile pySpace).reverse.dropWhile pySpace = (s.dropWhile pySpace).reverse :=
    List.takeWhile_append_dropWhile pySpace (s.dropWhile pySpace).reverse
  have h3 : s.dropWhile pySpace =
      ((s.dropWhile pySpace).reverse.dropWhile pySpace).reverse ++
        ((s.dropWhile pySpace).reverse.takeWhile pySpace).reverse := by
    have h4 := congrArg List.reverse h2
    rw [List.reverse_append, List.reverse_reverse] at h4
    exact h4.symm
  refine ⟨s.takeWhile pySpace,
    ((s.dropWhile pySpace).reverse.takeWhile pySpace).reverse, ?_, ?_, ?_⟩
  · rw [show pyStrip s = ((s.dropWhile pySpace).reverse.dropWhile pySpace).reverse from rfl]
    rw [← h3]
    exact h1.symm
  · intro c hc; exact List.mem_takeWhile_imp hc
  · intro c hc
    rw [List.mem_reverse] at hc
    exact List.mem_takeWhile_imp hc

theorem isSub_drop_ws (kw : Str) (hkw : kw ≠ []) (hws : ∀ c ∈ kw, pySpace c = false) :
    ∀ w1 rest : Str, (∀ c ∈ w1, pySpace c = true) → isSub kw (w1 ++ rest) = true →
      isSub kw rest = true := by
  intro w1
  induction w1 with
  | nil => intro rest _ h; simpa using h
  | cons d w2 ih =>
    intro rest hw h
    rw [List.cons_append] at h
    simp only [isSub, Bool.or_eq_true] at h
    rcases h with h | h
    · cases kw with
      | nil => exact absurd rfl hkw
      | cons k kt =>
        simp only [isPre, Bool.and_eq_true, decide_eq_true_eq] at h
        have hk : pySpace k = false := hws k (List.mem_cons_self k kt)
        have hd : pySpace d = true := hw d (List.mem_cons_self d w2)
        rw [h.1] at hk
        rw [hk] at hd
        exact Bool.noConfusion hd
    · exact ih rest (fun c hc => hw c (List.mem_cons_of_mem d hc)) h

theorem isSub_strip (kw l : Str) (hkw : kw ≠ []) (hws : ∀ c ∈ kw, pySpace c = false)
    (h : isSub kw l = true) : isSub kw (pyStrip l) = true := by
  obtain ⟨w1, w2, hdec, hw1, hw2⟩ := strip_decomp l
  rw [hdec] at h
  have h2 : isSub kw (pyStrip l ++ w2) = true := isSub_drop_ws kw hkw hws w1 _ hw1 h
  cases hw2e : w2 with
  | nil => rw [hw2e] at h2; simpa using h2
  | cons d w3 =>
    rw [hw2e] at h2
    have hd : d ∉ kw := by
      intro hm
      have := hws d hm
      rw [hw2e] at hw2
      rw [hw2 d (List.mem_cons_self d w3)] at this
      exact Bool.noConfusion this
    rcases isSub_split d (pyStrip l) kw w3 hkw hd h2 with h3 | h3
    · exact h3
    · exfalso
      cases hke : kw with
      | nil => exact hkw hke
      | cons k kt =>
        have hkmem : k ∈ kw := by rw [hke]; exact List.mem_cons_self k kt
        have hk3 : k ∈ w3 := isSub_mem kw w3 h3 k hkmem
        have : pySpace k = true := by
          rw [hw2e] at hw2
          exact hw2 k (List.mem_cons_of_mem d hk3)
        rw [hws k hkmem] at this
        exact Bool.noConfusion this

theorem pyStrip_isSub (s : Str) : isSub (pyStrip s) s = true := by
  obtain ⟨w1, w2, hdec, _, _⟩ := strip_decomp s
  rw [isSub_iff]
  exact ⟨w1, w2, by rw [List.append_assoc]; exact hdec.symm⟩

theorem pySplit_join (sep : Char) : ∀ s : Str, pyJoin sep (pySplit sep s) = s := by
  intro s
  induction s with
  | nil => rfl
  | cons c rest ih =>
    simp only [pySplit]
    by_cases hc : c = sep
    · rw [if_pos hc]
      cases hr : pySplit sep rest with
      | nil => exact absurd hr (pySplit_ne_nil sep rest)
      | cons h t =>
        rw [hr] at ih
        rw [show pyJoin sep ([] :: h :: t) = [] ++ sep :: pyJoin sep (h :: t) from rfl]
        rw [ih, hc]
        rfl
    · rw [if_neg hc]
      cases hr : pySplit sep rest with
      | nil => exact absurd hr (pySplit_ne_nil sep rest)
      | cons h t =>
        rw [hr] at ih
        cases t with
        | nil =>
          simp only [pyJoin] at ih ⊢
          rw [ih]
        | cons u t2 =>
          rw [show pyJoin sep ((c :: h) :: u :: t2) =
            (c :: h) ++ sep :: pyJoin sep (u :: t2) from rfl]
          rw [show pyJoin sep (h :: u :: t2) = h ++ sep :: pyJoin sep (u :: t2) from rfl] at ih
          rw [← ih]
          rfl

theorem cjkSplit_spec (s : Str) :
    (∀ c ∈ (cjkSplit s).1, isCJK c = true) ∧
    (∀ r ∈ (cjkSplit s).2, r ≠ [] ∧ ∀ c ∈ r, isCJK c = true) := by
  induction s with
  | nil => exact ⟨by simp [cjkSplit], by simp [cjkSplit]⟩
  | cons c rest ih =>
    simp only [cjkSplit]
    by_cases hc : isCJK c = true
    · rw [if_pos hc]
      refine ⟨?_, ih.2⟩
      intro d hd
      rcases List.mem_cons.mp hd with rfl | hd2
      · exact hc
      · exact ih.1 d hd2
    · rw [if_neg hc]
      refine ⟨by simp, ?_⟩
      by_cases h1 : (cjkSplit rest).1 = []
      · rw [if_pos h1]; exact ih.2
      · rw [if_neg h1]
        intro r hr
        rcases List.mem_cons.mp hr with rfl | hr2
        · exact ⟨h1, ih.1⟩
        · exact ih.2 r hr2

theorem isCJK_not_space (c : Char) (h : isCJK c = true) : pySpace c = false := by
  cases hps : pySpace c
  · rfl
  · exfalso
    have h6 := hps
    simp only [pySpace, Bool.or_eq_true, decide_eq_true_eq] at h6
    rcases h6 with ((((rfl | rfl) | rfl) | rfl) | rfl) | rfl <;> exact absurd h (by decide)

theorem nameKeywords_spec (s : Str) :
    ∀ kw ∈ nameKeywords s, kw ≠ [] ∧ (∀ c ∈ kw, pySpace c = false) := by
  intro kw hkw
  unfold nameKeywords at hkw
  have hmem := (List.mem_filter.mp hkw).1
  have hlen := (List.mem_filter.mp hkw).2
  have hcjk : ∀ c ∈ kw, isCJK c = true := by
    by_cases h1 : (cjkSplit s).1 = []
    · rw [if_pos h1] at hmem
      exact ((cjkSplit_spec s).2 kw hmem).2
    · rw [if_neg h1] at hmem
      rcases List.mem_cons.mp hmem with rfl | h2
      · exact (cjkSplit_spec s).1
      · exact ((cjkSplit_spec s).2 kw h2).2
  refine ⟨?_, fun c hc => isCJK_not_space c (hcjk c hc)⟩
  intro hnil
  rw [hnil] at hlen
  simp at hlen

theorem typeKeywords_spec (t : Str) :
    ∀ kw ∈ typeKeywords t, kw ≠ [] ∧ (∀ c ∈ kw, pySpace c = false) := by
  have hall : ∀ e ∈ SECTION_KEYWORD_MAP, ∀ kw ∈ e.keywords,
      kw ≠ [] ∧ (∀ c ∈ kw, pySpace c = false) := by decide
  intro kw hkw
  unfold typeKeywords at hkw
  by_cases ht : t = []
  · rw [if_pos ht] at hkw; cases hkw
  · rw [if_neg ht] at hkw
    cases hfind : SECTION_KEYWORD_MAP.find? (fun e => e.stype = t) with
    | none => rw [hfind] at hkw; cases hkw
    | some e =>
      rw [hfind] at hkw
      exact hall e (List.mem_of_find?_eq_some hfind) kw hkw

theorem sum_pos_exists {α : Type} (f : α → Nat) :
    ∀ l : List α, 0 < (l.map f).sum → ∃ x ∈ l, 0 < f x := by
  intro l
  induction l with
  | nil => intro h; simp at h
  | cons a t ih =>
    intro h
    rw [List.map_cons, List.sum_cons] at h
    by_cases ha : 0 < f a
    · exact ⟨a, List.mem_cons_self a t, ha⟩
    · have h2 : 0 < (t.map f).sum := by omega
      obtain ⟨x, hx, hfx⟩ := ih h2
      exact ⟨x, List.mem_cons_of_mem a hx, hfx⟩

theorem scoreBlockMatch_pos (b : ReqBlock) (name type : Str)
    (h : 0 < scoreBlockMatch b name type) :
    ∃ kw, (kw ∈ nameKeywords name ∨ kw ∈ typeKeywords type) ∧
      isSub kw (blockText b) = true ∧ kw ≠ [] := by
  unfold scoreBlockMatch at h
  have h2 : 0 < ((nameKeywords name).map
        (fun kw => if isSub kw (blockText b) then kw.length else 0)).sum ∨
      0 < ((typeKeywords type).map
        (fun kw => if isSub kw (blockText b) then kw.length else 0)).sum := by omega
  rcases h2 with h2 | h2 <;>
    [obtain ⟨kw, hkw, hpos⟩ := sum_pos_exists _ _ h2;
      obtain ⟨kw, hkw, hpos⟩ := sum_pos_exists _ _ h2]
  · by_cases hs : isSub kw (blockText b) = true
    · refine ⟨kw, Or.inl hkw, hs, ?_⟩
      intro hnil
      rw [if_pos hs, hnil] at hpos
      simp at hpos
    · rw [if_neg hs] at hpos
      exact absurd hpos (by simp)
  · by_cases hs : isSub kw (blockText b) = true
    · refine ⟨kw, Or.inr hkw, hs, ?_⟩
      intro hnil
      rw [if_pos hs, hnil] at hpos
      simp at hpos
    · rw [if_neg hs] at hpos
      exact absurd hpos (by simp)

theorem bestBlockFold_origin (name type : Str) :
    ∀ (blocks : List ReqBlock) (acc : Nat × Str),
      bestBlockFold name type acc blocks = acc ∨
      ∃ blk ∈ blocks, bestBlockFold name type acc blocks =
        (scoreBlockMatch blk name type,
          blk.title ++ '\n' :: pyJoin '\n' blk.content_lines) := by
  intro blocks
  induction blocks with
  | nil => intro acc; exact Or.inl rfl
  | cons blk rest ih =>
    intro acc
    rw [show bestBlockFold name type acc (blk :: rest) = bestBlockFold name type
      (if scoreBlockMatch blk name type > acc.1
       then (scoreBlockMatch blk name type,
         blk.title ++ '\n' :: pyJoin '\n' blk.content_lines)
       else acc) rest from rfl]
    by_cases hgt : scoreBlockMatch blk name type > acc.1
    · rw [if_pos hgt]
      rcases ih (scoreBlockMatch blk name type,
          blk.title ++ '\n' :: pyJoin '\n' blk.content_lines) with h | ⟨b2, hb2, he⟩
      · exact Or.inr ⟨blk, List.mem_cons_self blk rest, h⟩
      · exact Or.inr ⟨b2, List.mem_cons_of_mem blk hb2, he⟩
    · rw [if_neg hgt]
      rcases ih acc with h | ⟨b2, hb2, he⟩
      · exact Or.inl h
      · exact Or.inr ⟨b2, List.mem_cons_of_mem blk hb2, he⟩

theorem splitBlocks_origin :
    ∀ (ps : List Str) (title : Str) (lines : List Str) (b : ReqBlock),
      b ∈ splitBlocksAux title lines ps →
      (b.title = title ∨ ∃ p ∈ ps, b.title = pyStrip p) ∧
      (∀ l ∈ b.content_lines, l ∈ lines ∨ ∃ p ∈ ps, l = pyStrip p) := by
  intro ps
  induction ps with
  | nil =>
    intro title lines b hb
    simp only [splitBlocksAux] at hb
    split at hb
    · have hbe : b = ⟨title, lines⟩ := List.mem_singleton.mp hb
      subst hbe
      exact ⟨Or.inl rfl, fun l hl => Or.inl hl⟩
    · cases hb
  | cons p rest ih =>
    intro title lines b hb
    simp only [splitBlocksAux] at hb
    by_cases h1 : pyStrip p = []
    · rw [if_pos h1] at hb
      obtain ⟨hT, hL⟩ := ih title lines b hb
      refine ⟨?_, ?_⟩
      · rcases hT with h | ⟨q, hq, he⟩
        · exact Or.inl h
        · exact Or.inr ⟨q, List.mem_cons_of_mem p hq, he⟩
      · intro l hl
        rcases hL l hl with h | ⟨q, hq, he⟩
        · exact Or.inl h
        · exact Or.inr ⟨q, List.mem_cons_of_mem p hq, he⟩
    · rw [if_neg h1] at hb
      by_cases h2 : chapterPat (pyStrip p) = true
      · rw [if_pos h2] at hb
        rcases List.mem_append.mp hb with hb1 | hb2
        · split at hb1
          · have hbe : b = ⟨title, lines⟩ := List.mem_singleton.mp hb1
            subst hbe
            exact ⟨Or.inl rfl, fun l hl => Or.inl hl⟩
          · cases hb1
        · obtain ⟨hT, hL⟩ := ih (pyStrip p) [] b hb2
          refine ⟨?_, ?_⟩
          · rcases hT with h | ⟨q, hq, he⟩
            · exact Or.inr ⟨p, List.mem_cons_self p rest, h⟩
            · exact Or.inr ⟨q, List.mem_cons_of_mem p hq, he⟩
          · intro l hl
            rcases hL l hl with h | ⟨q, hq, he⟩
            · cases h
            · exact Or.inr ⟨q, List.mem_cons_of_mem p hq, he⟩
      · rw [if_neg h2] at hb
        obtain ⟨hT, hL⟩ := ih title (lines ++ [pyStrip p]) b hb
        refine ⟨?_, ?_⟩
        · rcases hT with h | ⟨q, hq, he⟩
          · exact Or.inl h
          · exact Or.inr ⟨q, List.mem_cons_of_mem p hq, he⟩
        · intro l hl
          rcases hL l hl with h | ⟨q, hq, he⟩
          · rcases List.mem_append.mp h with h3 | h3
            · exact Or.inl h3
            · exact Or.inr ⟨p, List.mem_cons_self p rest, List.mem_singleton.mp h3⟩
          · exact Or.inr ⟨q, List.mem_cons_of_mem p hq, he⟩

theorem matchReq_lines_le (full name type : Str) :
    (pySplit '\n' (matchReqToSection full name type)).length ≤ 10 := by
  simp only [matchReqToSection]
  by_cases hf : full = []
  · rw [if_pos hf]
    simp [pySplit]
  · rw [if_neg hf]
    by_cases hk : secKeywords name type = []
    · rw [if_pos hk]
      simp [pySplit]
    · rw [if_neg hk]
      cases htake : (((pySplit '\n' full).map pyStrip).filter
          (fun l => l ≠ [] ∧ (secKeywords name type).any (fun kw => isSub kw l))).take 10 with
      | nil =>
        simp [pyJoin, pySplit]
      | cons a t =>
        have hsubm : ∀ x ∈ a :: t, ('\n' : Char) ∉ x := by
          intro x hx
          rw [← htake] at hx
          have hx2 := List.take_subset 10 _ hx
          have hx3 := (List.mem_filter.mp hx2).1
          obtain ⟨y, hy, he⟩ := List.mem_map.mp hx3
          intro hnl
          rw [← he] at hnl
          exact pySplit_no_sep '\n' full y hy (mem_pyStrip y '\n' hnl)
        rw [pyJoin_roundtrip '\n' (a :: t) (by simp) hsubm]
        have := List.length_take 10 (((pySplit '\n' full).map pyStrip).filter
          (fun l => l ≠ [] ∧ (secKeywords name type).any (fun kw => isSub kw l)))
        rw [htake] at this
        omega

theorem matchReq_ne_nil_of_best (ps : List Str) (name type : Str)
    (h : 2 < (bestBlockFold name type (0, []) (parse_requirements_file ps).blocks).1) :
    matchReqToSection (parse_requirements_file ps).full_text name type ≠ [] := by
  by_cases hps : ps = []
  · exfalso
    rw [hps] at h
    have he : bestBlockFold name type (0, []) (parse_requirements_file []).blocks
        = (0, []) := rfl
    rw [he] at h
    exact absurd h (by decide)
  · have hrr : parse_requirements_file ps =
        ⟨true, pyJoin '\n' ps, splitIntoRequirementBlocks ps⟩ := by
      unfold parse_requirements_file
      rw [if_neg hps]
    rw [hrr] at h ⊢
    show matchReqToSection (pyJoin '\n' ps) name type ≠ []
    have hblocks : (ReqParseResult.mk true (pyJoin '\n' ps)
        (splitIntoRequirementBlocks ps)).blocks = splitIntoRequirementBlocks ps := rfl
    rw [hblocks] at h
    rcases bestBlockFold_origin name type (splitIntoRequirementBlocks ps) (0, [])
      with he | ⟨blk, hblk, he⟩
    · rw [he] at h
      exact absurd h (by decide)
    · rw [he] at h
      obtain ⟨kw, hksrc, hsub, hkw⟩ := scoreBlockMatch_pos blk name type (by omega)
      have hws : ∀ c ∈ kw, pySpace c = false := by
        rcases hksrc with h1 | h1
        · exact (nameKeywords_spec name kw h1).2
        · exact (typeKeywords_spec type kw h1).2
      have hspmem : (' ' : Char) ∉ kw := by
        intro hm
        have h2 := hws ' ' hm
        simp [pySpace] at h2
      have hnlmem : ('\n' : Char) ∉ kw := by
        intro hm
        have h2 := hws '\n' hm
        simp [pySpace] at h2
      have hsplit : isSub kw blk.title = true ∨
          ∃ l ∈ blk.content_lines, isSub kw l = true := by
        unfold blockText at hsub
        rcases isSub_split ' ' blk.title kw (pyJoin '\n' blk.content_lines)
            hkw hspmem hsub with h2 | h2
        · exact Or.inl h2
        · exact Or.inr (isSub_join_split '\n' kw hkw hnlmem blk.content_lines h2)
      have hp : ∃ p ∈ ps, isSub kw p = true := by
        obtain ⟨hT, hL⟩ := splitBlocks_origin ps [] [] blk hblk
        rcases hsplit with h2 | ⟨l, hl, h2⟩
        · rcases hT with ht0 | ⟨p, hpm, he2⟩
          · rw [ht0] at h2
            exact absurd rfl (isSub_nil_ne kw [] hkw h2)
          · refine ⟨p, hpm, ?_⟩
            rw [he2] at h2
            exact isSub_trans kw (pyStrip p) p h2 (pyStrip_isSub p)
        · rcases hL l hl with h3 | ⟨p, hpm, he2⟩
          · cases h3
          · refine ⟨p, hpm, ?_⟩
            rw [he2] at h2
            exact isSub_trans kw (pyStrip p) p h2 (pyStrip_isSub p)
      obtain ⟨p, hpmem, hpsub⟩ := hp
      have hfull : isSub kw (pyJoin '\n' ps) = true :=
        isSub_join_of_mem '\n' kw ps p hpmem hpsub
      have hfne : pyJoin '\n' ps ≠ [] := isSub_nil_ne kw _ hkw hfull
      have hline : ∃ l ∈ pySplit '\n' (pyJoin '\n' ps), isSub kw l = true := by
        apply isSub_join_split '\n' kw hkw hnlmem
        rw [pySplit_join]
        exact hfull
      obtain ⟨l, hlmem, hlsub⟩ := hline
      have hkmem : kw ∈ secKeywords name type := by
        unfold secKeywords
        rcases hksrc with h1 | h1
        · exact List.mem_append.mpr (Or.inl h1)
        · exact List.mem_append.mpr (Or.inr h1)
      have hkne : secKeywords name type ≠ [] := by
        intro h0
        rw [h0] at hkmem
        cases hkmem
      simp only [matchReqToSection]
      rw [if_neg hfne, if_neg hkne]
      have hstrip_sub : isSub kw (pyStrip l) = true := isSub_strip kw l hkw hws hlsub
      have hlsne : pyStrip l ≠ [] := isSub_nil_ne kw (pyStrip l) hkw hstrip_sub
      have hmemM : pyStrip l ∈ ((pySplit '\n' (pyJoin '\n' ps)).map pyStrip).filter
          (fun x => x ≠ [] ∧ (secKeywords name type).any (fun kw => isSub kw x)) := by
        apply List.mem_filter.mpr
        refine ⟨List.mem_map_of_mem pyStrip hlmem, ?_⟩
        rw [decide_eq_true_eq]
        exact ⟨hlsne, List.any_eq_true.mpr ⟨kw, hkmem, hstrip_sub⟩⟩
      cases hM : ((pySplit '\n' (pyJoin '\n' ps)).map pyStrip).filter
          (fun x => x ≠ [] ∧ (secKeywords name type).any (fun kw => isSub kw x)) with
      | nil =>
        rw [hM] at hmemM
        cases hmemM
      | cons a t =>
        apply pyJoin_ne_nil '\n' ((a :: t).take 10) (by simp)
        intro x hx
        have hx2 := List.take_subset 10 (a :: t) hx
        rw [← hM] at hx2
        have := (List.mem_filter.mp hx2).2
        rw [decide_eq_true_eq] at this
        exact this.1

theorem combineLines_mem :
    ∀ (bl base : List Str) (x : Str), x ∈ combineLines base bl → x ∈ base ∨ x ∈ bl := by
  intro bl
  induction bl with
  | nil => intro base x hx; exact Or.inl hx
  | cons line rest ih =>
    intro base x hx
    have hstep : combineLines base (line :: rest) =
        combineLines (if pyStrip line ≠ [] ∧ pyStrip line ∉ base.map pyStrip
          then base ++ [line] else base) rest := rfl
    rw [hstep] at hx
    rcases ih _ x hx with h | h
    · split at h
      · rcases List.mem_append.mp h with h2 | h2
        · exact Or.inl h2
        · exact Or.inr (List.mem_cons.mpr (Or.inl (List.mem_singleton.mp h2)))
      · exact Or.inl h
    · exact Or.inr (List.mem_cons_of_mem line h)

theorem combineLines_extends :
    ∀ (bl base : List Str), ∃ extra, combineLines base bl = base ++ extra ∧
      ∀ l ∈ extra, pyStrip l ∉ base.map pyStrip := by
  intro bl
  induction bl with
  | nil => intro base; exact ⟨[], by simp [combineLines], by simp⟩
  | cons line rest ih =>
    intro base
    have hstep : combineLines base (line :: rest) =
        combineLines (if pyStrip line ≠ [] ∧ pyStrip line ∉ base.map pyStrip
          then base ++ [line] else base) rest := rfl
    by_cases hc : pyStrip line ≠ [] ∧ pyStrip line ∉ base.map pyStrip
    · obtain ⟨extra, he, hprop⟩ := ih (base ++ [line])
      refine ⟨line :: extra, ?_, ?_⟩
      · rw [hstep, if_pos hc, he]
        simp
      · intro l hl
        rcases List.mem_cons.mp hl with rfl | hl2
        · exact hc.2
        · have h2 := hprop l hl2
          intro hmem
          exact h2 (by rw [List.map_append]; exact List.mem_append.mpr (Or.inl hmem))
    · obtain ⟨extra, he, hprop⟩ := ih base
      refine ⟨extra, ?_, hprop⟩
      rw [hstep, if_neg hc]
      exact he

theorem perSection_lines_le (ps : List Str) (name type : Str) :
    (pySplit '\n' (perSectionReqText (parse_requirements_file ps) name type)).length ≤ 20 := by
  simp only [perSectionReqText]
  by_cases hb : (bestBlockFold name type (0, []) (parse_requirements_file ps).blocks).2 ≠ []
      ∧ (bestBlockFold name type (0, []) (parse_requirements_file ps).blocks).1 > 2
  · rw [if_pos hb]
    have hreq : matchReqToSection (parse_requirements_file ps).full_text name type ≠ [] :=
      matchReq_ne_nil_of_best ps name type hb.2
    rw [if_pos hreq]
    cases htake : (combineLines
        (pySplit '\n' (matchReqToSection (parse_requirements_file ps).full_text name type))
        (pySplit '\n'
          (bestBlockFold name type (0, []) (parse_requirements_file ps).blocks).2)).take 20 with
    | nil =>
      simp [pyJoin, pySplit]
    | cons a t =>
      have hnonl : ∀ x ∈ a :: t, ('\n' : Char) ∉ x := by
        intro x hx
        rw [← htake] at hx
        have hx2 := List.take_subset 20 _ hx
        rcases combineLines_mem _ _ x hx2 with h2 | h2
        · exact pySplit_no_sep '\n' _ x h2
        · exact pySplit_no_sep '\n' _ x h2
      rw [pyJoin_roundtrip '\n' (a :: t) (by simp) hnonl]
      have := List.length_take 20 (combineLines
        (pySplit '\n' (matchReqToSection (parse_requirements_file ps).full_text name type))
        (pySplit '\n'
          (bestBlockFold name type (0, []) (parse_requirements_file ps).blocks).2))
      rw [htake] at this
      omega
  · rw [if_neg hb]
    exact Nat.le_trans (matchReq_lines_le (parse_requirements_file ps).full_text name type)
      (by omega)

/-- **C5.** For every section processed by
`match_requirements_to_sections` on a `parse_requirements_file` result:
the line-scan text produced by `_match_requirements_to_section` has at
most 10 lines; the final matched text for the section has at most 20
lines; the best-scoring requirement block is appended to the line-scan
result only when its score exceeds 2 (otherwise the per-section text is
exactly the line-scan text); and when block lines are appended, lines
whose stripped form is already present (stripped) among the accumulated
lines are suppressed. -/
theorem claim_C5_requirements_matching (paragraphs : List Str)
    (sectionName sectionType : Str) :
    (pySplit '\n' (matchReqToSection (parse_requirements_file paragraphs).full_text
        sectionName sectionType)).length ≤ 10 ∧
    (pySplit '\n' (perSectionReqText (parse_requirements_file paragraphs)
        sectionName sectionType)).length ≤ 20 ∧
    (¬ ((bestBlockFold sectionName sectionType (0, [])
            (parse_requirements_file paragraphs).blocks).2 ≠ [] ∧
          (bestBlockFold sectionName sectionType (0, [])
            (parse_requirements_file paragraphs).blocks).1 > 2) →
      perSectionReqText (parse_requirements_file paragraphs) sectionName sectionType
        = matchReqToSection (parse_requirements_file paragraphs).full_text
            sectionName sectionType) ∧
    (∀ base blockLines : List Str, ∃ extra,
      combineLines base blockLines = base ++ extra ∧
      ∀ l ∈ extra, pyStrip l ∉ base.map pyStrip) := by
  refine ⟨matchReq_lines_le _ _ _, perSection_lines_le paragraphs _ _, ?_, ?_⟩
  · intro hneg
    simp only [perSectionReqText]
    rw [if_neg hneg]
  · intro base blockLines
    exact combineLines_extends blockLines base

/-- Witness for C5: on a one-paragraph requirements file whose best
block does not reach the score threshold, the per-section text equals
the plain line-scan text. -/
theorem claim_C5_witness :
    (¬ ((bestBlockFold (cs (r"营业执照")) [] (0, [])
          (parse_requirements_file [cs (r"abc")]).blocks).2 ≠ [] ∧
        (bestBlockFold (cs (r"营业执照")) [] (0, [])
          (parse_requirements_file [cs (r"abc")]).blocks).1 > 2)) ∧
    perSectionReqText (parse_requirements_file [cs (r"abc")]) (cs (r"营业执照")) []
      = matchReqToSection (parse_requirements_file [cs (r"abc")]).full_text
          (cs (r"营业执照")) [] :=
  ⟨by decide, (claim_C5_requirements_matching [cs (r"abc")] (cs (r"营业执照")) []).2.2.1
    (by decide)⟩

/-!
### C6: auto-match idempotence
-/

theorem bindAtt_fields (sec : BidSec) (m : SectionMatch) :
    (bindAttachment sec m).1.section_type = sec.section_type ∧
    (bindAttachment sec m).1.requirement_text = sec.requirement_text := by
  cases hm : m.attachment with
  | none => simp [bindAttachment, hm]
  | some am =>
    simp only [bindAttachment, hm]
    by_cases h : sec.attachment_id = none
    · rw [if_pos h]
      exact ⟨rfl, rfl⟩
    · rw [if_neg h]
      exact ⟨rfl, rfl⟩

theorem bindAtt_set (sec : BidSec) (m : SectionMatch) (h : sec.attachment_id ≠ none) :
    bindAttachment sec m = (sec, 0) := by
  cases hm : m.attachment with
  | none => simp [bindAttachment, hm]
  | some am =>
    simp only [bindAttachment, hm]
    rw [if_neg h]

theorem bindAtt_none (sec : BidSec) (m : SectionMatch) (h : m.attachment = none) :
    bindAttachment sec m = (sec, 0) := by
  simp [bindAttachment, h]

theorem bindAtt_keep (sec : BidSec) (m : SectionMatch)
    (h : (bindAttachment sec m).1.attachment_id = none) :
    bindAttachment sec m = (sec, 0) ∧ m.attachment = none := by
  cases hm : m.attachment with
  | none => exact ⟨bindAtt_none sec m hm, rfl⟩
  | some am =>
    exfalso
    simp only [bindAttachment, hm] at h
    by_cases hid : sec.attachment_id = none
    · rw [if_pos hid] at h
      simp at h
    · rw [if_neg hid] at h
      exact hid h

theorem bindAtt_count (sec : BidSec) (m : SectionMatch) :
    (bindAttachment sec m).2 =
      if sec.attachment_id = none ∧ (bindAttachment sec m).1.attachment_id ≠ none
      then 1 else 0 := by
  cases hm : m.attachment with
  | none =>
    rw [bindAtt_none sec m hm]
    by_cases hid : sec.attachment_id = none
    · rw [if_neg]
      simp [hid]
    · rw [if_neg]
      simp [hid]
  | some am =>
    simp only [bindAttachment, hm]
    by_cases hid : sec.attachment_id = none
    · rw [if_pos hid, if_pos]
      exact ⟨hid, by simp⟩
    · rw [if_neg hid, if_neg]
      simp [hid]

theorem roleFold_shape :
    ∀ (cands : List PersonMatch) (role : Str)
      (st : List (Nat × Str) × List Nat),
      ∃ new, (roleFold cands role st).1 = st.1 ++ new ∧
        new.length ≤ cands.length ∧
        (∀ l ∈ new, l.2 = role ∧ l.1 ∈ cands.map PersonMatch.id ∧ l.1 ∉ st.2) ∧
        (∀ i ∈ st.2, i ∈ (roleFold cands role st).2) ∧
        (∀ i ∈ (roleFold cands role st).2, i ∈ st.2 ∨ i ∈ new.map Prod.fst) := by
  intro cands
  induction cands with
  | nil =>
    intro role st
    exact ⟨[], by simp [roleFold], by simp, by simp, fun i h => h, fun i h => Or.inl h⟩
  | cons pm rest ih =>
    intro role st
    have hstep : roleFold (pm :: rest) role st =
        roleFold rest role (if pm.id ∈ st.2 then st
          else (st.1 ++ [(pm.id, role)], pm.id :: st.2)) := rfl
    by_cases hmem : pm.id ∈ st.2
    · rw [hstep, if_pos hmem]
      obtain ⟨new, he, hlen, hp, hmono, hsub⟩ := ih role st
      refine ⟨new, he, ?_, ?_, hmono, hsub⟩
      · simp only [List.length_cons]
        omega
      · intro l hl
        obtain ⟨h1, h2, h3⟩ := hp l hl
        exact ⟨h1, by simp only [List.map_cons]; exact List.mem_cons_of_mem _ h2, h3⟩
    · rw [hstep, if_neg hmem]
      obtain ⟨new, he, hlen, hp, hmono, hsub⟩ :=
        ih role (st.1 ++ [(pm.id, role)], pm.id :: st.2)
      refine ⟨(pm.id, role) :: new, ?_, ?_, ?_, ?_, ?_⟩
      · rw [he]
        simp
      · simp only [List.length_cons]
        omega
      · intro l hl
        rcases List.mem_cons.mp hl with rfl | hl2
        · exact ⟨rfl, by simp, hmem⟩
        · obtain ⟨h1, h2, h3⟩ := hp l hl2
          refine ⟨h1, by simp only [List.map_cons]; exact List.mem_cons_of_mem _ h2, ?_⟩
          intro hm
          exact h3 (List.mem_cons_of_mem _ hm)
      · intro i hi
        exact hmono i (List.mem_cons_of_mem _ hi)
      · intro i hi
        rcases hsub i hi with hi2 | hi2
        · rcases List.mem_cons.mp hi2 with rfl | hi3
          · exact Or.inr (by simp)
          · exact Or.inl hi3
        · exact Or.inr (by simp only [List.map_cons]; exact List.mem_cons_of_mem _ hi2)

theorem roleFold_mem :
    ∀ (cands : List PersonMatch) (role : Str)
      (st : List (Nat × Str) × List Nat) (pm : PersonMatch),
      pm ∈ cands → pm.id ∈ (roleFold cands role st).2 := by
  intro cands
  induction cands with
  | nil => intro role st pm h; cases h
  | cons q rest ih =>
    intro role st pm h
    have hstep : roleFold (q :: rest) role st =
        roleFold rest role (if q.id ∈ st.2 then st
          else (st.1 ++ [(q.id, role)], q.id :: st.2)) := rfl
    rw [hstep]
    rcases List.mem_cons.mp h with rfl | h2
    · by_cases hmem : pm.id ∈ st.2
      · rw [if_pos hmem]
        obtain ⟨_, _, _, _, hmono, _⟩ := roleFold_shape rest role st
        exact hmono pm.id hmem
      · rw [if_neg hmem]
        obtain ⟨_, _, _, _, hmono, _⟩ :=
          roleFold_shape rest role (st.1 ++ [(pm.id, role)], pm.id :: st.2)
        exact hmono pm.id (by simp)
    · split
      · exact ih role st pm h2
      · exact ih role _ pm h2

theorem roleFold_noop :
    ∀ (cands : List PersonMatch) (role : Str)
      (st : List (Nat × Str) × List Nat),
      (∀ pm ∈ cands, pm.id ∈ st.2) → roleFold cands role st = st := by
  intro cands
  induction cands with
  | nil => intro role st _; rfl
  | cons q rest ih =>
    intro role st hall
    have hstep : roleFold (q :: rest) role st =
        roleFold rest role (if q.id ∈ st.2 then st
          else (st.1 ++ [(q.id, role)], q.id :: st.2)) := rfl
    rw [hstep, if_pos (hall q (List.mem_cons_self q rest))]
    exact ih role st (fun pm hm => hall pm (List.mem_cons_of_mem q hm))

theorem perfFold_shape :
    ∀ (cands : List PerfMatch) (st : List Nat × List Nat),
      ∃ new, (perfFold cands st).1 = st.1 ++ new ∧
        new.length ≤ cands.length ∧
        (∀ i ∈ new, i ∈ cands.map PerfMatch.id ∧ i ∉ st.2) ∧
        (∀ i ∈ st.2, i ∈ (perfFold cands st).2) ∧
        (∀ i ∈ (perfFold cands st).2, i ∈ st.2 ∨ i ∈ new) := by
  intro cands
  induction cands with
  | nil =>
    intro st
    exact ⟨[], by simp [perfFold], by simp, by simp, fun i h => h, fun i h => Or.inl h⟩
  | cons pm rest ih =>
    intro st
    have hstep : perfFold (pm :: rest) st =
        perfFold rest (if pm.id ∈ st.2 then st
          else (st.1 ++ [pm.id], pm.id :: st.2)) := rfl
    by_cases hmem : pm.id ∈ st.2
    · rw [hstep, if_pos hmem]
      obtain ⟨new, he, hlen, hp, hmono, hsub⟩ := ih st
      refine ⟨new, he, ?_, ?_, hmono, hsub⟩
      · simp only [List.length_cons]
        omega
      · intro i hi
        obtain ⟨h1, h2⟩ := hp i hi
        exact ⟨by simp only [List.map_cons]; exact List.mem_cons_of_mem _ h1, h2⟩
    · rw [hstep, if_neg hmem]
      obtain ⟨new, he, hlen, hp, hmono, hsub⟩ := ih (st.1 ++ [pm.id], pm.id :: st.2)
      refine ⟨pm.id :: new, ?_, ?_, ?_, ?_, ?_⟩
      · rw [he]
        simp
      · simp only [List.length_cons]
        omega
      · intro i hi
        rcases List.mem_cons.mp hi with rfl | hi2
        · exact ⟨by simp, hmem⟩
        · obtain ⟨h1, h2⟩ := hp i hi2
          refine ⟨by simp only [List.map_cons]; exact List.mem_cons_of_mem _ h1, ?_⟩
          intro hm
          exact h2 (List.mem_cons_of_mem _ hm)
      · intro i hi
        exact hmono i (List.mem_cons_of_mem _ hi)
      · intro i hi
        rcases hsub i hi with hi2 | hi2
        · rcases List.mem_cons.mp hi2 with rfl | hi3
          · exact Or.inr (by simp)
          · exact Or.inl hi3
        · exact Or.inr (List.mem_cons_of_mem _ hi2)

theorem perfFold_mem :
    ∀ (cands : List PerfMatch) (st : List Nat × List Nat) (pm : PerfMatch),
      pm ∈ cands → pm.id ∈ (perfFold cands st).2 := by
  intro cands
  induction cands with
  | nil => intro st pm h; cases h
  | cons q rest ih =>
    intro st pm h
    have hstep : perfFold (q :: rest) st =
        perfFold rest (if q.id ∈ st.2 then st
          else (st.1 ++ [q.id], q.id :: st.2)) := rfl
    rw [hstep]
    rcases List.mem_cons.mp h with rfl | h2
    · by_cases hmem : pm.id ∈ st.2
      · rw [if_pos hmem]
        obtain ⟨_, _, _, _, hmono, _⟩ := perfFold_shape rest st
        exact hmono pm.id hmem
      · rw [if_neg hmem]
        obtain ⟨_, _, _, _, hmono, _⟩ :=
          perfFold_shape rest (st.1 ++ [pm.id], pm.id :: st.2)
        exact hmono pm.id (by simp)
    · split
      · exact ih st pm h2
      · exact ih _ pm h2

theorem perfFold_noop :
    ∀ (cands : List PerfMatch) (st : List Nat × List Nat),
      (∀ pm ∈ cands, pm.id ∈ st.2) → perfFold cands st = st := by
  intro cands
  induction cands with
  | nil => intro st _; rfl
  | cons q rest ih =>
    intro st hall
    have hstep : perfFold (q :: rest) st =
        perfFold rest (if q.id ∈ st.2 then st
          else (st.1 ++ [q.id], q.id :: st.2)) := rfl
    rw [hstep, if_pos (hall q (List.mem_cons_self q rest))]
    exact ih st (fun pm hm => hall pm (List.mem_cons_of_mem q hm))

theorem secMatch_congr (env : MatchEnv) (a b : BidSec)
    (h1 : a.section_type = b.section_type)
    (h2 : a.requirement_text = b.requirement_text) :
    secMatch env a = secMatch env b := by
  unfold secMatch
  rw [h1, h2]

theorem secMatch_personnel (env : MatchEnv) (sec : BidSec) :
    (secMatch env sec).personnel =
      if sec.section_type = cs (r"人员资料")
      then some (match_personnel env.perLib env.projectTags) else none := by
  simp only [secMatch, auto_match_section]

theorem secMatch_performances (env : MatchEnv) (sec : BidSec) :
    (secMatch env sec).performances =
      if sec.section_type = cs (r"业绩证明")
      then some (match_performance env.today env.perfLib env.projectTags 3)
      else none := by
  simp only [secMatch, auto_match_section]

theorem addPersonnel_shape (env : MatchEnv) (sec : BidSec)
    (pls : List (Nat × Str)) (pls0 : List Nat) :
    ∃ np, addPersonnel pls pls0 (secMatch env sec) = pls ++ np ∧
      (∀ l ∈ np, l.1 ∉ pls0 ∧
        ((l.2 = cs (r"项目负责人") ∧ l.1 ∈ (plTop env).map PersonMatch.id) ∨
         (l.2 = cs (r"技术负责人") ∧ l.1 ∈ (tlTop env).map PersonMatch.id))) ∧
      (np.filter (fun l => l.2 = cs (r"项目负责人"))).length ≤
        (if sec.section_type = cs (r"人员资料") then 1 else 0) ∧
      (np.filter (fun l => l.2 = cs (r"技术负责人"))).length ≤
        (if sec.section_type = cs (r"人员资料") then 1 else 0) := by
  cases hm : (secMatch env sec).personnel with
  | none =>
    have hstep : addPersonnel pls pls0 (secMatch env sec) = pls := by
      unfold addPersonnel
      rw [hm]
    rw [hstep]
    exact ⟨[], by simp, by simp, by simp, by simp⟩
  | some rp =>
    have ht : sec.section_type = cs (r"人员资料") := by
      by_contra ht
      rw [secMatch_personnel, if_neg ht] at hm
      cases hm
    have hr : rp = match_personnel env.perLib env.projectTags := by
      rw [secMatch_personnel, if_pos ht] at hm
      exact (Option.some.inj hm).symm
    subst hr
    have hstep : addPersonnel pls pls0 (secMatch env sec) =
        (roleFold ((match_personnel env.perLib env.projectTags).2.1.take 1)
          (cs (r"技术负责人"))
          (roleFold ((match_personnel env.perLib env.projectTags).1.take 1)
            (cs (r"项目负责人")) (pls, pls0))).1 := by
      unfold addPersonnel
      rw [hm]
    obtain ⟨n1, he1, hlen1, hp1, hmono1, _⟩ :=
      roleFold_shape ((match_personnel env.perLib env.projectTags).1.take 1)
        (cs (r"项目负责人")) (pls, pls0)
    obtain ⟨n2, he2, hlen2, hp2, _, _⟩ :=
      roleFold_shape ((match_personnel env.perLib env.projectTags).2.1.take 1)
        (cs (r"技术负责人"))
        (roleFold ((match_personnel env.perLib env.projectTags).1.take 1)
          (cs (r"项目负责人")) (pls, pls0))
    have hplen : ((match_personnel env.perLib env.projectTags).1.take 1).length ≤ 1 := by
      rw [List.length_take]
      omega
    have htlen : ((match_personnel env.perLib env.projectTags).2.1.take 1).length ≤ 1 := by
      rw [List.length_take]
      omega
    refine ⟨n1 ++ n2, ?_, ?_, ?_, ?_⟩
    · rw [hstep, he2, he1]
      simp
    · intro l hl
      rcases List.mem_append.mp hl with hl1 | hl2
      · obtain ⟨h1, h2, h3⟩ := hp1 l hl1
        exact ⟨h3, Or.inl ⟨h1, h2⟩⟩
      · obtain ⟨h1, h2, h3⟩ := hp2 l hl2
        refine ⟨?_, Or.inr ⟨h1, h2⟩⟩
        intro hmem
        exact h3 (hmono1 l.1 hmem)
    · rw [if_pos ht, List.filter_append, List.length_append]
      have hf2 : n2.filter (fun l => l.2 = cs (r"项目负责人")) = [] := by
        rw [List.filter_eq_nil_iff]
        intro l hl
        rw [(hp2 l hl).1]
        decide
      rw [hf2]
      have hle1 : (n1.filter (fun l => l.2 = cs (r"项目负责人"))).length ≤ n1.length :=
        List.length_filter_le _ n1
      simp only [List.length_nil]
      omega
    · rw [if_pos ht, List.filter_append, List.length_append]
      have hf1 : n1.filter (fun l => l.2 = cs (r"技术负责人")) = [] := by
        rw [List.filter_eq_nil_iff]
        intro l hl
        rw [(hp1 l hl).1]
        decide
      rw [hf1]
      have hle2 : (n2.filter (fun l => l.2 = cs (r"技术负责人"))).length ≤ n2.length :=
        List.length_filter_le _ n2
      simp only [List.length_nil]
      omega

theorem addPerf_shape (env : MatchEnv) (sec : BidSec) (fls fls0 : List Nat) :
    ∃ nf, addPerf fls fls0 (secMatch env sec) = fls ++ nf ∧
      (∀ i ∈ nf, i ∉ fls0 ∧ i ∈ (pfTop env).map PerfMatch.id) ∧
      nf.length ≤ (if sec.section_type = cs (r"业绩证明") then 3 else 0) := by
  cases hm : (secMatch env sec).performances with
  | none =>
    have hstep : addPerf fls fls0 (secMatch env sec) = fls := by
      unfold addPerf
      rw [hm]
    rw [hstep]
    exact ⟨[], by simp, by simp, by simp⟩
  | some rp =>
    have ht : sec.section_type = cs (r"业绩证明") := by
      by_contra ht
      rw [secMatch_performances, if_neg ht] at hm
      cases hm
    have hr : rp = match_performance env.today env.perfLib env.projectTags 3 := by
      rw [secMatch_performances, if_pos ht] at hm
      exact (Option.some.inj hm).symm
    subst hr
    have hstep : addPerf fls fls0 (secMatch env sec) =
        (perfFold ((match_performance env.today env.perfLib
          env.projectTags 3).take 3) (fls, fls0)).1 := by
      unfold addPerf
      rw [hm]
    obtain ⟨nf, he, hlen, hp, _, _⟩ :=
      perfFold_shape ((match_performance env.today env.perfLib
        env.projectTags 3).take 3) (fls, fls0)
    have hclen : ((match_performance env.today env.perfLib
        env.projectTags 3).take 3).length ≤ 3 := by
      rw [List.length_take]
      omega
    refine ⟨nf, ?_, ?_, ?_⟩
    · rw [hstep, he]
    · exact fun i hi => ⟨(hp i hi).2, (hp i hi).1⟩
    · rw [if_pos ht]
      omega

theorem addPersonnel_mem (env : MatchEnv) (sec : BidSec)
    (pls : List (Nat × Str)) (pls0 : List Nat)
    (ht : sec.section_type = cs (r"人员资料")) :
    ∀ pm : PersonMatch, pm ∈ plTop env ∨ pm ∈ tlTop env →
      pm.id ∈ pls0 ∨
      pm.id ∈ (addPersonnel pls pls0 (secMatch env sec)).map Prod.fst := by
  have hm : (secMatch env sec).personnel
      = some (match_personnel env.perLib env.projectTags) := by
    rw [secMatch_personnel, if_pos ht]
  have hstep : addPersonnel pls pls0 (secMatch env sec) =
      (roleFold ((match_personnel env.perLib env.projectTags).2.1.take 1)
        (cs (r"技术负责人"))
        (roleFold ((match_personnel env.perLib env.projectTags).1.take 1)
          (cs (r"项目负责人")) (pls, pls0))).1 := by
    unfold addPersonnel
    rw [hm]
  intro pm hpm
  have hidset : pm.id ∈ (roleFold
      ((match_personnel env.perLib env.projectTags).2.1.take 1)
      (cs (r"技术负责人"))
      (roleFold ((match_personnel env.perLib env.projectTags).1.take 1)
        (cs (r"项目负责人")) (pls, pls0))).2 := by
    rcases hpm with hpm | hpm
    · obtain ⟨_, _, _, _, hmono2, _⟩ :=
        roleFold_shape ((match_personnel env.perLib env.projectTags).2.1.take 1)
          (cs (r"技术负责人"))
          (roleFold ((match_personnel env.perLib env.projectTags).1.take 1)
            (cs (r"项目负责人")) (pls, pls0))
      exact hmono2 pm.id (roleFold_mem _ _ _ pm hpm)
    · exact roleFold_mem _ _ _ pm hpm
  obtain ⟨n1, he1, _, _, _, hsub1⟩ :=
    roleFold_shape ((match_personnel env.perLib env.projectTags).1.take 1)
      (cs (r"项目负责人")) (pls, pls0)
  obtain ⟨n2, he2, _, _, _, hsub2⟩ :=
    roleFold_shape ((match_personnel env.perLib env.projectTags).2.1.take 1)
      (cs (r"技术负责人"))
      (roleFold ((match_personnel env.perLib env.projectTags).1.take 1)
        (cs (r"项目负责人")) (pls, pls0))
  rcases hsub2 pm.id hidset with h2 | h2
  · rcases hsub1 pm.id h2 with h3 | h3
    · exact Or.inl h3
    · right
      rw [hstep, he2, he1, List.map_append, List.map_append]
      exact List.mem_append.mpr (Or.inl (List.mem_append.mpr (Or.inr h3)))
  · right
    rw [hstep, he2, List.map_append]
    exact List.mem_append.mpr (Or.inr h2)

theorem addPerf_mem (env : MatchEnv) (sec : BidSec) (fls fls0 : List Nat)
    (ht : sec.section_type = cs (r"业绩证明")) :
    ∀ pm ∈ pfTop env,
      pm.id ∈ fls0 ∨ pm.id ∈ addPerf fls fls0 (secMatch env sec) := by
  have hm : (secMatch env sec).performances
      = some (match_performance env.today env.perfLib env.projectTags 3) := by
    rw [secMatch_performances, if_pos ht]
  have hstep : addPerf fls fls0 (secMatch env sec) =
      (perfFold ((match_performance env.today env.perfLib
        env.projectTags 3).take 3) (fls, fls0)).1 := by
    unfold addPerf
    rw [hm]
  intro pm hpm
  have hidset : pm.id ∈ (perfFold
      ((match_performance env.today env.perfLib env.projectTags 3).take 3)
      (fls, fls0)).2 := perfFold_mem _ _ pm hpm
  obtain ⟨nf, he, _, _, _, hsub⟩ :=
    perfFold_shape ((match_performance env.today env.perfLib
      env.projectTags 3).take 3) (fls, fls0)
  rcases hsub pm.id hidset with h2 | h2
  · exact Or.inl h2
  · right
    rw [hstep, he]
    exact List.mem_append.mpr (Or.inr h2)

theorem addPersonnel_noop (env : MatchEnv) (sec : BidSec)
    (pls : List (Nat × Str)) (pls0 : List Nat)
    (h : sec.section_type = cs (r"人员资料") →
      ∀ pm : PersonMatch, pm ∈ plTop env ∨ pm ∈ tlTop env → pm.id ∈ pls0) :
    addPersonnel pls pls0 (secMatch env sec) = pls := by
  cases hm : (secMatch env sec).personnel with
  | none =>
    unfold addPersonnel
    rw [hm]
  | some rp =>
    have ht : sec.section_type = cs (r"人员资料") := by
      by_contra ht
      rw [secMatch_personnel, if_neg ht] at hm
      cases hm
    have hr : rp = match_personnel env.perLib env.projectTags := by
      rw [secMatch_personnel, if_pos ht] at hm
      exact (Option.some.inj hm).symm
    subst hr
    have hstep : addPersonnel pls pls0 (secMatch env sec) =
        (roleFold ((match_personnel env.perLib env.projectTags).2.1.take 1)
          (cs (r"技术负责人"))
          (roleFold ((match_personnel env.perLib env.projectTags).1.take 1)
            (cs (r"项目负责人")) (pls, pls0))).1 := by
      unfold addPersonnel
      rw [hm]
    have h1 : roleFold ((match_personnel env.perLib env.projectTags).1.take 1)
        (cs (r"项目负责人")) (pls, pls0) = (pls, pls0) :=
      roleFold_noop _ _ (pls, pls0) (fun pm hpm => h ht pm (Or.inl hpm))
    have h2 : roleFold ((match_personnel env.perLib env.projectTags).2.1.take 1)
        (cs (r"技术负责人")) (pls, pls0) = (pls, pls0) :=
      roleFold_noop _ _ (pls, pls0) (fun pm hpm => h ht pm (Or.inr hpm))
    rw [hstep, h1, h2]

theorem addPerf_noop (env : MatchEnv) (sec : BidSec) (fls fls0 : List Nat)
    (h : sec.section_type = cs (r"业绩证明") →
      ∀ pm ∈ pfTop env, pm.id ∈ fls0) :
    addPerf fls fls0 (secMatch env sec) = fls := by
  cases hm : (secMatch env sec).performances with
  | none =>
    unfold addPerf
    rw [hm]
  | some rp =>
    have ht : sec.section_type = cs (r"业绩证明") := by
      by_contra ht
      rw [secMatch_performances, if_neg ht] at hm
      cases hm
    have hr : rp = match_performance env.today env.perfLib env.projectTags 3 := by
      rw [secMatch_performances, if_pos ht] at hm
      exact (Option.some.inj hm).symm
    subst hr
    have hstep : addPerf fls fls0 (secMatch env sec) =
        (perfFold ((match_performance env.today env.perfLib
          env.projectTags 3).take 3) (fls, fls0)).1 := by
      unfold addPerf
      rw [hm]
    have h1 : perfFold ((match_performance env.today env.perfLib
        env.projectTags 3).take 3) (fls, fls0) = (fls, fls0) :=
      perfFold_noop _ (fls, fls0) (h ht)
    rw [hstep, h1]

theorem autoGo_cons (env : MatchEnv) (pls0 fls0 : List Nat) (sec : BidSec)
    (rest : List BidSec) (pls : List (Nat × Str)) (fls : List Nat) :
    autoMatchGo env pls0 fls0 (sec :: rest) pls fls =
      ⟨(bindAttachment sec (secMatch env sec)).1 ::
        (autoMatchGo env pls0 fls0 rest
          (addPersonnel pls pls0 (secMatch env sec))
          (addPerf fls fls0 (secMatch env sec))).sections,
       (autoMatchGo env pls0 fls0 rest
          (addPersonnel pls pls0 (secMatch env sec))
          (addPerf fls fls0 (secMatch env sec))).plinks,
       (autoMatchGo env pls0 fls0 rest
          (addPersonnel pls pls0 (secMatch env sec))
          (addPerf fls fls0 (secMatch env sec))).flinks,
       (bindAttachment sec (secMatch env sec)).2 +
        (autoMatchGo env pls0 fls0 rest
          (addPersonnel pls pls0 (secMatch env sec))
          (addPerf fls fls0 (secMatch env sec))).count⟩ := rfl

theorem autoGo_shape (env : MatchEnv) (pls0 fls0 : List Nat) :
    ∀ (secs : List BidSec) (pls : List (Nat × Str)) (fls : List Nat),
      (autoMatchGo env pls0 fls0 secs pls fls).sections.length = secs.length ∧
      (∀ ab ∈ secs.zip (autoMatchGo env pls0 fls0 secs pls fls).sections,
        ab.2.section_type = ab.1.section_type ∧
        ab.2.requirement_text = ab.1.requirement_text ∧
        (ab.1.attachment_id ≠ none → ab.2 = ab.1)) ∧
      (autoMatchGo env pls0 fls0 secs pls fls).count =
        ((secs.zip (autoMatchGo env pls0 fls0 secs pls fls).sections).filter
          (fun ab => ab.1.attachment_id = none ∧ ab.2.attachment_id ≠ none)).length ∧
      (∃ np, (autoMatchGo env pls0 fls0 secs pls fls).plinks = pls ++ np ∧
        (∀ l ∈ np, l.1 ∉ pls0 ∧
          ((l.2 = cs (r"项目负责人") ∧ l.1 ∈ (plTop env).map PersonMatch.id) ∨
           (l.2 = cs (r"技术负责人") ∧ l.1 ∈ (tlTop env).map PersonMatch.id))) ∧
        (np.filter (fun l => l.2 = cs (r"项目负责人"))).length ≤
          (secs.filter (fun s => s.section_type = cs (r"人员资料"))).length ∧
        (np.filter (fun l => l.2 = cs (r"技术负责人"))).length ≤
          (secs.filter (fun s => s.section_type = cs (r"人员资料"))).length) ∧
      (∃ nf, (autoMatchGo env pls0 fls0 secs pls fls).flinks = fls ++ nf ∧
        (∀ i ∈ nf, i ∉ fls0 ∧ i ∈ (pfTop env).map PerfMatch.id) ∧
        nf.length ≤ 3 * (secs.filter
          (fun s => s.section_type = cs (r"业绩证明"))).length) := by
  intro secs
  induction secs with
  | nil =>
    intro pls fls
    exact ⟨rfl, by simp, by simp [autoMatchGo],
      ⟨[], by simp [autoMatchGo], by simp, by simp, by simp⟩,
      ⟨[], by simp [autoMatchGo], by simp, by simp⟩⟩
  | cons sec rest ih =>
    intro pls fls
    obtain ⟨ihlen, ihzip, ihcnt, ⟨np2, henp2, hpnp2, hcp2, hct2⟩,
      ⟨nf2, henf2, hpnf2, hcf2⟩⟩ :=
      ih (addPersonnel pls pls0 (secMatch env sec))
        (addPerf fls fls0 (secMatch env sec))
    obtain ⟨np1, henp1, hpnp1, hcp1, hct1⟩ := addPersonnel_shape env sec pls pls0
    obtain ⟨nf1, henf1, hpnf1, hcf1⟩ := addPerf_shape env sec fls fls0
    rw [autoGo_cons]
    refine ⟨?_, ?_, ?_, ?_, ?_⟩
    · simpa using ihlen
    · intro ab hab
      rcases List.mem_cons.mp hab with rfl | hab2
      · refine ⟨(bindAtt_fields sec (secMatch env sec)).1,
          (bindAtt_fields sec (secMatch env sec)).2, ?_⟩
        intro hne
        rw [bindAtt_set sec (secMatch env sec) hne]
      · exact ihzip ab hab2
    · rw [List.zip_cons_cons, List.filter_cons]
      rw [bindAtt_count sec (secMatch env sec)]
      by_cases hc : sec.attachment_id = none ∧
          (bindAttachment sec (secMatch env sec)).1.attachment_id ≠ none
      · rw [if_pos hc, if_pos (by simpa using hc)]
        simp only [List.length_cons]
        omega
      · rw [if_neg hc, if_neg (by simpa using hc)]
        simpa using ihcnt
    · refine ⟨np1 ++ np2, ?_, ?_, ?_, ?_⟩
      · rw [henp2, henp1, List.append_assoc]
      · intro l hl
        rcases List.mem_append.mp hl with hl1 | hl2
        · exact hpnp1 l hl1
        · exact hpnp2 l hl2
      · rw [List.filter_append, List.length_append, List.filter_cons]
        by_cases ht : sec.section_type = cs (r"人员资料")
        · rw [if_pos (by simpa using ht)]
          rw [if_pos ht] at hcp1
          simp only [List.length_cons]
          omega
        · rw [if_neg (by simpa using ht)]
          rw [if_neg ht] at hcp1
          omega
      · rw [List.filter_append, List.length_append, List.filter_cons]
        by_cases ht : sec.section_type = cs (r"人员资料")
        · rw [if_pos (by simpa using ht)]
          rw [if_pos ht] at hct1
          simp only [List.length_cons]
          omega
        · rw [if_neg (by simpa using ht)]
          rw [if_neg ht] at hct1
          omega
    · refine ⟨nf1 ++ nf2, ?_, ?_, ?_⟩
      · rw [henf2, henf1, List.append_assoc]
      · intro i hi
        rcases List.mem_append.mp hi with hi1 | hi2
        · exact hpnf1 i hi1
        · exact hpnf2 i hi2
      · rw [List.length_append, List.filter_cons]
        by_cases ht : sec.section_type = cs (r"业绩证明")
        · rw [if_pos (by simpa using ht)]
          rw [if_pos ht] at hcf1
          simp only [List.length_cons]
          omega
        · rw [if_neg (by simpa using ht)]
          rw [if_neg ht] at hcf1
          omega

theorem autoGo_plinks_mono (env : MatchEnv) (pls0 fls0 : List Nat)
    (secs : List BidSec) (pls : List (Nat × Str)) (fls : List Nat) (i : Nat)
    (h : i ∈ pls.map Prod.fst) :
    i ∈ (autoMatchGo env pls0 fls0 secs pls fls).plinks.map Prod.fst := by
  obtain ⟨_, _, _, ⟨np, he, _, _, _⟩, _⟩ := autoGo_shape env pls0 fls0 secs pls fls
  rw [he, List.map_append]
  exact List.mem_append.mpr (Or.inl h)

theorem autoGo_flinks_mono (env : MatchEnv) (pls0 fls0 : List Nat)
    (secs : List BidSec) (pls : List (Nat × Str)) (fls : List Nat) (i : Nat)
    (h : i ∈ fls) :
    i ∈ (autoMatchGo env pls0 fls0 secs pls fls).flinks := by
  obtain ⟨_, _, _, _, ⟨nf, he, _, _⟩⟩ := autoGo_shape env pls0 fls0 secs pls fls
  rw [he]
  exact List.mem_append.mpr (Or.inl h)

theorem autoGo_sat (env : MatchEnv) (pls0 fls0 : List Nat) :
    ∀ (secs : List BidSec) (pls : List (Nat × Str)) (fls : List Nat),
      ∀ sec2 ∈ (autoMatchGo env pls0 fls0 secs pls fls).sections,
        (sec2.attachment_id = none → (secMatch env sec2).attachment = none) ∧
        (sec2.section_type = cs (r"人员资料") →
          ∀ pm : PersonMatch, pm ∈ plTop env ∨ pm ∈ tlTop env →
            pm.id ∈ pls0 ∨
            pm.id ∈ (autoMatchGo env pls0 fls0 secs pls fls).plinks.map Prod.fst) ∧
        (sec2.section_type = cs (r"业绩证明") →
          ∀ pm ∈ pfTop env, pm.id ∈ fls0 ∨
            pm.id ∈ (autoMatchGo env pls0 fls0 secs pls fls).flinks) := by
  intro secs
  induction secs with
  | nil => intro pls fls sec2 h2; cases h2
  | cons sec rest ih =>
    intro pls fls sec2 h2
    rw [autoGo_cons] at h2 ⊢
    rcases List.mem_cons.mp h2 with rfl | h3
    · refine ⟨?_, ?_, ?_⟩
      · intro hid
        obtain ⟨hb, hatt⟩ := bindAtt_keep sec (secMatch env sec) hid
        have hcongr : secMatch env (bindAttachment sec (secMatch env sec)).1
            = secMatch env sec :=
          secMatch_congr env _ sec (bindAtt_fields sec (secMatch env sec)).1
            (bindAtt_fields sec (secMatch env sec)).2
        rw [hcongr]
        exact hatt
      · intro ht pm hpm
        have ht2 : sec.section_type = cs (r"人员资料") := by
          rw [← (bindAtt_fields sec (secMatch env sec)).1]
          exact ht
        rcases addPersonnel_mem env sec pls pls0 ht2 pm hpm with h4 | h4
        · exact Or.inl h4
        · exact Or.inr (autoGo_plinks_mono env pls0 fls0 rest _ _ pm.id h4)
      · intro ht pm hpm
        have ht2 : sec.section_type = cs (r"业绩证明") := by
          rw [← (bindAtt_fields sec (secMatch env sec)).1]
          exact ht
        rcases addPerf_mem env sec fls fls0 ht2 pm hpm with h4 | h4
        · exact Or.inl h4
        · exact Or.inr (autoGo_flinks_mono env pls0 fls0 rest _ _ pm.id h4)
    · exact ih (addPersonnel pls pls0 (secMatch env sec))
        (addPerf fls fls0 (secMatch env sec)) sec2 h3

theorem autoGo_noop (env : MatchEnv) (pls0 fls0 : List Nat) :
    ∀ (secs : List BidSec) (pls : List (Nat × Str)) (fls : List Nat),
      (∀ sec ∈ secs,
        (sec.attachment_id = none → (secMatch env sec).attachment = none) ∧
        (sec.section_type = cs (r"人员资料") →
          ∀ pm : PersonMatch, pm ∈ plTop env ∨ pm ∈ tlTop env → pm.id ∈ pls0) ∧
        (sec.section_type = cs (r"业绩证明") →
          ∀ pm ∈ pfTop env, pm.id ∈ fls0)) →
      autoMatchGo env pls0 fls0 secs pls fls = ⟨secs, pls, fls, 0⟩ := by
  intro secs
  induction secs with
  | nil => intro pls fls _; rfl
  | cons sec rest ih =>
    intro pls fls hall
    obtain ⟨hatt, hper, hperf⟩ := hall sec (List.mem_cons_self sec rest)
    have hbind : bindAttachment sec (secMatch env sec) = (sec, 0) := by
      by_cases hid : sec.attachment_id = none
      · exact bindAtt_none sec (secMatch env sec) (hatt hid)
      · exact bindAtt_set sec (secMatch env sec) hid
    have hp := addPersonnel_noop env sec pls pls0 hper
    have hf := addPerf_noop env sec fls fls0 hperf
    rw [autoGo_cons, hbind, hp, hf,
      ih pls fls (fun s hs => hall s (List.mem_cons_of_mem sec hs))]
    rfl

/-- **C6 (amended).** `auto_match_all_sections` on an explicit project
state: it returns the matched and total section counts (total the
number of sections, matched the number of sections newly bound); a
section whose `attachment_id` is already set is left untouched; the
personnel links grow only by entries whose ids were not linked before
the pass, with at most one project-leader and one technical-leader link
added per personnel section (the per-pass total is bounded by the
number of `人员资料` sections, since each section's duplicate check
reads the session-cached pre-pass snapshot); the performance links grow
only by ids not linked before the pass, at most 3 per `业绩证明`
section; and a second run on the resulting state is the identity: it
creates no new bindings or links. -/
theorem claim_C6_auto_match (env : MatchEnv) (st st' : ProjState)
    (matched total : Nat)
    (hrun : auto_match_all_sections env st = (st', matched, total)) :
    total = st.sections.length ∧
    st'.sections.length = st.sections.length ∧
    matched = ((st.sections.zip st'.sections).filter
      (fun ab => ab.1.attachment_id = none ∧ ab.2.attachment_id ≠ none)).length ∧
    (∀ ab ∈ st.sections.zip st'.sections, ab.1.attachment_id ≠ none → ab.2 = ab.1) ∧
    (∃ np, st'.personnel_links = st.personnel_links ++ np ∧
      (np.filter (fun l => l.2 = cs (r"项目负责人"))).length ≤
        (st.sections.filter (fun s => s.section_type = cs (r"人员资料"))).length ∧
      (np.filter (fun l => l.2 = cs (r"技术负责人"))).length ≤
        (st.sections.filter (fun s => s.section_type = cs (r"人员资料"))).length ∧
      (∀ l ∈ np, l.1 ∉ st.personnel_links.map Prod.fst)) ∧
    (∃ nf, st'.performance_links = st.performance_links ++ nf ∧
      nf.length ≤ 3 * (st.sections.filter
        (fun s => s.section_type = cs (r"业绩证明"))).length ∧
      (∀ i ∈ nf, i ∉ st.performance_links)) ∧
    auto_match_all_sections env st' = (st', 0, st.sections.length) := by
  have ho : ∃ o : PassOut,
      autoMatchGo env (st.personnel_links.map Prod.fst) st.performance_links
        st.sections st.personnel_links st.performance_links = o :=
    ⟨_, rfl⟩
  obtain ⟨o, ho⟩ := ho
  have hrun2 : ((⟨(autoMatchGo env (st.personnel_links.map Prod.fst)
        st.performance_links st.sections st.personnel_links
        st.performance_links).sections,
      (autoMatchGo env (st.personnel_links.map Prod.fst) st.performance_links
        st.sections st.personnel_links st.performance_links).plinks,
      (autoMatchGo env (st.personnel_links.map Prod.fst) st.performance_links
        st.sections st.personnel_links st.performance_links).flinks⟩ : ProjState),
      (autoMatchGo env (st.personnel_links.map Prod.fst) st.performance_links
        st.sections st.personnel_links st.performance_links).count,
      st.sections.length) = (st', matched, total) := hrun
  rw [ho] at hrun2
  have hst : st' = ⟨o.sections, o.plinks, o.flinks⟩ :=
    (congrArg Prod.fst hrun2).symm
  have hmat : matched = o.count := (congrArg (fun p => p.2.1) hrun2).symm
  have htot : total = st.sections.length := (congrArg (fun p => p.2.2) hrun2).symm
  obtain ⟨hlen, hzip, hcnt, ⟨np, henp, hpnp, hcp, hct⟩, ⟨nf, henf, hpnf, hcf⟩⟩ :=
    autoGo_shape env (st.personnel_links.map Prod.fst) st.performance_links
      st.sections st.personnel_links st.performance_links
  rw [ho] at hlen hzip hcnt henp henf
  have hsat := autoGo_sat env (st.personnel_links.map Prod.fst)
    st.performance_links st.sections st.personnel_links st.performance_links
  rw [ho] at hsat
  subst hst hmat htot
  refine ⟨rfl, hlen, hcnt, ?_, ?_, ?_, ?_⟩
  · intro ab hab
    exact (hzip ab hab).2.2
  · exact ⟨np, henp, hcp, hct, fun l hl => (hpnp l hl).1⟩
  · exact ⟨nf, henf, hcf, fun i hi => (hpnf i hi).1⟩
  · have hnoop : autoMatchGo env (o.plinks.map Prod.fst) o.flinks o.sections
        o.plinks o.flinks = ⟨o.sections, o.plinks, o.flinks, 0⟩ := by
      apply autoGo_noop
      intro sec hs
      obtain ⟨h1, h2, h3⟩ := hsat sec hs
      refine ⟨h1, ?_, ?_⟩
      · intro ht pm hpm
        rcases h2 ht pm hpm with h4 | h4
        · rw [henp, List.map_append]
          exact List.mem_append.mpr (Or.inl h4)
        · exact h4
      · intro ht pm hpm
        rcases h3 ht pm hpm with h4 | h4
        · rw [henf]
          exact List.mem_append.mpr (Or.inl h4)
        · exact h4
    have hres : auto_match_all_sections env ⟨o.sections, o.plinks, o.flinks⟩ =
        ((⟨(autoMatchGo env (o.plinks.map Prod.fst) o.flinks o.sections o.plinks
            o.flinks).sections,
          (autoMatchGo env (o.plinks.map Prod.fst) o.flinks o.sections o.plinks
            o.flinks).plinks,
          (autoMatchGo env (o.plinks.map Prod.fst) o.flinks o.sections o.plinks
            o.flinks).flinks⟩ : ProjState),
         (autoMatchGo env (o.plinks.map Prod.fst) o.flinks o.sections o.plinks
            o.flinks).count,
         o.sections.length) := rfl
    rw [hnoop] at hres
    rw [hres, hlen]

/-- Witness for C6 on a concrete one-section project with empty
libraries: the run changes nothing and reports matched 0, total 1, and
the repeated run is the identity with the same counts. -/
theorem claim_C6_witness :
    auto_match_all_sections ⟨0, [], [], [], []⟩
        ⟨[⟨[], [], none, none⟩], [], []⟩
      = (⟨[⟨[], [], none, none⟩], [], []⟩, 0, 1) ∧
    auto_match_all_sections ⟨0, [], [], [], []⟩
        ⟨[⟨[], [], none, none⟩], [], []⟩
      = (⟨[⟨[], [], none, none⟩], [], []⟩, 0, 1) :=
  ⟨by decide,
   (claim_C6_auto_match ⟨0, [], [], [], []⟩ ⟨[⟨[], [], none, none⟩], [], []⟩
     ⟨[⟨[], [], none, none⟩], [], []⟩ 0 1 (by decide)).2.2.2.2.2.2⟩

/-- Counterexample to the original C6 per-pass link caps: with two
`人员资料` sections, one qualifying project-leader record and no
existing links, a single pass adds the same project-leader link twice,
because each section's duplicate check reads the session-cached
pre-pass link snapshot, which never contains the link added by the
other section of the same pass.  So "at most one project-lead link per
pass" fails; the cap holds per personnel section, not per pass. -/
theorem claim_C6_counterexample :
    (auto_match_all_sections
      ⟨0, [], [⟨11, cs (r"张三"), cs (r"高级"), cs (r"项目负责人"), [], 0⟩], [], []⟩
      ⟨[⟨cs (r"人员资料"), [], none, none⟩, ⟨cs (r"人员资料"), [], none, none⟩],
       [], []⟩).1.personnel_links
      = [(11, cs (r"项目负责人")), (11, cs (r"项目负责人"))] := by
  decide


/-- Witness for C10 at a concrete positively-classified text. -/
theorem claim_C10_witness :
    ∃ e ∈ SECTION_KEYWORD_MAP,
      (classify_section (cs (r"投标函"))).1 = e.stype ∧
      (classify_section (cs (r"投标函"))).2.1 = e.category :=
  (claim_C10_classify_invariants (cs (r"投标函"))).2.2.2.1 (by decide)

end BidDoc
